import Mathlib

/-!
# Memory allocators of `w1/`: buddy allocator, arena allocator, hybrid allocator

A shallow embedding of `w1/hybrid_allocator.cpp` (with the arena of
`w1/linear_allocator.cpp`, which is the same code) and of the allocator of
`w1/buddy_allocator.cpp` (namespace `Allocator`).

Representation choices.

* `size_t` / `uintptr_t` values are natural numbers; every operation that can wrap
  is reduced modulo `2 ^ 64` explicitly (`shl64`, `sub64`, `add64`, `ptr_sub`).
* A pointer is its address, a natural number; `NULL` is `0`.
* A call that does not return is `none`: in `buddy_allocator.cpp` the loop of
  `next_power_of_two` does not end for sizes above `2 ^ 63`.
* Raw memory is seen only through the `order_` field of the `Chunk` header stored at an
  address: `order_ : Nat → Nat`.
* The singly linked list hanging off `free_chunk_list_[index]` (links are the `next_`
  fields) is the Lean list of the chunk addresses it visits, head first.  Pushing at the
  head is `::`, unlinking the first node equal to a pointer is `List.erase`, the
  traversal of `find_chunk` is list membership.
-/

namespace W1

/-! ## Machine arithmetic -/

/-- The number of values of a `size_t` (64-bit). -/
def WORD : Nat := 2 ^ 64

/-- `sizeof(Chunk)`: a `size_t` and a pointer, 16 bytes. -/
def CHUNK_SIZE : Nat := 16

/-- `alignof(std::max_align_t)` on the 64-bit target. -/
def MAX_ALIGN : Nat := 16

/-- Left shift of a 64-bit value, `a << k`, truncated to 64 bits. C leaves a shift count
of 64 or more undefined; the 64-bit targets (x86-64, AArch64) shift by the count modulo 64,
and so does this definition: `1 << 64` is `1`. -/
def shl64 (a k : Nat) : Nat := (a <<< (k % 64)) % WORD

/-- Unsigned 64-bit addition. -/
def add64 (a b : Nat) : Nat := (a + b) % WORD

/-- Unsigned 64-bit subtraction (wraps below zero). -/
def sub64 (a b : Nat) : Nat := (a + WORD - b % WORD) % WORD

/-- Pointer arithmetic `p - q` on 64-bit addresses (the difference of two pointers, or a
pointer moved back by `q` bytes): it wraps below zero, as `sub64` does. -/
def ptr_sub (p q : Nat) : Nat := if p < q then p + WORD - q else p - q

/-- Index of the highest set bit of `y` when `y < 2 ^ n` (`0` for `y ≤ 1`). -/
def ilog2 : Nat → Nat → Nat
  | 0, _ => 0
  | n + 1, y => if y < 2 then 0 else ilog2 n (y / 2) + 1

/-- `__builtin_clzl` on a non-zero 64-bit value: number of leading zero bits. -/
def clzl (y : Nat) : Nat := 63 - ilog2 64 y

/-- `align_up(p, alignment)`: `(p + alignment - 1) & ~(alignment - 1)` on 64-bit values;
clearing the low bits of `q` is `q - q % alignment` for a power-of-two alignment. -/
def align_up (p alignment : Nat) : Nat :=
  let q := sub64 (add64 p alignment) 1
  q - q % alignment

/-- `next_power_of_two` of `hybrid_allocator.cpp`. For `x > 2 ^ 63` no leading bit of
`x - 1` is zero and the shift count is 64, which C leaves undefined: the value is then what
`shl64` gives, `1`. -/
def next_power_of_two (x : Nat) : Nat :=
  if x ≤ 1 then 1
  else shl64 1 (64 - clzl (x - 1))

/-! ## Buddy allocator -/

/-- State of a `BuddyAllocator`: its fields, the free lists and the header memory. -/
structure BuddyAllocator where
  /-- Address of the mapped region (`0` is `NULL`). -/
  base_addr_ : Nat
  /-- Size of the mapped region in bytes. -/
  max_memory_ : Nat
  /-- Smallest order served. -/
  min_order_ : Nat
  /-- Largest order served. -/
  max_order_ : Nat
  /-- `free_chunk_list_[index]`: the chunk addresses linked from that slot, head first. -/
  free_chunk_list_ : Nat → List Nat
  /-- The `order_` field of the chunk header stored at an address. -/
  order_ : Nat → Nat

namespace BuddyAllocator

/-- Store `v` into the `order_` field of the header at address `c`. -/
def set_order (s : BuddyAllocator) (c v : Nat) : BuddyAllocator :=
  { s with order_ := Function.update s.order_ c v }

/-- `add_chunk`: push the chunk at the head of the list selected by its header order. -/
def add_chunk (s : BuddyAllocator) (chunk_ptr : Nat) : BuddyAllocator :=
  if chunk_ptr = 0 then s
  else if s.order_ chunk_ptr < s.min_order_ ∨ s.order_ chunk_ptr > s.max_order_ then s
  else
    let index := s.order_ chunk_ptr - s.min_order_
    { s with free_chunk_list_ :=
        Function.update s.free_chunk_list_ index (chunk_ptr :: s.free_chunk_list_ index) }

/-- `find_chunk`: is the chunk linked in the list selected by its header order. -/
def find_chunk (s : BuddyAllocator) (chunk_ptr : Nat) : Bool :=
  if chunk_ptr = 0 then false
  else if s.order_ chunk_ptr < s.min_order_ ∨ s.order_ chunk_ptr > s.max_order_ then false
  else
    let index := s.order_ chunk_ptr - s.min_order_
    decide (chunk_ptr ∈ s.free_chunk_list_ index)

/-- `remove_chunk`: unlink the first node equal to the chunk from the list selected by
its header order. -/
def remove_chunk (s : BuddyAllocator) (chunk_ptr : Nat) : BuddyAllocator :=
  if chunk_ptr = 0 then s
  else if s.order_ chunk_ptr < s.min_order_ ∨ s.order_ chunk_ptr > s.max_order_ then s
  else
    let index := s.order_ chunk_ptr - s.min_order_
    { s with free_chunk_list_ :=
        Function.update s.free_chunk_list_ index ((s.free_chunk_list_ index).erase chunk_ptr) }

/-- The split loop of `get_memory`, `while (curr_order > target_order)`, by recursion on
`curr_order`: each round lowers the order by one, writes it into the header of the upper
half (`buddy`) and of `curr`, and pushes the upper half on its free list. -/
def split_loop (target_order curr : Nat) : Nat → BuddyAllocator → BuddyAllocator
  | 0, s => s
  | curr_order + 1, s =>
    if curr_order + 1 > target_order then
      let half_size := shl64 1 curr_order
      let buddy := curr + half_size
      let s1 := s.set_order buddy curr_order
      let s2 := s1.set_order curr curr_order
      split_loop target_order curr curr_order (s2.add_chunk buddy)
    else s

/-- The search loop of `get_memory`, `for (i = target_order; i <= max_order_; i++)`;
`n` counts the orders still to visit. Returns the pointer (`0` for `NULL`) and the state. -/
def search_loop (s : BuddyAllocator) (target_order : Nat) : Nat → Nat → Nat × BuddyAllocator
  | _, 0 => (0, s)
  | i, n + 1 =>
    match s.free_chunk_list_ (i - s.min_order_) with
    | [] => search_loop s target_order (i + 1) n
    | block :: _ =>
      let s1 := s.remove_chunk block
      (block + CHUNK_SIZE, split_loop target_order block i s1)

/-- `get_memory(size)`: the returned pointer (`0` for `NULL`) and the state after the call.
`std::log2` of the power of two `required_size` is its exponent, `ilog2`. -/
def get_memory (s : BuddyAllocator) (size : Nat) : Nat × BuddyAllocator :=
  let required_size := next_power_of_two (add64 size CHUNK_SIZE)
  if required_size > shl64 1 s.max_order_ ∨ required_size < shl64 1 s.min_order_ then (0, s)
  else
    let target_order := ilog2 64 required_size
    search_loop s target_order target_order (s.max_order_ + 1 - target_order)

/-- The address `base_addr_ + ((chunk_ptr - base_addr_) ^ (1ULL << order))`. The pointer
difference is a 64-bit value: for a chunk below the base it wraps, and the sum wraps back.
For a chunk at or above the base the difference is its offset and the sum is formed like
the other pointer sums of the allocator (`curr + half_size`, `block + sizeof(Chunk)`). -/
def buddy_of (s : BuddyAllocator) (chunk_ptr order : Nat) : Nat :=
  let off := ptr_sub chunk_ptr s.base_addr_ ^^^ shl64 1 order
  if chunk_ptr < s.base_addr_ then add64 s.base_addr_ off else s.base_addr_ + off

/-- One round of the coalescing loop of `free_chunk` for a chunk at `chunk_ptr` and the
loop variable `order < max_order_`: `none` when the loop breaks, otherwise the state and
the chunk pointer after the merge. -/
def merge_step (s : BuddyAllocator) (chunk_ptr order : Nat) : Option (BuddyAllocator × Nat) :=
  let buddy := s.buddy_of chunk_ptr order
  if s.find_chunk buddy = false ∨ s.order_ buddy ≠ s.order_ chunk_ptr then none
  else
    let s1 := s.remove_chunk buddy
    let chunk_ptr1 := if buddy < chunk_ptr then buddy else chunk_ptr
    some (s1.set_order chunk_ptr1 (order + 1), chunk_ptr1)

/-- The coalescing loop of `free_chunk`, `while (order < max_order_)`; `n` bounds the
number of rounds and is `max_order_ - order` at the call, which the loop cannot exceed
since every round raises `order` by one. -/
def merge_loop : Nat → BuddyAllocator → Nat → Nat → BuddyAllocator × Nat
  | 0, s, chunk_ptr, _ => (s, chunk_ptr)
  | n + 1, s, chunk_ptr, order =>
    if order < s.max_order_ then
      match s.merge_step chunk_ptr order with
      | none => (s, chunk_ptr)
      | some (s1, chunk_ptr1) => merge_loop n s1 chunk_ptr1 (order + 1)
    else (s, chunk_ptr)

/-- `free_chunk(data_ptr)`. -/
def free_chunk (s : BuddyAllocator) (data_ptr : Nat) : BuddyAllocator :=
  if data_ptr = 0 then s
  else
    let chunk_ptr := ptr_sub data_ptr CHUNK_SIZE
    let order := s.order_ chunk_ptr
    let r := merge_loop (s.max_order_ - order) s chunk_ptr order
    r.1.add_chunk r.2

/-- The loops `while ((1ULL << k) < limit) k++` of the constructor, started at `k`;
`n` bounds the number of rounds (64 suffice for every 64-bit `limit` the constructor
passes: `sizeof(Chunk)` and a result of `next_power_of_two`). -/
def order_loop (limit : Nat) : Nat → Nat → Nat
  | 0, k => k
  | n + 1, k => if shl64 1 k < limit then order_loop limit n (k + 1) else k

/-- The constructor `BuddyAllocator(max_memory, min_order, max_order)` when `malloc`
and `mmap` succeed; `base` is the address `mmap` returned and `mem` the header memory
found there. -/
def create (base : Nat) (mem : Nat → Nat) (max_memory min_order max_order : Nat) :
    BuddyAllocator :=
  let min_order_required := order_loop CHUNK_SIZE 64 0
  let min_order1 := if min_order < min_order_required then min_order_required else min_order
  let max_size := next_power_of_two max_memory
  let max_order_possible := order_loop max_size 64 0
  let max_order1 := if max_order > max_order_possible then max_order_possible else max_order
  let min_order2 := if min_order1 > max_order1 then max_order1 else min_order1
  let s : BuddyAllocator :=
    { base_addr_ := base
      max_memory_ := next_power_of_two max_memory
      min_order_ := min_order2
      max_order_ := max_order1
      free_chunk_list_ := fun _ => []
      order_ := mem }
  (s.set_order base max_order1).add_chunk base

end BuddyAllocator

/-! ## Arena allocator -/

/-- State of a `LinearAllocator`. -/
structure LinearAllocator where
  /-- Capacity in bytes. -/
  max_size_ : Nat
  /-- Address of the mapped region (`0` is `NULL`). -/
  base_address_ : Nat
  /-- The cursor. -/
  curr_address_ : Nat

namespace LinearAllocator

/-- The constructor `LinearAllocator(max_size)`; `base` is the address `mmap` returned,
`0` when it failed. -/
def create (max_size base : Nat) : LinearAllocator :=
  { max_size_ := max_size, base_address_ := base, curr_address_ := base }

/-- `get_memory(size)`: the returned pointer (`0` for `NULL`) and the state after the call. -/
def get_memory (s : LinearAllocator) (size : Nat) : Nat × LinearAllocator :=
  if s.base_address_ = 0 ∨ size = 0 then (0, s)
  else
    let curr := s.curr_address_
    let aligned := align_up curr MAX_ALIGN
    let used := sub64 aligned s.base_address_
    if size > sub64 s.max_size_ used then (0, s)
    else (aligned, { s with curr_address_ := add64 aligned size })

/-- `reset()`. -/
def reset (s : LinearAllocator) : LinearAllocator :=
  { s with curr_address_ := s.base_address_ }

end LinearAllocator

/-! ## Reachable states and their invariant -/

namespace BuddyAllocator

/-- `Reachable s0 s live`: the state `s` is reached from `s0` by calls of `get_memory`
and of `free_chunk` on pointers currently allocated; `live` lists the pointers handed
out and not yet freed, most recent first. -/
inductive Reachable (s0 : BuddyAllocator) : BuddyAllocator → List Nat → Prop
  | init : Reachable s0 s0 []
  | alloc_ok {s : BuddyAllocator} {live : List Nat} (size : Nat) :
      Reachable s0 s live → (s.get_memory size).1 ≠ 0 →
      Reachable s0 (s.get_memory size).2 ((s.get_memory size).1 :: live)
  | alloc_null {s : BuddyAllocator} {live : List Nat} (size : Nat) :
      Reachable s0 s live → (s.get_memory size).1 = 0 →
      Reachable s0 (s.get_memory size).2 live
  | free {s : BuddyAllocator} {live : List Nat} (p : Nat) :
      Reachable s0 s live → p ∈ live →
      Reachable s0 (s.free_chunk p) (live.erase p)

/-- Number of slots of the free-list table, `max_order_ - min_order_ + 1`. -/
def list_size (s : BuddyAllocator) : Nat := s.max_order_ - s.min_order_ + 1

/-- Sum of `2 ^ order_` over the chunks linked in the free-list table. -/
def free_bytes (s : BuddyAllocator) : Nat :=
  ((List.range s.list_size).map
    (fun j => ((s.free_chunk_list_ j).map (fun c => 2 ^ s.order_ c)).sum)).sum

/-- Sum of `2 ^ order_` over the allocated blocks; the header of the block handed out
as `p` is at `p - sizeof(Chunk)`. -/
def live_bytes (s : BuddyAllocator) (live : List Nat) : Nat :=
  (live.map (fun p => 2 ^ s.order_ (p - CHUNK_SIZE))).sum

/-- The chunk at address `c` is linked in some free list. -/
def IsFree (s : BuddyAllocator) (c : Nat) : Prop := ∃ j, c ∈ s.free_chunk_list_ j

/-- The address `c` is the header of a block: a free chunk or an allocated block. -/
def Blk (s : BuddyAllocator) (live : List Nat) (c : Nat) : Prop :=
  s.IsFree c ∨ c + CHUNK_SIZE ∈ live

/-- Invariant of the reachable states, relative to the allocated pointers `live`. -/
structure Inv (s : BuddyAllocator) (live : List Nat) : Prop where
  /-- Orders are shift counts of a 64-bit word. -/
  max_le : s.max_order_ ≤ 63
  /-- The order range is not empty. -/
  min_le : s.min_order_ ≤ s.max_order_
  /-- The region is mapped. -/
  base_ne : s.base_addr_ ≠ 0
  /-- A chunk in slot `j` has header order `j + min_order_`. -/
  free_hdr : ∀ j c, c ∈ s.free_chunk_list_ j → s.order_ c = j + s.min_order_
  /-- An allocated pointer follows a header whose order is at least `min_order_`. -/
  live_hdr : ∀ p, p ∈ live → CHUNK_SIZE ≤ p ∧ s.min_order_ ≤ s.order_ (p - CHUNK_SIZE)
  /-- Every block starts in the region at a multiple of its size and ends in it. -/
  geom : ∀ c, s.Blk live c → s.base_addr_ ≤ c ∧ 2 ^ s.order_ c ∣ (c - s.base_addr_) ∧
    (c - s.base_addr_) + 2 ^ s.order_ c ≤ 2 ^ s.max_order_
  /-- Two different blocks do not overlap. -/
  disj : ∀ c c', s.Blk live c → s.Blk live c' → c ≠ c' →
    c + 2 ^ s.order_ c ≤ c' ∨ c' + 2 ^ s.order_ c' ≤ c
  /-- No chunk is linked twice in a list. -/
  free_nodup : ∀ j, (s.free_chunk_list_ j).Nodup
  /-- No pointer is allocated twice. -/
  live_nodup : live.Nodup
  /-- A free chunk is not allocated. -/
  free_live : ∀ j c, c ∈ s.free_chunk_list_ j → c + CHUNK_SIZE ∉ live
  /-- Free and allocated blocks add up to the initial block. -/
  total : s.free_bytes + s.live_bytes live = 2 ^ s.max_order_
  /-- Two free chunks of one order are never buddies. -/
  no_buddies : ∀ j c c', c ∈ s.free_chunk_list_ j → c' ∈ s.free_chunk_list_ j →
    (c - s.base_addr_) ^^^ (c' - s.base_addr_) ≠ 2 ^ (j + s.min_order_)

/-- The state after one round of the split loop on the chunk at `c`: both halves get
order `k`, the upper half is linked. -/
def halve (s : BuddyAllocator) (c k : Nat) : BuddyAllocator :=
  ((s.set_order (c + shl64 1 k) k).set_order c k).add_chunk (c + shl64 1 k)

/-- The rounds of the coalescing loop that merge, in order: for each one the state at
the start of the round, the chunk pointer and the loop variable `order`. It follows
`merge_loop` round by round. -/
def merge_trace : Nat → BuddyAllocator → Nat → Nat → List (BuddyAllocator × Nat × Nat)
  | 0, _, _, _ => []
  | n + 1, s, chunk_ptr, order =>
    if order < s.max_order_ then
      match s.merge_step chunk_ptr order with
      | none => []
      | some (s1, chunk_ptr1) => (s, chunk_ptr, order) :: merge_trace n s1 chunk_ptr1 (order + 1)
    else []

/-- The merging rounds performed by `free_chunk(data_ptr)`. -/
def free_chunk_rounds (s : BuddyAllocator) (data_ptr : Nat) :
    List (BuddyAllocator × Nat × Nat) :=
  if data_ptr = 0 then []
  else
    let chunk_ptr := ptr_sub data_ptr CHUNK_SIZE
    let order := s.order_ chunk_ptr
    merge_trace (s.max_order_ - order) s chunk_ptr order

end BuddyAllocator

/-! ## Ghost state for the buddy allocator: split rounds, handed-out orders -/

namespace BuddyAllocator

/-- The target order `get_memory(size)` computes, `log2` of the rounded size. -/
def target_order (size : Nat) : Nat :=
  ilog2 64 (next_power_of_two (add64 size CHUNK_SIZE))

/-- The rounds of the split loop, in order: for each one the state at the start of the
round, the chunk pointer `curr` and the order `curr_order` before it is lowered. It
follows `split_loop` round by round. -/
def split_trace (target_order curr : Nat) :
    Nat → BuddyAllocator → List (BuddyAllocator × Nat × Nat)
  | 0, _ => []
  | curr_order + 1, s =>
    if curr_order + 1 > target_order then
      (s, curr, curr_order + 1) ::
        split_trace target_order curr curr_order (s.halve curr curr_order)
    else []

/-- The split rounds of the search loop: those of the first non-empty list found. -/
def search_rounds (s : BuddyAllocator) (target_order : Nat) :
    Nat → Nat → List (BuddyAllocator × Nat × Nat)
  | _, 0 => []
  | i, n + 1 =>
    match s.free_chunk_list_ (i - s.min_order_) with
    | [] => search_rounds s target_order (i + 1) n
    | block :: _ => split_trace target_order block i (s.remove_chunk block)

/-- The split rounds performed by `get_memory(size)`. -/
def get_memory_rounds (s : BuddyAllocator) (size : Nat) : List (BuddyAllocator × Nat × Nat) :=
  let required_size := next_power_of_two (add64 size CHUNK_SIZE)
  if required_size > shl64 1 s.max_order_ ∨ required_size < shl64 1 s.min_order_ then []
  else
    let target_order := ilog2 64 required_size
    search_rounds s target_order target_order (s.max_order_ + 1 - target_order)

/-- `Handed s0 s out`: as `Reachable`, recording with every allocated pointer the target
order of the request that returned it. -/
inductive Handed (s0 : BuddyAllocator) : BuddyAllocator → List (Nat × Nat) → Prop
  | init : Handed s0 s0 []
  | alloc_ok {s : BuddyAllocator} {out : List (Nat × Nat)} (size : Nat) :
      Handed s0 s out → (s.get_memory size).1 ≠ 0 →
      Handed s0 (s.get_memory size).2 (((s.get_memory size).1, target_order size) :: out)
  | alloc_null {s : BuddyAllocator} {out : List (Nat × Nat)} (size : Nat) :
      Handed s0 s out → (s.get_memory size).1 = 0 →
      Handed s0 (s.get_memory size).2 out
  | free {s : BuddyAllocator} {out : List (Nat × Nat)} (p k : Nat) :
      Handed s0 s out → (p, k) ∈ out →
      Handed s0 (s.free_chunk p) (out.erase (p, k))

end BuddyAllocator

/-! ## Hybrid allocator -/

/-- State of a `HybridAllocator`. -/
structure HybridAllocator where
  /-- Largest size served by the arena. -/
  threshold_ : Nat
  /-- The arena. -/
  linear_allocator_ : LinearAllocator
  /-- The buddy allocator. -/
  buddy_allocator_ : BuddyAllocator

namespace HybridAllocator

/-- The constructor `HybridAllocator(linear_max_size, buddy_max_memory, buddy_min_order,
buddy_max_order)`; `lbase` and `bbase` are the addresses `mmap` returned for the arena
and for the buddy region, `mem` the header memory found in the buddy region. -/
def create (lbase bbase : Nat) (mem : Nat → Nat)
    (linear_max_size buddy_max_memory buddy_min_order buddy_max_order : Nat) :
    HybridAllocator :=
  { threshold_ := 1024
    linear_allocator_ := LinearAllocator.create linear_max_size lbase
    buddy_allocator_ :=
      BuddyAllocator.create bbase mem buddy_max_memory buddy_min_order buddy_max_order }

/-- `get_memory(size)`: the returned pointer (`0` for `NULL`) and the state after the call. -/
def get_memory (s : HybridAllocator) (size : Nat) : Nat × HybridAllocator :=
  if size ≤ s.threshold_ then
    ((s.linear_allocator_.get_memory size).1,
      { s with linear_allocator_ := (s.linear_allocator_.get_memory size).2 })
  else
    ((s.buddy_allocator_.get_memory size).1,
      { s with buddy_allocator_ := (s.buddy_allocator_.get_memory size).2 })

/-- `free(ptr)`. -/
def free (s : HybridAllocator) (ptr : Nat) : HybridAllocator :=
  if ptr ≥ s.linear_allocator_.base_address_ ∧
      ptr < s.linear_allocator_.base_address_ + s.linear_allocator_.max_size_ then s
  else { s with buddy_allocator_ := s.buddy_allocator_.free_chunk ptr }

/-- `Reachable h0 s live`: the state `s` is reached from `h0` by calls of `get_memory`,
of `free` on a pointer of the arena range or on a pointer the buddy allocator handed out
and that is still allocated, and of `linear_allocator_.reset()`; `live` lists the
allocated buddy pointers. -/
inductive Reachable (h0 : HybridAllocator) : HybridAllocator → List Nat → Prop
  | init : Reachable h0 h0 []
  | alloc {s : HybridAllocator} {live : List Nat} (size : Nat) :
      Reachable h0 s live →
      Reachable h0 (s.get_memory size).2
        (if s.threshold_ < size ∧ (s.get_memory size).1 ≠ 0
          then (s.get_memory size).1 :: live else live)
  | free {s : HybridAllocator} {live : List Nat} (p : Nat) :
      Reachable h0 s live →
      ((p ≥ s.linear_allocator_.base_address_ ∧
          p < s.linear_allocator_.base_address_ + s.linear_allocator_.max_size_) ∨
        p ∈ live) →
      Reachable h0 (s.free p)
        (if p ≥ s.linear_allocator_.base_address_ ∧
            p < s.linear_allocator_.base_address_ + s.linear_allocator_.max_size_
          then live else live.erase p)
  | reset {s : HybridAllocator} {live : List Nat} :
      Reachable h0 s live →
      Reachable h0 { s with linear_allocator_ := s.linear_allocator_.reset } live

end HybridAllocator

/-! ## The allocator of `w1/buddy_allocator.cpp` -/

/-- State of an `Allocator` (`buddy_allocator.cpp`): its fields, the free lists and the
`order_` fields of the chunk nodes, which `malloc` provides. -/
structure Allocator where
  /-- Address of the mapped region (`0` is `NULL`). -/
  base_addr_ : Nat
  /-- Size of the mapped region in bytes. -/
  max_memory_ : Nat
  /-- Smallest order served. -/
  min_order_ : Nat
  /-- Largest order served. -/
  max_order_ : Nat
  /-- `free_chunk_list_[index]`: the chunk nodes linked from that slot, head first. -/
  free_chunk_list_ : Nat → List Nat
  /-- The `order_` field of the chunk node at an address. -/
  order_ : Nat → Nat

namespace Allocator

/-- The loop `while ((1ULL << i) < size) i++` of `next_power_of_two`, started at `i`:
the value of `i` at which it ends, `none` when it has not ended within `n` tests of its
condition. For `size ≤ 2 ^ 63` it ends within 64 tests (`pow_loop_total`); for
`size > 2 ^ 63` no power of two of 64 bits reaches `size` and it never ends
(`pow_loop_diverges`). -/
def pow_loop (size : Nat) : Nat → Nat → Option Nat
  | 0, _ => none
  | n + 1, i => if shl64 1 i < size then pow_loop size n (i + 1) else some i

/-- `next_power_of_two` of `buddy_allocator.cpp`; `none` when its loop does not end. -/
def next_power_of_two (size : Nat) : Option Nat :=
  if size = 0 then some 1
  else
    match pow_loop size 64 0 with
    | none => none
    | some i => some (shl64 1 i)

/-- `add_chunk`: push the chunk at the head of the list selected by its order. -/
def add_chunk (s : Allocator) (chunk_ptr : Nat) : Allocator :=
  if chunk_ptr = 0 then s
  else if s.order_ chunk_ptr < s.min_order_ ∨ s.order_ chunk_ptr > s.max_order_ then s
  else
    let index := s.order_ chunk_ptr - s.min_order_
    { s with free_chunk_list_ :=
        Function.update s.free_chunk_list_ index (chunk_ptr :: s.free_chunk_list_ index) }

/-- `remove_chunk`: unlink the first node equal to the chunk from the list selected by
its order. -/
def remove_chunk (s : Allocator) (chunk_ptr : Nat) : Allocator :=
  if chunk_ptr = 0 then s
  else if s.order_ chunk_ptr < s.min_order_ ∨ s.order_ chunk_ptr > s.max_order_ then s
  else
    let index := s.order_ chunk_ptr - s.min_order_
    { s with free_chunk_list_ :=
        Function.update s.free_chunk_list_ index ((s.free_chunk_list_ index).erase chunk_ptr) }

/-- The loop of `get_memory`, `for (i = target_order; i <= max_order_; i++)`; `n` counts
the orders still to visit. A non-empty list of an order above the target is passed over
(the branch that would split is empty). -/
def search_loop (s : Allocator) (target_order : Nat) : Nat → Nat → Nat × Allocator
  | _, 0 => (0, s)
  | i, n + 1 =>
    match s.free_chunk_list_ (i - s.min_order_) with
    | [] => search_loop s target_order (i + 1) n
    | result :: _ =>
      if i = target_order then (result, s.remove_chunk result)
      else search_loop s target_order (i + 1) n

/-- `get_memory(size)`: the returned chunk pointer (`0` for `NULL`) and the state; `none`
when the call does not return (the rounding loop does not end). -/
def get_memory (s : Allocator) (size : Nat) : Option (Nat × Allocator) :=
  match next_power_of_two size with
  | none => none
  | some required_size =>
    if required_size > shl64 1 s.max_order_ ∨ required_size < shl64 1 s.min_order_ then
      some (0, s)
    else
      let target_order := ilog2 64 required_size
      some (search_loop s target_order target_order (s.max_order_ + 1 - target_order))

/-- `free_chunk(chunk_ptr)`. -/
def free_chunk (s : Allocator) (chunk_ptr : Nat) : Allocator :=
  if chunk_ptr = 0 then s else s.add_chunk chunk_ptr

/-- The constructor `Allocator(max_memory, min_order, max_order)` when `malloc` and
`mmap` succeed; `base` is the address `mmap` returned, `full_block` the chunk node
`malloc` returned and `mem` the `order_` fields found in memory. `none` when the
constructor does not return (the rounding loop does not end). -/
def create (base full_block : Nat) (mem : Nat → Nat) (max_memory min_order max_order : Nat) :
    Option Allocator :=
  match next_power_of_two max_memory with
  | none => none
  | some max_memory1 =>
    let s : Allocator :=
      { base_addr_ := base
        max_memory_ := max_memory1
        min_order_ := min_order
        max_order_ := max_order
        free_chunk_list_ := fun _ => []
        order_ := Function.update mem full_block max_order }
    some (s.add_chunk full_block)

end Allocator

/-! ## Arithmetic lemmas -/

theorem shl64_one {k : Nat} (h : k ≤ 63) : shl64 1 k = 2 ^ k := by
  unfold shl64 WORD
  rw [Nat.mod_eq_of_lt (show k < 64 by omega), Nat.one_shiftLeft]
  apply Nat.mod_eq_of_lt
  exact Nat.pow_lt_pow_right (by norm_num) (by omega)

/-- A shift of `1` is a power of two below `2 ^ 64`, whatever the count. -/
theorem shl64_one_mod (k : Nat) : shl64 1 k = 2 ^ (k % 64) := by
  have h : shl64 1 k = shl64 1 (k % 64) := by
    unfold shl64
    rw [Nat.mod_mod]
  rw [h, shl64_one (by omega)]

theorem ptr_sub_of_le {p q : Nat} (h : q ≤ p) : ptr_sub p q = p - q := by
  unfold ptr_sub
  rw [if_neg (by omega)]

/-- For a chunk at or above the base the buddy address is the base plus the offset with
bit `order` flipped. -/
theorem BuddyAllocator.buddy_of_of_le {s : BuddyAllocator} {c k : Nat}
    (h : s.base_addr_ ≤ c) :
    s.buddy_of c k = s.base_addr_ + ((c - s.base_addr_) ^^^ shl64 1 k) := by
  unfold BuddyAllocator.buddy_of
  simp only []
  rw [if_neg (by omega), ptr_sub_of_le h]

theorem ilog2_spec : ∀ (n y : Nat), y ≠ 0 → y < 2 ^ n →
    2 ^ ilog2 n y ≤ y ∧ y < 2 ^ (ilog2 n y + 1)
  | 0, y, h0, h => by simp at h; omega
  | n + 1, y, h0, h => by
    unfold ilog2
    split
    · simp; omega
    · have ih := ilog2_spec n (y / 2) (by omega) (by rw [pow_succ] at h; omega)
      rw [pow_succ, pow_succ]
      omega

theorem ilog2_pow {n k : Nat} (h : k < n) : ilog2 n (2 ^ k) = k := by
  have hs := ilog2_spec n (2 ^ k) (by positivity) (Nat.pow_lt_pow_right (by norm_num) h)
  have h1 : ilog2 n (2 ^ k) ≤ k := (Nat.pow_le_pow_iff_right (by norm_num)).1 hs.1
  have h2 : k < ilog2 n (2 ^ k) + 1 := (Nat.pow_lt_pow_iff_right (by norm_num)).1 hs.2
  omega

theorem next_power_of_two_eq {n : Nat} (h2 : 2 ≤ n) (h : n ≤ 2 ^ 63) :
    next_power_of_two n = 2 ^ (ilog2 64 (n - 1) + 1) ∧ ilog2 64 (n - 1) + 1 ≤ 63 := by
  have hy : n - 1 ≠ 0 := by omega
  have hs := ilog2_spec 64 (n - 1) hy (by omega)
  have hL : ilog2 64 (n - 1) < 63 := by
    refine (Nat.pow_lt_pow_iff_right (a := 2) (by norm_num)).1 ?_
    omega
  unfold next_power_of_two clzl
  rw [if_neg (by omega)]
  have : 64 - (63 - ilog2 64 (n - 1)) = ilog2 64 (n - 1) + 1 := by omega
  rw [this, shl64_one (by omega)]
  exact ⟨rfl, by omega⟩

theorem xor_two_pow_cases : ∀ (k a : Nat), 2 ^ k ∣ a →
    (a ^^^ 2 ^ k = a + 2 ^ k ∧ 2 ^ (k + 1) ∣ a) ∨
    (2 ^ k ≤ a ∧ a ^^^ 2 ^ k = a - 2 ^ k ∧ 2 ^ (k + 1) ∣ a - 2 ^ k)
  | 0, a, _ => by
    have hd : (a ^^^ 1) / 2 = a / 2 := by rw [Nat.xor_div_two]; simp
    have hm : ((a ^^^ 1) % 2 = 1) ↔ ¬ (a % 2 = 1) := by
      rw [Nat.xor_mod_two_eq_one]; simp
    simp only [pow_zero, zero_add, pow_one]
    rcases Nat.mod_two_eq_zero_or_one a with h | h
    · left
      have := hm.2 (by omega)
      omega
    · right
      have : ¬ ((a ^^^ 1) % 2 = 1) := fun hh => hm.1 hh h
      omega
  | k + 1, a, hdiv => by
    have h2 : 2 ∣ a := Dvd.dvd.trans ⟨2 ^ k, by rw [pow_succ, mul_comm]⟩ hdiv
    have hd : (a ^^^ 2 ^ (k + 1)) / 2 = a / 2 ^^^ 2 ^ k := by
      rw [Nat.xor_div_two, pow_succ, Nat.mul_div_cancel _ (by norm_num)]
    have hm : ¬ ((a ^^^ 2 ^ (k + 1)) % 2 = 1) := by
      rw [Nat.xor_mod_two_eq_one, pow_succ, Nat.mul_mod_left]
      omega
    have hdiv' : 2 ^ k ∣ a / 2 := by
      obtain ⟨q, hq⟩ := hdiv
      refine ⟨q, ?_⟩
      rw [hq, pow_succ]
      rw [mul_comm (2 ^ k) 2, mul_assoc, Nat.mul_div_cancel_left _ (by norm_num)]
    have ih := xor_two_pow_cases k (a / 2) hdiv'
    have hp : 2 ^ (k + 1) = 2 * 2 ^ k := by rw [pow_succ, mul_comm]
    have hp2 : 2 ^ (k + 1 + 1) = 2 * 2 ^ (k + 1) := by rw [pow_succ, mul_comm]
    have ha : 2 * (a / 2) = a := by omega
    rcases ih with ⟨e, d⟩ | ⟨l, e, d⟩
    · left
      refine ⟨by omega, ?_⟩
      rw [hp2, ← ha]
      exact Nat.mul_dvd_mul_left 2 d
    · right
      refine ⟨by omega, by omega, ?_⟩
      have : a - 2 ^ (k + 1) = 2 * (a / 2 - 2 ^ k) := by omega
      rw [hp2, this]
      exact Nat.mul_dvd_mul_left 2 d

theorem two_pow_succ_not_dvd (k : Nat) : ¬ 2 ^ (k + 1) ∣ 2 ^ k := by
  intro h
  have h1 := Nat.le_of_dvd (by positivity) h
  have h2 : 2 ^ k < 2 ^ (k + 1) := Nat.pow_lt_pow_right (by norm_num) (by omega)
  omega

theorem xor_buddy_low {k a : Nat} (h : 2 ^ (k + 1) ∣ a) : a ^^^ 2 ^ k = a + 2 ^ k := by
  have hk : 2 ^ k ∣ a := Dvd.dvd.trans ⟨2, by rw [pow_succ]⟩ h
  rcases xor_two_pow_cases k a hk with ⟨e, _⟩ | ⟨l, _, d⟩
  · exact e
  · exfalso
    have := (Nat.dvd_sub' h d)
    rw [Nat.sub_sub_self l] at this
    exact two_pow_succ_not_dvd k this

theorem xor_buddy_high {k a : Nat} (h : 2 ^ (k + 1) ∣ a) : (a + 2 ^ k) ^^^ 2 ^ k = a := by
  rw [← xor_buddy_low h, Nat.xor_assoc, Nat.xor_self, Nat.xor_zero]

theorem xor_eq_right {a b c : Nat} (h : a ^^^ b = c) : b = a ^^^ c := by
  rw [← h, ← Nat.xor_assoc, Nat.xor_self, Nat.zero_xor]

theorem xor_eq_left {a b c : Nat} (h : a ^^^ b = c) : a = b ^^^ c := by
  rw [Nat.xor_comm] at h
  exact xor_eq_right h

/-! ## Power-of-two rounding -/

/-- C8 (as stated, refuted): over 64-bit `size_t` the rounding of `2 ^ 63 + 1` is not
at least its argument; no 64-bit value is a power of two that large. -/
theorem next_power_of_two_above_half :
    2 ^ 63 + 1 < WORD ∧ ¬ (2 ^ 63 + 1 ≤ next_power_of_two (2 ^ 63 + 1)) := by
  decide

/-- C8 (amended): `next_power_of_two 1 = 1`, and for every `n` with `1 ≤ n ≤ 2 ^ 63` the
result is a power of two, at least `n` and below `2 * n`. -/
theorem next_power_of_two_spec :
    next_power_of_two 1 = 1 ∧
    ∀ n : Nat, 1 ≤ n → n ≤ 2 ^ 63 →
      (∃ k, next_power_of_two n = 2 ^ k) ∧ n ≤ next_power_of_two n ∧
        next_power_of_two n < 2 * n := by
  refine ⟨by simp [next_power_of_two], ?_⟩
  intro n h1 h63
  rcases Nat.lt_or_ge n 2 with h | h
  · have : n = 1 := by omega
    subst this
    refine ⟨⟨0, by simp [next_power_of_two]⟩, by simp [next_power_of_two],
      by simp [next_power_of_two]⟩
  · rw [(next_power_of_two_eq h h63).1]
    have hy : n - 1 ≠ 0 := by omega
    have hs := ilog2_spec 64 (n - 1) hy (by omega)
    refine ⟨⟨_, rfl⟩, by omega, ?_⟩
    rw [pow_succ]
    omega

/-- C8 (amended) at `n = 21`: the rounding is `32 = 2 ^ 5`. -/
theorem next_power_of_two_spec_witness :
    (1 ≤ 21 ∧ 21 ≤ 2 ^ 63) ∧
      ((∃ k, next_power_of_two 21 = 2 ^ k) ∧ 21 ≤ next_power_of_two 21 ∧
        next_power_of_two 21 < 2 * 21) :=
  ⟨by decide, next_power_of_two_spec.2 21 (by decide) (by decide)⟩

/-! ## Buddy allocator: failure paths -/

namespace BuddyAllocator

theorem search_loop_null (s : BuddyAllocator) (t : Nat) :
    ∀ (n i : Nat), (search_loop s t i n).1 = 0 → search_loop s t i n = (0, s)
  | 0, i, _ => rfl
  | n + 1, i, h => by
    unfold search_loop at h ⊢
    split
    · rename_i heq
      rw [heq] at h
      exact search_loop_null s t n (i + 1) h
    · rename_i block rest heq
      rw [heq] at h
      simp [CHUNK_SIZE] at h

/-- C4 (as stated, refuted): on the allocator built with `max_order = 20`,
`min_order = 10` over a 1 MiB region, whose order-20 list holds the whole region,
`get_memory(5)` returns `NULL`. -/
theorem get_memory_small_fails :
    (create 1048576 (fun _ => 0) (2 ^ 20) 10 20).min_order_ = 10 ∧
    (create 1048576 (fun _ => 0) (2 ^ 20) 10 20).free_chunk_list_ 10 = [1048576] ∧
    next_power_of_two (add64 5 CHUNK_SIZE) < 2 ^ 10 ∧
    ((create 1048576 (fun _ => 0) (2 ^ 20) 10 20).get_memory 5).1 = 0 := by
  decide

/-- C4 (amended): a request whose rounded size is below `2 ^ min_order_` is refused:
`get_memory` returns `NULL` and the state is unchanged. -/
theorem get_memory_below_min (s : BuddyAllocator) (size : Nat)
    (h : next_power_of_two (add64 size CHUNK_SIZE) < shl64 1 s.min_order_) :
    s.get_memory size = (0, s) := by
  unfold get_memory
  simp only []
  rw [if_pos (Or.inr h)]

/-- C4 (amended) on the 1 MiB allocator with `min_order = 10`, request of 5 bytes. -/
theorem get_memory_below_min_witness :
    next_power_of_two (add64 5 CHUNK_SIZE) <
        shl64 1 (create 1048576 (fun _ => 0) (2 ^ 20) 10 20).min_order_ ∧
    (create 1048576 (fun _ => 0) (2 ^ 20) 10 20).get_memory 5 =
      (0, create 1048576 (fun _ => 0) (2 ^ 20) 10 20) :=
  ⟨by decide, get_memory_below_min _ 5 (by decide)⟩

theorem get_memory_null_state (s : BuddyAllocator) (size : Nat)
    (h : (s.get_memory size).1 = 0) : (s.get_memory size).2 = s := by
  unfold get_memory at h ⊢
  simp only [] at h ⊢
  split
  · rfl
  · rename_i hr
    rw [if_neg hr] at h
    rw [search_loop_null s _ _ _ h]

/-- C9: when `get_memory` returns `NULL`, the state after the call (free-list table and
chunk headers) is the state before it. -/
theorem get_memory_null_unchanged (s : BuddyAllocator) (size : Nat)
    (h : (s.get_memory size).1 = 0) : (s.get_memory size).2 = s :=
  get_memory_null_state s size h

/-- C9 on an exhausted allocator: after the whole 1 MiB block was handed out a second
request fails and changes nothing. -/
theorem get_memory_null_unchanged_witness :
    (((create 1048576 (fun _ => 0) (2 ^ 20) 10 20).get_memory 1000000).2.get_memory 2000).1 = 0 ∧
    (((create 1048576 (fun _ => 0) (2 ^ 20) 10 20).get_memory 1000000).2.get_memory 2000).2 =
      ((create 1048576 (fun _ => 0) (2 ^ 20) 10 20).get_memory 1000000).2 :=
  ⟨by decide, get_memory_null_unchanged _ 2000 (by decide)⟩

end BuddyAllocator

/-! ## Arena allocator -/

namespace LinearAllocator

theorem align_up_aligned {p : Nat} (h : p % 16 = 0) (hp : p + 16 ≤ WORD) :
    align_up p MAX_ALIGN = p := by
  unfold align_up sub64 add64 MAX_ALIGN
  unfold WORD at hp ⊢
  norm_num at hp ⊢
  omega

theorem align_up_ge {p : Nat} (hp : p + 16 ≤ WORD) :
    p ≤ align_up p MAX_ALIGN ∧ align_up p MAX_ALIGN < p + 16 ∧
      align_up p MAX_ALIGN % 16 = 0 := by
  unfold align_up sub64 add64 MAX_ALIGN
  unfold WORD at hp ⊢
  norm_num at hp ⊢
  omega

/-- C6 (failing run): an arena of capacity 10 at address `65536`; `get_memory(10)`
returns the base, then `get_memory(1)` returns `base + 16`, beyond the ten bytes of
the region: `used = 16` exceeds `max_size_` and `max_size_ - used` wraps. -/
theorem get_memory_outside_region :
    ((create 10 65536).get_memory 10).1 = 65536 ∧
    (((create 10 65536).get_memory 10).2.get_memory 1).1 = 65552 ∧
    sub64 10 16 = WORD - 6 ∧
    ¬ ((((create 10 65536).get_memory 10).2.get_memory 1).1 + 1 ≤ 65536 + 10) := by
  decide

/-- C7: on a fresh arena whose region is 16-aligned and ends at least 16 bytes below
the top of the address space, two successful calls `get_memory(a)`, `get_memory(b)`
return `p1`, `p2` with `p2 = align_up(p1 + a) ≥ p1 + a`; in every state `reset()`
followed by `get_memory(a)` returns what `get_memory(a)` returns on a fresh arena;
capacity 1024 with sizes 10 and 100 gives pointers 16 bytes apart. -/
theorem arena_monotone_and_reset :
    (∀ max_size base a b : Nat, base ≠ 0 → base % MAX_ALIGN = 0 →
      base + max_size + MAX_ALIGN ≤ WORD → 1 ≤ a → 1 ≤ b →
      ((create max_size base).get_memory a).1 ≠ 0 →
      (((create max_size base).get_memory a).2.get_memory b).1 ≠ 0 →
      ((create max_size base).get_memory a).1 = base ∧
      (((create max_size base).get_memory a).2.get_memory b).1 =
        align_up (((create max_size base).get_memory a).1 + a) MAX_ALIGN ∧
      ((create max_size base).get_memory a).1 + a ≤
        (((create max_size base).get_memory a).2.get_memory b).1) ∧
    (∀ (s : LinearAllocator) (a : Nat),
      (s.reset.get_memory a).1 = ((create s.max_size_ s.base_address_).get_memory a).1) ∧
    (((create 1024 65536).get_memory 10).2.get_memory 100).1 =
      ((create 1024 65536).get_memory 10).1 + 16 := by
  refine ⟨?_, fun s a => rfl, by decide⟩
  intro max_size base a b hb0 hal hfit ha hb h1 h2
  have hW : WORD = 18446744073709551616 := by norm_num [WORD]
  have hM : MAX_ALIGN = 16 := rfl
  rw [hM, hW] at hfit
  rw [hM] at hal
  have hbase : align_up base MAX_ALIGN = base := align_up_aligned hal (by rw [hW]; omega)
  have hused : sub64 base base = 0 := by unfold sub64; rw [hW]; omega
  have hcap : sub64 max_size 0 = max_size := by unfold sub64; rw [hW]; omega
  have e1 : (create max_size base).get_memory a =
      if a > max_size then (0, create max_size base)
      else (base, { create max_size base with curr_address_ := add64 base a }) := by
    unfold get_memory
    simp only [create, hbase, hused, hcap]
    rw [if_neg (by omega)]
  by_cases hgt : a > max_size
  · rw [e1, if_pos hgt] at h1
    exact absurd rfl h1
  · rw [e1, if_neg hgt] at h2 ⊢
    have hadd : add64 base a = base + a := by unfold add64; rw [hW]; omega
    have hge := align_up_ge (p := base + a) (by rw [hW]; omega)
    have e2 : (get_memory { create max_size base with curr_address_ := add64 base a } b).1 =
        align_up (base + a) MAX_ALIGN := by
      unfold get_memory at h2 ⊢
      simp only [create, hadd] at h2 ⊢
      split
      · rename_i hc
        rw [if_pos hc] at h2
        exact absurd rfl h2
      · split
        · rename_i hc hd
          rw [if_neg hc, if_pos hd] at h2
          exact absurd rfl h2
        · rfl
    rw [e2]
    exact ⟨rfl, rfl, hge.1⟩

/-- C7 on the arena of capacity 1024 at address `65536` with sizes 10 and 100. -/
theorem arena_monotone_and_reset_witness :
    (65536 ≠ 0 ∧ 65536 % MAX_ALIGN = 0 ∧ 65536 + 1024 + MAX_ALIGN ≤ WORD) ∧
    ((create 1024 65536).get_memory 10).1 = 65536 ∧
    (((create 1024 65536).get_memory 10).2.get_memory 100).1 =
      align_up (((create 1024 65536).get_memory 10).1 + 10) MAX_ALIGN ∧
    ((create 1024 65536).get_memory 10).1 + 10 ≤
      (((create 1024 65536).get_memory 10).2.get_memory 100).1 :=
  ⟨by decide, arena_monotone_and_reset.1 1024 65536 10 100 (by decide) (by decide)
    (by decide) (by decide) (by decide) (by decide) (by decide)⟩

end LinearAllocator

/-! ## Buddy allocator: effect of the list operations -/

namespace BuddyAllocator

theorem chunk_size_eq : CHUNK_SIZE = 16 := rfl

@[simp] theorem set_order_base (s : BuddyAllocator) (c v : Nat) :
    (s.set_order c v).base_addr_ = s.base_addr_ := rfl
@[simp] theorem set_order_min (s : BuddyAllocator) (c v : Nat) :
    (s.set_order c v).min_order_ = s.min_order_ := rfl
@[simp] theorem set_order_max (s : BuddyAllocator) (c v : Nat) :
    (s.set_order c v).max_order_ = s.max_order_ := rfl
@[simp] theorem set_order_list (s : BuddyAllocator) (c v : Nat) :
    (s.set_order c v).free_chunk_list_ = s.free_chunk_list_ := rfl
@[simp] theorem set_order_self (s : BuddyAllocator) (c v : Nat) :
    (s.set_order c v).order_ c = v := by simp [set_order]
theorem set_order_other (s : BuddyAllocator) {c x : Nat} (v : Nat) (h : x ≠ c) :
    (s.set_order c v).order_ x = s.order_ x := by simp [set_order, h]

@[simp] theorem add_chunk_base (s : BuddyAllocator) (c : Nat) :
    (s.add_chunk c).base_addr_ = s.base_addr_ := by
  unfold add_chunk; split_ifs <;> rfl
@[simp] theorem add_chunk_min (s : BuddyAllocator) (c : Nat) :
    (s.add_chunk c).min_order_ = s.min_order_ := by
  unfold add_chunk; split_ifs <;> rfl
@[simp] theorem add_chunk_max (s : BuddyAllocator) (c : Nat) :
    (s.add_chunk c).max_order_ = s.max_order_ := by
  unfold add_chunk; split_ifs <;> rfl
@[simp] theorem add_chunk_order (s : BuddyAllocator) (c : Nat) :
    (s.add_chunk c).order_ = s.order_ := by
  unfold add_chunk; split_ifs <;> rfl
@[simp] theorem add_chunk_memory (s : BuddyAllocator) (c : Nat) :
    (s.add_chunk c).max_memory_ = s.max_memory_ := by
  unfold add_chunk; split_ifs <;> rfl

theorem add_chunk_list (s : BuddyAllocator) {c : Nat} (h0 : c ≠ 0)
    (h1 : s.min_order_ ≤ s.order_ c) (h2 : s.order_ c ≤ s.max_order_) :
    (s.add_chunk c).free_chunk_list_ =
      Function.update s.free_chunk_list_ (s.order_ c - s.min_order_)
        (c :: s.free_chunk_list_ (s.order_ c - s.min_order_)) := by
  unfold add_chunk
  rw [if_neg h0, if_neg (by omega)]

@[simp] theorem remove_chunk_base (s : BuddyAllocator) (c : Nat) :
    (s.remove_chunk c).base_addr_ = s.base_addr_ := by
  unfold remove_chunk; split_ifs <;> rfl
@[simp] theorem remove_chunk_min (s : BuddyAllocator) (c : Nat) :
    (s.remove_chunk c).min_order_ = s.min_order_ := by
  unfold remove_chunk; split_ifs <;> rfl
@[simp] theorem remove_chunk_max (s : BuddyAllocator) (c : Nat) :
    (s.remove_chunk c).max_order_ = s.max_order_ := by
  unfold remove_chunk; split_ifs <;> rfl
@[simp] theorem remove_chunk_order (s : BuddyAllocator) (c : Nat) :
    (s.remove_chunk c).order_ = s.order_ := by
  unfold remove_chunk; split_ifs <;> rfl
@[simp] theorem remove_chunk_memory (s : BuddyAllocator) (c : Nat) :
    (s.remove_chunk c).max_memory_ = s.max_memory_ := by
  unfold remove_chunk; split_ifs <;> rfl

theorem remove_chunk_list (s : BuddyAllocator) {c : Nat} (h0 : c ≠ 0)
    (h1 : s.min_order_ ≤ s.order_ c) (h2 : s.order_ c ≤ s.max_order_) :
    (s.remove_chunk c).free_chunk_list_ =
      Function.update s.free_chunk_list_ (s.order_ c - s.min_order_)
        ((s.free_chunk_list_ (s.order_ c - s.min_order_)).erase c) := by
  unfold remove_chunk
  rw [if_neg h0, if_neg (by omega)]

@[simp] theorem list_size_set_order (s : BuddyAllocator) (c v : Nat) :
    (s.set_order c v).list_size = s.list_size := rfl
@[simp] theorem list_size_add_chunk (s : BuddyAllocator) (c : Nat) :
    (s.add_chunk c).list_size = s.list_size := by simp [list_size]
@[simp] theorem list_size_remove_chunk (s : BuddyAllocator) (c : Nat) :
    (s.remove_chunk c).list_size = s.list_size := by simp [list_size]

/-! ### Sums -/

theorem sum_range_bump (f g : Nat → Nat) (j d : Nat) (hg : ∀ i, i ≠ j → g i = f i)
    (hd : g j = f j + d) :
    ∀ n, j < n → ((List.range n).map g).sum = ((List.range n).map f).sum + d
  | 0, h => by omega
  | n + 1, h => by
    rw [List.range_succ, List.map_append, List.map_append, List.sum_append, List.sum_append]
    simp only [List.map_cons, List.map_nil, List.sum_cons, List.sum_nil, add_zero]
    rcases Nat.lt_or_ge j n with hlt | hge
    · rw [sum_range_bump f g j d hg hd n hlt, hg n (by omega)]
      omega
    · have hjn : j = n := by omega
      subst hjn
      have : (List.range j).map g = (List.range j).map f := by
        apply List.map_congr_left
        intro i hi
        exact hg i (by have := List.mem_range.1 hi; omega)
      rw [this, hd]
      omega

theorem sum_range_congr (f g : Nat → Nat) (n : Nat) (h : ∀ i, i < n → g i = f i) :
    ((List.range n).map g).sum = ((List.range n).map f).sum := by
  congr 1
  apply List.map_congr_left
  intro i hi
  exact h i (List.mem_range.1 hi)

/-- Sum of the slot sizes `2 ^ (j + min_order_)` over the chunks of the table. -/
theorem free_bytes_eq (s : BuddyAllocator)
    (h : ∀ j c, c ∈ s.free_chunk_list_ j → s.order_ c = j + s.min_order_) :
    s.free_bytes = ((List.range s.list_size).map
      (fun j => (s.free_chunk_list_ j).length * 2 ^ (j + s.min_order_))).sum := by
  unfold free_bytes
  congr 1
  apply List.map_congr_left
  intro j _
  have : (s.free_chunk_list_ j).map (fun c => 2 ^ s.order_ c) =
      (s.free_chunk_list_ j).map (fun _ => 2 ^ (j + s.min_order_)) := by
    apply List.map_congr_left
    intro c hc
    rw [h j c hc]
  rw [this, List.map_const', List.sum_replicate, smul_eq_mul]

theorem live_bytes_erase (s : BuddyAllocator) {live : List Nat} {p : Nat} (h : p ∈ live) :
    s.live_bytes live = 2 ^ s.order_ (p - CHUNK_SIZE) + s.live_bytes (live.erase p) := by
  unfold live_bytes
  exact (List.sum_map_erase (fun p => 2 ^ s.order_ (p - CHUNK_SIZE)) h).symm

theorem live_bytes_congr (s s' : BuddyAllocator) (live : List Nat)
    (h : ∀ p, p ∈ live → s'.order_ (p - CHUNK_SIZE) = s.order_ (p - CHUNK_SIZE)) :
    s'.live_bytes live = s.live_bytes live := by
  unfold live_bytes
  congr 1
  apply List.map_congr_left
  intro p hp
  rw [h p hp]

@[simp] theorem live_bytes_cons (s : BuddyAllocator) (live : List Nat) (p : Nat) :
    s.live_bytes (p :: live) = 2 ^ s.order_ (p - CHUNK_SIZE) + s.live_bytes live := by
  simp [live_bytes]

end BuddyAllocator

/-! ## Buddy allocator: the invariant is kept by the four block moves -/

namespace BuddyAllocator

theorem mem_update_list (f : Nat → List Nat) (j : Nat) (l : List Nat) (i x : Nat) :
    x ∈ Function.update f j l i ↔ (i = j ∧ x ∈ l) ∨ (i ≠ j ∧ x ∈ f i) := by
  by_cases h : i = j
  · subst h; simp
  · simp [Function.update_noteq h, h]

theorem pow_le_max {a k m : Nat} (h : a + 2 ^ k ≤ 2 ^ m) : k ≤ m :=
  (Nat.pow_le_pow_iff_right (a := 2) (by norm_num)).1 (by omega)

namespace Inv

variable {s : BuddyAllocator} {live : List Nat}

theorem free_range (h : Inv s live) {j b : Nat} (hb : b ∈ s.free_chunk_list_ j) :
    b ≠ 0 ∧ s.base_addr_ ≤ b ∧ s.order_ b = j + s.min_order_ ∧ s.min_order_ ≤ s.order_ b ∧
      s.order_ b ≤ s.max_order_ ∧ s.order_ b - s.min_order_ = j ∧ j < s.list_size := by
  have hg := h.geom b (Or.inl ⟨j, hb⟩)
  have ho := h.free_hdr j b hb
  have hb0 := h.base_ne
  have hm := pow_le_max hg.2.2
  unfold list_size
  refine ⟨by omega, hg.1, ho, by omega, hm, by omega, by omega⟩

theorem live_range (h : Inv s live) {p : Nat} (hp : p ∈ live) :
    p - CHUNK_SIZE ≠ 0 ∧ s.base_addr_ ≤ p - CHUNK_SIZE ∧ p - CHUNK_SIZE + CHUNK_SIZE = p ∧
      s.min_order_ ≤ s.order_ (p - CHUNK_SIZE) ∧ s.order_ (p - CHUNK_SIZE) ≤ s.max_order_ ∧
      s.Blk live (p - CHUNK_SIZE) := by
  have hl := h.live_hdr p hp
  have e : p - CHUNK_SIZE + CHUNK_SIZE = p := by omega
  have hblk : s.Blk live (p - CHUNK_SIZE) := Or.inr (by rw [e]; exact hp)
  have hg := h.geom _ hblk
  have hb0 := h.base_ne
  exact ⟨by omega, hg.1, e, hl.2, pow_le_max hg.2.2, hblk⟩

theorem free_unique (h : Inv s live) {i j x : Nat} (hi : x ∈ s.free_chunk_list_ i)
    (hj : x ∈ s.free_chunk_list_ j) : i = j := by
  have := h.free_hdr i x hi
  have := h.free_hdr j x hj
  omega

end Inv

/-- Membership in the table after unlinking a free chunk. -/
theorem mem_remove_chunk {s : BuddyAllocator} {live : List Nat} (h : Inv s live) {j b : Nat}
    (hb : b ∈ s.free_chunk_list_ j) (i x : Nat) :
    x ∈ (s.remove_chunk b).free_chunk_list_ i ↔ x ∈ s.free_chunk_list_ i ∧ x ≠ b := by
  obtain ⟨h0, _, _, h1, h2, hj, _⟩ := h.free_range hb
  rw [remove_chunk_list s h0 h1 h2, hj, mem_update_list]
  constructor
  · rintro (⟨e, hx⟩ | ⟨e, hx⟩)
    · subst e
      rw [(h.free_nodup i).mem_erase_iff] at hx
      exact ⟨hx.2, hx.1⟩
    · refine ⟨hx, ?_⟩
      rintro rfl
      exact e (h.free_unique hx hb)
  · rintro ⟨hx, hne⟩
    by_cases e : i = j
    · subst e
      exact Or.inl ⟨rfl, ((h.free_nodup i).mem_erase_iff).2 ⟨hne, hx⟩⟩
    · exact Or.inr ⟨e, hx⟩

/-- Take: a free chunk leaves its list and becomes an allocated block. -/
theorem inv_take {s : BuddyAllocator} {live : List Nat} (h : Inv s live) {j b : Nat}
    (hb : b ∈ s.free_chunk_list_ j) :
    Inv (s.remove_chunk b) ((b + CHUNK_SIZE) :: live) := by
  obtain ⟨h0, hbase, hord, h1, h2, hj, hjs⟩ := h.free_range hb
  have hmem := mem_remove_chunk h hb
  have hlist : (s.remove_chunk b).free_chunk_list_ =
      Function.update s.free_chunk_list_ j ((s.free_chunk_list_ j).erase b) := by
    rw [remove_chunk_list s h0 h1 h2, hj]
  have hblk : ∀ x, (s.remove_chunk b).Blk ((b + CHUNK_SIZE) :: live) x ↔ s.Blk live x := by
    intro x
    unfold Blk IsFree
    constructor
    · rintro (⟨i, hx⟩ | hx)
      · exact Or.inl ⟨i, ((hmem i x).1 hx).1⟩
      · rcases List.mem_cons.1 hx with e | hx
        · have : x = b := by omega
          subst this
          exact Or.inl ⟨j, hb⟩
        · exact Or.inr hx
    · rintro (⟨i, hx⟩ | hx)
      · by_cases e : x = b
        · subst e
          exact Or.inr (List.mem_cons_self _ _)
        · exact Or.inl ⟨i, (hmem i x).2 ⟨hx, e⟩⟩
      · exact Or.inr (List.mem_cons_of_mem _ hx)
  refine
    { max_le := by simpa using h.max_le
      min_le := by simpa using h.min_le
      base_ne := by simpa using h.base_ne
      free_hdr := ?_
      live_hdr := ?_
      geom := ?_
      disj := ?_
      free_nodup := ?_
      live_nodup := ?_
      free_live := ?_
      total := ?_
      no_buddies := ?_ }
  · intro i x hx
    simpa using h.free_hdr i x ((hmem i x).1 hx).1
  · intro p hp
    rcases List.mem_cons.1 hp with e | hp
    · subst e
      simp only [remove_chunk_order, remove_chunk_min, Nat.add_sub_cancel]
      exact ⟨by omega, h1⟩
    · simpa using h.live_hdr p hp
  · intro x hx
    simpa using h.geom x ((hblk x).1 hx)
  · intro x y hx hy hne
    simpa using h.disj x y ((hblk x).1 hx) ((hblk y).1 hy) hne
  · intro i
    rw [hlist]
    by_cases e : i = j
    · subst e
      simpa using (h.free_nodup i).erase b
    · simpa [Function.update_noteq e] using h.free_nodup i
  · exact List.nodup_cons.2 ⟨h.free_live j b hb, h.live_nodup⟩
  · intro i x hx
    obtain ⟨hx, hne⟩ := (hmem i x).1 hx
    intro hc
    rcases List.mem_cons.1 hc with e | hc
    · exact hne (by omega)
    · exact h.free_live i x hx hc
  · have hfree : s.free_bytes = (s.remove_chunk b).free_bytes + 2 ^ s.order_ b := by
      rw [free_bytes_eq s h.free_hdr, free_bytes_eq (s.remove_chunk b) (by
        intro i x hx
        simpa using h.free_hdr i x ((hmem i x).1 hx).1)]
      simp only [list_size_remove_chunk, remove_chunk_min]
      refine sum_range_bump _ _ j _ ?_ ?_ _ hjs
      · intro i hi
        simp only [hlist, Function.update_noteq hi]
      · simp only [hlist, Function.update_same]
        rw [List.length_erase_of_mem hb, hord]
        have : 0 < (s.free_chunk_list_ j).length := List.length_pos_of_mem hb
        have e : (s.free_chunk_list_ j).length = (s.free_chunk_list_ j).length - 1 + 1 := by omega
        conv_lhs => rw [e]
        rw [Nat.add_mul, one_mul]
    have ht := h.total
    simp only [live_bytes_cons, Nat.add_sub_cancel, remove_chunk_order, remove_chunk_max]
    have hl : (s.remove_chunk b).live_bytes live = s.live_bytes live :=
      live_bytes_congr _ _ _ (by intro p _; simp)
    rw [hl]
    omega
  · intro i x y hx hy
    simpa using h.no_buddies i x y ((hmem i x).1 hx).1 ((hmem i y).1 hy).1

end BuddyAllocator

namespace BuddyAllocator

/-- Release: an allocated block is linked at the head of the list of its order. -/
theorem inv_release {s : BuddyAllocator} {live : List Nat} (h : Inv s live) {p : Nat}
    (hp : p ∈ live)
    (hnb : ∀ x, x ∈ s.free_chunk_list_ (s.order_ (p - CHUNK_SIZE) - s.min_order_) →
      (x - s.base_addr_) ^^^ (p - CHUNK_SIZE - s.base_addr_) ≠ 2 ^ s.order_ (p - CHUNK_SIZE)) :
    Inv (s.add_chunk (p - CHUNK_SIZE)) (live.erase p) ∧
    (s.add_chunk (p - CHUNK_SIZE)).free_chunk_list_ =
      Function.update s.free_chunk_list_ (s.order_ (p - CHUNK_SIZE) - s.min_order_)
        ((p - CHUNK_SIZE) :: s.free_chunk_list_ (s.order_ (p - CHUNK_SIZE) - s.min_order_)) := by
  obtain ⟨h0, hbase, hcp, h1, h2, hblkc⟩ := h.live_range hp
  generalize hc : p - CHUNK_SIZE = c at *
  generalize hk : s.order_ c = k at *
  have hlist : (s.add_chunk c).free_chunk_list_ =
      Function.update s.free_chunk_list_ (k - s.min_order_)
        (c :: s.free_chunk_list_ (k - s.min_order_)) := by
    rw [add_chunk_list s h0 (by omega) (by omega), hk]
  refine ⟨?_, hlist⟩
  have hcfree : ∀ i, c ∉ s.free_chunk_list_ i := by
    intro i hi
    exact h.free_live i c hi (by rw [hcp]; exact hp)
  have hmem : ∀ i x, x ∈ (s.add_chunk c).free_chunk_list_ i ↔
      x ∈ s.free_chunk_list_ i ∨ (x = c ∧ i = k - s.min_order_) := by
    intro i x
    rw [hlist, mem_update_list]
    constructor
    · rintro (⟨e, hx⟩ | ⟨e, hx⟩)
      · subst e
        rcases List.mem_cons.1 hx with e | hx
        · exact Or.inr ⟨e, rfl⟩
        · exact Or.inl hx
      · exact Or.inl hx
    · rintro (hx | ⟨e1, e2⟩)
      · by_cases e : i = k - s.min_order_
        · subst e
          exact Or.inl ⟨rfl, List.mem_cons_of_mem _ hx⟩
        · exact Or.inr ⟨e, hx⟩
      · subst e1 e2
        exact Or.inl ⟨rfl, List.mem_cons_self _ _⟩
  have hblk : ∀ x, (s.add_chunk c).Blk (live.erase p) x ↔ s.Blk live x := by
    intro x
    unfold Blk IsFree
    constructor
    · rintro (⟨i, hx⟩ | hx)
      · rcases (hmem i x).1 hx with hx | ⟨e, _⟩
        · exact Or.inl ⟨i, hx⟩
        · subst e
          exact hblkc
      · exact Or.inr (List.mem_of_mem_erase hx)
    · rintro (⟨i, hx⟩ | hx)
      · exact Or.inl ⟨i, (hmem i x).2 (Or.inl hx)⟩
      · by_cases e : x = c
        · subst e
          exact Or.inl ⟨_, (hmem _ x).2 (Or.inr ⟨rfl, rfl⟩)⟩
        · exact Or.inr ((List.mem_erase_of_ne (by omega)).2 hx)
  have hhdr : ∀ i x, x ∈ (s.add_chunk c).free_chunk_list_ i →
      (s.add_chunk c).order_ x = i + (s.add_chunk c).min_order_ := by
    intro i x hx
    simp only [add_chunk_order, add_chunk_min]
    rcases (hmem i x).1 hx with hx | ⟨e1, e2⟩
    · exact h.free_hdr i x hx
    · subst e1 e2
      omega
  refine
    { max_le := by simpa using h.max_le
      min_le := by simpa using h.min_le
      base_ne := by simpa using h.base_ne
      free_hdr := hhdr
      live_hdr := ?_
      geom := ?_
      disj := ?_
      free_nodup := ?_
      live_nodup := h.live_nodup.erase p
      free_live := ?_
      total := ?_
      no_buddies := ?_ }
  · intro q hq
    simpa using h.live_hdr q (List.mem_of_mem_erase hq)
  · intro x hx
    simpa using h.geom x ((hblk x).1 hx)
  · intro x y hx hy hne
    simpa using h.disj x y ((hblk x).1 hx) ((hblk y).1 hy) hne
  · intro i
    rw [hlist]
    by_cases e : i = k - s.min_order_
    · subst e
      simpa using ⟨hcfree _, h.free_nodup _⟩
    · simpa [Function.update_noteq e] using h.free_nodup i
  · intro i x hx hc2
    rcases (hmem i x).1 hx with hx | ⟨e1, e2⟩
    · exact h.free_live i x hx (List.mem_of_mem_erase hc2)
    · subst e1
      rw [hcp] at hc2
      exact (h.live_nodup.not_mem_erase) hc2
  · have hfree : (s.add_chunk c).free_bytes = s.free_bytes + 2 ^ k := by
      rw [free_bytes_eq s h.free_hdr, free_bytes_eq (s.add_chunk c) hhdr]
      simp only [list_size_add_chunk, add_chunk_min]
      refine sum_range_bump _ _ (k - s.min_order_) _ ?_ ?_ _ (by unfold list_size; omega)
      · intro i hi
        simp only [hlist, Function.update_noteq hi]
      · simp only [hlist, Function.update_same, List.length_cons]
        have : k - s.min_order_ + s.min_order_ = k := by omega
        rw [this, Nat.add_mul, one_mul]
    have ht := h.total
    rw [live_bytes_erase s hp, hc, hk] at ht
    have hl : (s.add_chunk c).live_bytes (live.erase p) = s.live_bytes (live.erase p) :=
      live_bytes_congr _ _ _ (by intro q _; simp)
    rw [hl, hfree]
    simp only [add_chunk_max]
    omega
  · intro i x y hx hy
    simp only [add_chunk_base, add_chunk_min]
    have e : k - s.min_order_ + s.min_order_ = k := by omega
    rcases (hmem i x).1 hx with hx1 | ⟨e1, e2⟩
    · rcases (hmem i y).1 hy with hy1 | ⟨e3, e4⟩
      · exact h.no_buddies i x y hx1 hy1
      · rw [e4] at hx1 ⊢
        rw [e3, e]
        exact hnb x hx1
    · rcases (hmem i y).1 hy with hy1 | ⟨e3, e4⟩
      · rw [e2] at hy1 ⊢
        rw [e1, e, Nat.xor_comm]
        exact hnb y hy1
      · rw [e1, e3, Nat.xor_self]
        exact (Nat.pos_pow_of_pos _ (by norm_num)).ne

end BuddyAllocator

namespace BuddyAllocator

/-- Halve: an allocated block of order `k + 1` keeps its lower half, the upper half
becomes a free chunk of order `k`. -/
theorem inv_halve {s : BuddyAllocator} {live : List Nat} (h : Inv s live) {p k : Nat}
    (hp : p ∈ live) (hk : s.order_ (p - CHUNK_SIZE) = k + 1) (hmin : s.min_order_ ≤ k) :
    Inv (s.halve (p - CHUNK_SIZE) k) live ∧
    (s.halve (p - CHUNK_SIZE) k).order_ (p - CHUNK_SIZE) = k ∧
    (s.halve (p - CHUNK_SIZE) k).free_chunk_list_ =
      Function.update s.free_chunk_list_ (k - s.min_order_)
        ((p - CHUNK_SIZE + 2 ^ k) :: s.free_chunk_list_ (k - s.min_order_)) := by
  obtain ⟨h0, hbase, hcp, h1, h2, hblkc⟩ := h.live_range hp
  generalize hc : p - CHUNK_SIZE = c at *
  have hmax := h.max_le
  have hsh : shl64 1 k = 2 ^ k := shl64_one (by omega)
  have hP : 0 < 2 ^ k := by positivity
  have hPP : 2 ^ (k + 1) = 2 * 2 ^ k := by rw [pow_succ, mul_comm]
  have hgc := h.geom c hblkc
  rw [hk] at hgc
  -- the upper half is not a block yet
  have hnb : ¬ s.Blk live (c + 2 ^ k) := by
    intro hb
    have := h.disj c (c + 2 ^ k) hblkc hb (by omega)
    have hP' : 0 < 2 ^ s.order_ (c + 2 ^ k) := by positivity
    rw [hk] at this
    omega
  have hbfree : ∀ i, c + 2 ^ k ∉ s.free_chunk_list_ i := fun i hi => hnb (Or.inl ⟨i, hi⟩)
  have hblive : c + 2 ^ k + CHUNK_SIZE ∉ live := fun hi => hnb (Or.inr hi)
  have hcfree : ∀ i, c ∉ s.free_chunk_list_ i := by
    intro i hi
    exact h.free_live i c hi (by rw [hcp]; exact hp)
  -- headers after the round
  have hoc : (s.halve c k).order_ c = k := by
    simp [halve, hsh]
  have hob : (s.halve c k).order_ (c + 2 ^ k) = k := by
    simp only [halve, hsh, add_chunk_order]
    rw [set_order_other _ _ (by omega), set_order_self]
  have hoo : ∀ x, x ≠ c → x ≠ c + 2 ^ k → (s.halve c k).order_ x = s.order_ x := by
    intro x hx1 hx2
    simp only [halve, hsh, add_chunk_order]
    rw [set_order_other _ _ hx1, set_order_other _ _ hx2]
  have hlist : (s.halve c k).free_chunk_list_ =
      Function.update s.free_chunk_list_ (k - s.min_order_)
        ((c + 2 ^ k) :: s.free_chunk_list_ (k - s.min_order_)) := by
    have hb' : ((s.set_order (c + 2 ^ k) k).set_order c k).order_ (c + 2 ^ k) = k := by
      rw [set_order_other _ _ (by omega), set_order_self]
    unfold halve
    rw [hsh, add_chunk_list _ (by omega) (by rw [hb']; simpa using hmin)
      (by rw [hb']; simp only [set_order_max]; omega), hb']
    simp
  refine ⟨?_, hoc, hlist⟩
  have hbase' : (s.halve c k).base_addr_ = s.base_addr_ := by simp [halve]
  have hmin' : (s.halve c k).min_order_ = s.min_order_ := by simp [halve]
  have hmax' : (s.halve c k).max_order_ = s.max_order_ := by simp [halve]
  have hmem : ∀ i x, x ∈ (s.halve c k).free_chunk_list_ i ↔
      x ∈ s.free_chunk_list_ i ∨ (x = c + 2 ^ k ∧ i = k - s.min_order_) := by
    intro i x
    rw [hlist, mem_update_list]
    constructor
    · rintro (⟨e, hx⟩ | ⟨e, hx⟩)
      · subst e
        rcases List.mem_cons.1 hx with e | hx
        · exact Or.inr ⟨e, rfl⟩
        · exact Or.inl hx
      · exact Or.inl hx
    · rintro (hx | ⟨e1, e2⟩)
      · by_cases e : i = k - s.min_order_
        · subst e
          exact Or.inl ⟨rfl, List.mem_cons_of_mem _ hx⟩
        · exact Or.inr ⟨e, hx⟩
      · subst e1 e2
        exact Or.inl ⟨rfl, List.mem_cons_self _ _⟩
  have hblk : ∀ x, (s.halve c k).Blk live x ↔ s.Blk live x ∨ x = c + 2 ^ k := by
    intro x
    unfold Blk IsFree
    constructor
    · rintro (⟨i, hx⟩ | hx)
      · rcases (hmem i x).1 hx with hx | ⟨e, _⟩
        · exact Or.inl (Or.inl ⟨i, hx⟩)
        · exact Or.inr e
      · exact Or.inl (Or.inr hx)
    · rintro ((⟨i, hx⟩ | hx) | e)
      · exact Or.inl ⟨i, (hmem i x).2 (Or.inl hx)⟩
      · exact Or.inr hx
      · exact Or.inl ⟨_, (hmem _ x).2 (Or.inr ⟨e, rfl⟩)⟩
  have hhdr : ∀ i x, x ∈ (s.halve c k).free_chunk_list_ i →
      (s.halve c k).order_ x = i + (s.halve c k).min_order_ := by
    intro i x hx
    rw [hmin']
    rcases (hmem i x).1 hx with hx | ⟨e1, e2⟩
    · rw [hoo x (fun e => hcfree i (e ▸ hx)) (fun e => hbfree i (e ▸ hx))]
      exact h.free_hdr i x hx
    · rw [e1, e2, hob]
      omega
  -- geometry of the blocks after the round, in terms of the old blocks
  have hgeo : ∀ x, (s.halve c k).Blk live x →
      (x = c ∧ (s.halve c k).order_ x = k) ∨ (x = c + 2 ^ k ∧ (s.halve c k).order_ x = k) ∨
      (x ≠ c ∧ x ≠ c + 2 ^ k ∧ s.Blk live x ∧ (s.halve c k).order_ x = s.order_ x) := by
    intro x hx
    by_cases e1 : x = c
    · exact Or.inl ⟨e1, e1 ▸ hoc⟩
    · by_cases e2 : x = c + 2 ^ k
      · exact Or.inr (Or.inl ⟨e2, e2 ▸ hob⟩)
      · rcases (hblk x).1 hx with hb | hb
        · exact Or.inr (Or.inr ⟨e1, e2, hb, hoo x e1 e2⟩)
        · exact absurd hb e2
  refine
    { max_le := by rw [hmax']; exact h.max_le
      min_le := by rw [hmax', hmin']; exact h.min_le
      base_ne := by rw [hbase']; exact h.base_ne
      free_hdr := hhdr
      live_hdr := ?_
      geom := ?_
      disj := ?_
      free_nodup := ?_
      live_nodup := h.live_nodup
      free_live := ?_
      total := ?_
      no_buddies := ?_ }
  · intro q hq
    have hq' := h.live_hdr q hq
    rw [hmin']
    refine ⟨hq'.1, ?_⟩
    by_cases e1 : q - CHUNK_SIZE = c
    · rw [e1, hoc]; exact hmin
    · have e2 : q - CHUNK_SIZE ≠ c + 2 ^ k := by
        intro e
        apply hblive
        rw [← e]
        have : q - CHUNK_SIZE + CHUNK_SIZE = q := by omega
        rw [this]; exact hq
      rw [hoo _ e1 e2]
      exact hq'.2
  · intro x hx
    rw [hbase', hmax']
    rcases hgeo x hx with ⟨e, o⟩ | ⟨e, o⟩ | ⟨_, _, hb, o⟩
    · rw [o, e]
      refine ⟨hgc.1, Dvd.dvd.trans ⟨2, by rw [pow_succ]⟩ hgc.2.1, by omega⟩
    · rw [o, e]
      refine ⟨by omega, ?_, by omega⟩
      have : c + 2 ^ k - s.base_addr_ = (c - s.base_addr_) + 2 ^ k := by omega
      rw [this]
      exact Dvd.dvd.add (Dvd.dvd.trans ⟨2, by rw [pow_succ]⟩ hgc.2.1) (dvd_refl _)
    · rw [o]
      exact h.geom x hb
  · intro x y hx hy hne
    rcases hgeo x hx with ⟨ex, ox⟩ | ⟨ex, ox⟩ | ⟨ex1, ex2, hbx, ox⟩ <;>
    rcases hgeo y hy with ⟨ey, oy⟩ | ⟨ey, oy⟩ | ⟨ey1, ey2, hby, oy⟩ <;>
    rw [ox, oy]
    · omega
    · omega
    · have := h.disj c y hblkc hby (by omega)
      rw [hk] at this
      omega
    · omega
    · omega
    · have := h.disj c y hblkc hby (by omega)
      rw [hk] at this
      omega
    · have := h.disj x c hbx hblkc (by omega)
      rw [hk] at this
      omega
    · have := h.disj x c hbx hblkc (by omega)
      rw [hk] at this
      omega
    · exact h.disj x y hbx hby hne
  · intro i
    rw [hlist]
    by_cases e : i = k - s.min_order_
    · subst e
      simpa using ⟨hbfree _, h.free_nodup _⟩
    · simpa [Function.update_noteq e] using h.free_nodup i
  · intro i x hx
    rcases (hmem i x).1 hx with hx | ⟨e1, _⟩
    · exact h.free_live i x hx
    · rw [e1]; exact hblive
  · have hfree : (s.halve c k).free_bytes = s.free_bytes + 2 ^ k := by
      rw [free_bytes_eq s h.free_hdr, free_bytes_eq _ hhdr]
      have hls : (s.halve c k).list_size = s.list_size := by simp [halve]
      rw [hls, hmin']
      refine sum_range_bump _ _ (k - s.min_order_) _ ?_ ?_ _ (by unfold list_size; omega)
      · intro i hi
        simp only [hlist, Function.update_noteq hi]
      · simp only [hlist, Function.update_same, List.length_cons]
        have : k - s.min_order_ + s.min_order_ = k := by omega
        rw [this, Nat.add_mul, one_mul]
    have ht := h.total
    rw [live_bytes_erase s hp, hc, hk] at ht
    rw [live_bytes_erase _ hp, hc, hoc, hfree, hmax']
    have hl : (s.halve c k).live_bytes (live.erase p) = s.live_bytes (live.erase p) := by
      apply live_bytes_congr
      intro q hq
      have hq1 : q ∈ live := List.mem_of_mem_erase hq
      have hq2 : q ≠ p := fun e => h.live_nodup.not_mem_erase (e ▸ hq)
      have hq3 := (h.live_hdr q hq1).1
      apply hoo
      · omega
      · intro e
        apply hblive
        rw [← e]
        have : q - CHUNK_SIZE + CHUNK_SIZE = q := by omega
        rw [this]; exact hq1
    rw [hl]
    omega
  · intro i x y hx hy
    rw [hbase', hmin']
    have hdc : 2 ^ (k + 1) ∣ c - s.base_addr_ := hgc.2.1
    have hoff : c + 2 ^ k - s.base_addr_ = (c - s.base_addr_) + 2 ^ k := by omega
    have key : ∀ z, z ∈ s.free_chunk_list_ (k - s.min_order_) →
        (c + 2 ^ k - s.base_addr_) ^^^ (z - s.base_addr_) ≠ 2 ^ k := by
      intro z hz hxor
      have e := xor_eq_right hxor
      rw [hoff, xor_buddy_high hdc] at e
      have hzb := (h.free_range hz).2.1
      have : z = c := by omega
      exact hcfree _ (this ▸ hz)
    have e : k - s.min_order_ + s.min_order_ = k := by omega
    rcases (hmem i x).1 hx with hx1 | ⟨e1, e2⟩
    · rcases (hmem i y).1 hy with hy1 | ⟨e3, e4⟩
      · exact h.no_buddies i x y hx1 hy1
      · rw [e4] at hx1 ⊢
        rw [e3, e, Nat.xor_comm]
        exact key x hx1
    · rcases (hmem i y).1 hy with hy1 | ⟨e3, e4⟩
      · rw [e2] at hy1 ⊢
        rw [e1, e]
        exact key y hy1
      · rw [e1, e3, Nat.xor_self]
        exact (Nat.pos_pow_of_pos _ (by norm_num)).ne

end BuddyAllocator

namespace BuddyAllocator

/-- Fuse: two allocated buddies of order `k` become one allocated block of order
`k + 1` at the lower of the two addresses. -/
theorem inv_fuse {s : BuddyAllocator} {live : List Nat} (h : Inv s live) {p q k : Nat}
    (hp : p ∈ live) (hq : q ∈ live) (hkc : s.order_ (p - CHUNK_SIZE) = k)
    (hkb : s.order_ (q - CHUNK_SIZE) = k)
    (hx : (p - CHUNK_SIZE - s.base_addr_) ^^^ 2 ^ k = q - CHUNK_SIZE - s.base_addr_)
    {c' : Nat} (hc' : c' = if q - CHUNK_SIZE < p - CHUNK_SIZE then q - CHUNK_SIZE
      else p - CHUNK_SIZE) :
    Inv (s.set_order c' (k + 1)) ((c' + CHUNK_SIZE) :: (live.erase q).erase p) := by
  obtain ⟨_, hbasec, hcp, h1c, _, hblkc⟩ := h.live_range hp
  obtain ⟨_, hbaseb, hbq, h1b, _, hblkb⟩ := h.live_range hq
  generalize hc : p - CHUNK_SIZE = c at *
  generalize hb : q - CHUNK_SIZE = b at *
  have hP : 0 < 2 ^ k := by positivity
  have hPP : 2 ^ (k + 1) = 2 * 2 ^ k := by rw [pow_succ, mul_comm]
  have hgc := h.geom c hblkc
  have hgb := h.geom b hblkb
  rw [hkc] at hgc
  rw [hkb] at hgb
  -- the two blocks are the halves of the block at `c'`
  have hhalves : 2 ^ (k + 1) ∣ c' - s.base_addr_ ∧ s.base_addr_ ≤ c' ∧
      ((c = c' ∧ b = c' + 2 ^ k) ∨ (b = c' ∧ c = c' + 2 ^ k)) := by
    rcases xor_two_pow_cases k _ hgc.2.1 with ⟨e, d⟩ | ⟨l, e, d⟩
    · rw [hx] at e
      have hbc : ¬ b < c := by omega
      rw [if_neg hbc] at hc'
      subst hc'
      exact ⟨d, hgc.1, Or.inl ⟨rfl, by omega⟩⟩
    · rw [hx] at e
      have hbc : b < c := by omega
      rw [if_pos hbc] at hc'
      subst hc'
      refine ⟨by rw [e]; exact d, hgb.1, Or.inr ⟨rfl, by omega⟩⟩
  obtain ⟨hdvd, hbase', hcases⟩ := hhalves
  have hpq : p ≠ q := by
    intro e
    rcases hcases with ⟨e1, e2⟩ | ⟨e1, e2⟩ <;> omega
  have hc'cb : c' = c ∨ c' = b := by
    rcases hcases with ⟨e1, _⟩ | ⟨e1, _⟩
    · exact Or.inl e1.symm
    · exact Or.inr e1.symm
  have hcfree : ∀ i, c ∉ s.free_chunk_list_ i := fun i hi =>
    h.free_live i c hi (by rw [hcp]; exact hp)
  have hbfree : ∀ i, b ∉ s.free_chunk_list_ i := fun i hi =>
    h.free_live i b hi (by rw [hbq]; exact hq)
  have hc'free : ∀ i, c' ∉ s.free_chunk_list_ i := by
    intro i
    rcases hc'cb with e | e <;> rw [e]
    · exact hcfree i
    · exact hbfree i
  have hlive : ∀ r, r ∈ (live.erase q).erase p ↔ r ∈ live ∧ r ≠ q ∧ r ≠ p := by
    intro r
    rw [(h.live_nodup.erase q).mem_erase_iff, h.live_nodup.mem_erase_iff]
    tauto
  have hc'live : c' + CHUNK_SIZE ∉ (live.erase q).erase p := by
    intro hm
    obtain ⟨_, n1, n2⟩ := (hlive _).1 hm
    rcases hc'cb with e | e <;> omega
  have hoo : ∀ x, x ≠ c' → (s.set_order c' (k + 1)).order_ x = s.order_ x :=
    fun x hx => set_order_other _ _ hx
  have hblk : ∀ x, (s.set_order c' (k + 1)).Blk ((c' + CHUNK_SIZE) :: (live.erase q).erase p) x →
      x = c' ∨ (x ≠ c' ∧ x ≠ c ∧ x ≠ b ∧ s.Blk live x) := by
    intro x hxb
    by_cases e : x = c'
    · exact Or.inl e
    · right
      rcases hxb with ⟨i, hi⟩ | hi
      · have hi' : x ∈ s.free_chunk_list_ i := hi
        exact ⟨e, fun e1 => hcfree i (e1 ▸ hi'), fun e1 => hbfree i (e1 ▸ hi'), Or.inl ⟨i, hi'⟩⟩
      · rcases List.mem_cons.1 hi with e1 | hi
        · exact absurd (by omega) e
        · obtain ⟨m, n1, n2⟩ := (hlive _).1 hi
          exact ⟨e, by omega, by omega, Or.inr m⟩
  refine
    { max_le := h.max_le
      min_le := h.min_le
      base_ne := h.base_ne
      free_hdr := ?_
      live_hdr := ?_
      geom := ?_
      disj := ?_
      free_nodup := h.free_nodup
      live_nodup := List.nodup_cons.2 ⟨hc'live, (h.live_nodup.erase q).erase p⟩
      free_live := ?_
      total := ?_
      no_buddies := h.no_buddies }
  · intro i x hi
    have hi' : x ∈ s.free_chunk_list_ i := hi
    rw [hoo x (fun e => hc'free i (e ▸ hi'))]
    exact h.free_hdr i x hi'
  · intro r hr
    rcases List.mem_cons.1 hr with e | hr
    · subst e
      simp only [Nat.add_sub_cancel, set_order_self, set_order_min]
      exact ⟨by omega, by omega⟩
    · obtain ⟨m, n1, n2⟩ := (hlive _).1 hr
      have hr' := h.live_hdr r m
      rw [hoo _ (by rcases hc'cb with e | e <;> omega)]
      exact hr'
  · intro x hxb
    simp only [set_order_base, set_order_max]
    rcases hblk x hxb with e | ⟨e, _, _, hb0⟩
    · subst e
      rw [set_order_self]
      refine ⟨hbase', hdvd, ?_⟩
      rcases hcases with ⟨e1, e2⟩ | ⟨e1, e2⟩ <;> omega
    · rw [hoo x e]
      exact h.geom x hb0
  · intro x y hxb hyb hne
    rcases hblk x hxb with ex | ⟨ex, ex1, ex2, hbx⟩ <;>
    rcases hblk y hyb with ey | ⟨ey, ey1, ey2, hby⟩
    · omega
    · rw [ex, set_order_self, hoo y ey]
      have d1 := h.disj c y hblkc hby (Ne.symm ey1)
      have d2 := h.disj b y hblkb hby (Ne.symm ey2)
      rw [hkc] at d1
      rw [hkb] at d2
      have : 0 < 2 ^ s.order_ y := by positivity
      rcases hcases with ⟨e1, e2⟩ | ⟨e1, e2⟩ <;> omega
    · rw [ey, set_order_self, hoo x ex]
      have d1 := h.disj c x hblkc hbx (Ne.symm ex1)
      have d2 := h.disj b x hblkb hbx (Ne.symm ex2)
      rw [hkc] at d1
      rw [hkb] at d2
      have : 0 < 2 ^ s.order_ x := by positivity
      rcases hcases with ⟨e1, e2⟩ | ⟨e1, e2⟩ <;> omega
    · rw [hoo x ex, hoo y ey]
      exact h.disj x y hbx hby hne
  · intro i x hi hm
    have hi' : x ∈ s.free_chunk_list_ i := hi
    rcases List.mem_cons.1 hm with e | hm
    · exact hc'free i ((show x = c' by omega) ▸ hi')
    · exact h.free_live i x hi' ((hlive _).1 hm).1
  · have ht := h.total
    have hq' : q ∈ live.erase p := (h.live_nodup.mem_erase_iff).2 ⟨Ne.symm hpq, hq⟩
    rw [live_bytes_erase s hp, hc, hkc, live_bytes_erase s hq', hb, hkb] at ht
    have hcomm : (live.erase p).erase q = (live.erase q).erase p := List.erase_comm p q live
    rw [hcomm] at ht
    have hl : (s.set_order c' (k + 1)).live_bytes ((live.erase q).erase p) =
        s.live_bytes ((live.erase q).erase p) := by
      apply live_bytes_congr
      intro r hr
      obtain ⟨m, n1, n2⟩ := (hlive _).1 hr
      have := (h.live_hdr r m).1
      apply hoo
      rcases hc'cb with e | e <;> omega
    have hf : (s.set_order c' (k + 1)).free_bytes = s.free_bytes := by
      unfold free_bytes
      simp only [list_size_set_order, set_order_list]
      apply sum_range_congr
      intro i _
      congr 1
      apply List.map_congr_left
      intro x hi
      rw [hoo x (fun e => hc'free i (e ▸ hi))]
    rw [live_bytes_cons, hl, hf]
    simp only [Nat.add_sub_cancel, set_order_self, set_order_max]
    omega

end BuddyAllocator

/-! ## Buddy allocator: `get_memory` keeps the invariant -/

namespace BuddyAllocator

theorem split_loop_succ (t c k : Nat) (s : BuddyAllocator) (h : t < k + 1) :
    split_loop t c (k + 1) s = split_loop t c k (s.halve c k) := by
  rw [split_loop, if_pos h]
  rfl

theorem split_loop_stop (t c i : Nat) (s : BuddyAllocator) (h : i ≤ t) :
    split_loop t c i s = s := by
  cases i with
  | zero => rfl
  | succ k => rw [split_loop, if_neg (by omega)]

/-- The split loop keeps the invariant and leaves the block at order `target_order`. -/
theorem inv_split_loop {live : List Nat} {p t : Nat} (hp : p ∈ live) :
    ∀ (i : Nat) (s : BuddyAllocator), Inv s live → s.order_ (p - CHUNK_SIZE) = i →
      s.min_order_ ≤ t → t ≤ i →
      Inv (split_loop t (p - CHUNK_SIZE) i s) live ∧
      (split_loop t (p - CHUNK_SIZE) i s).order_ (p - CHUNK_SIZE) = t
  | 0, s, h, ho, _, hti => by
    rw [split_loop_stop _ _ _ _ (Nat.zero_le _)]
    exact ⟨h, by omega⟩
  | k + 1, s, h, ho, hmin, hti => by
    by_cases e : t < k + 1
    · rw [split_loop_succ _ _ _ _ e]
      obtain ⟨h', ho', _⟩ := inv_halve h hp ho (by omega)
      exact inv_split_loop hp k _ h' ho' (by simpa [halve] using hmin) (by omega)
    · rw [split_loop_stop _ _ _ _ (by omega)]
      exact ⟨h, by omega⟩

/-- What a successful search returns: the head `h` of the first non-empty list from
order `i` on, and the state after unlinking and splitting it. -/
theorem search_loop_found (s : BuddyAllocator) (t : Nat) :
    ∀ (n i : Nat), (search_loop s t i n).1 ≠ 0 →
      ∃ i' h rest, i ≤ i' ∧ i' < i + n ∧ s.free_chunk_list_ (i' - s.min_order_) = h :: rest ∧
        (∀ j, i ≤ j → j < i' → s.free_chunk_list_ (j - s.min_order_) = []) ∧
        search_loop s t i n = (h + CHUNK_SIZE, split_loop t h i' (s.remove_chunk h))
  | 0, i, hne => absurd rfl hne
  | n + 1, i, hne => by
    unfold search_loop at hne ⊢
    split
    · rename_i heq
      rw [heq] at hne
      obtain ⟨i', h, rest, h1, h2, h3, h4, h5⟩ := search_loop_found s t n (i + 1) hne
      refine ⟨i', h, rest, by omega, by omega, h3, ?_, h5⟩
      intro j hj1 hj2
      by_cases e : j = i
      · rw [e]; exact heq
      · exact h4 j (by omega) hj2
    · rename_i block rest heq
      exact ⟨i, block, rest, le_refl _, by omega, heq, fun j h1 h2 => by omega, rfl⟩

/-- The target order of a request that passes the range check lies in the order range. -/
theorem target_order_range {s : BuddyAllocator} (hmax : s.max_order_ ≤ 63)
    (hmin : s.min_order_ ≤ s.max_order_) {r : Nat}
    (h : ¬ (r > shl64 1 s.max_order_ ∨ r < shl64 1 s.min_order_)) :
    s.min_order_ ≤ ilog2 64 r ∧ ilog2 64 r ≤ s.max_order_ := by
  rw [shl64_one hmax, shl64_one (by omega)] at h
  have hP : 0 < 2 ^ s.min_order_ := by positivity
  have hlt : 2 ^ s.max_order_ < 2 ^ 64 := Nat.pow_lt_pow_right (by norm_num) (by omega)
  have hs := ilog2_spec 64 r (by omega) (by omega)
  constructor
  · have : 2 ^ s.min_order_ < 2 ^ (ilog2 64 r + 1) := by omega
    have := (Nat.pow_lt_pow_iff_right (a := 2) (by norm_num)).1 this
    omega
  · have : 2 ^ ilog2 64 r ≤ 2 ^ s.max_order_ := by omega
    exact (Nat.pow_le_pow_iff_right (a := 2) (by norm_num)).1 this

/-- What a successful `get_memory` does: with `t` the target order, it takes the head
`h` of the first non-empty list of order `i ≥ t` and splits it down to order `t`. -/
theorem get_memory_found {s : BuddyAllocator} (hmax : s.max_order_ ≤ 63)
    (hmin : s.min_order_ ≤ s.max_order_) {size : Nat} (hne : (s.get_memory size).1 ≠ 0) :
    ∃ t i h rest, t = ilog2 64 (next_power_of_two (add64 size CHUNK_SIZE)) ∧
      s.min_order_ ≤ t ∧ t ≤ i ∧ i ≤ s.max_order_ ∧
      s.free_chunk_list_ (i - s.min_order_) = h :: rest ∧
      (∀ j, t ≤ j → j < i → s.free_chunk_list_ (j - s.min_order_) = []) ∧
      s.get_memory size = (h + CHUNK_SIZE, split_loop t h i (s.remove_chunk h)) := by
  unfold get_memory at hne ⊢
  simp only [] at hne ⊢
  split
  · rename_i hr
    rw [if_pos hr] at hne
    exact absurd rfl hne
  · rename_i hr
    rw [if_neg hr] at hne
    obtain ⟨ht1, ht2⟩ := target_order_range hmax hmin hr
    obtain ⟨i, h, rest, h1, h2, h3, h4, h5⟩ := search_loop_found s _ _ _ hne
    exact ⟨_, i, h, rest, rfl, ht1, h1, by omega, h3, h4, h5⟩

/-- A successful `get_memory` keeps the invariant, the returned pointer joining the
allocated pointers. -/
theorem inv_get_memory {s : BuddyAllocator} {live : List Nat} (h : Inv s live) {size : Nat}
    (hne : (s.get_memory size).1 ≠ 0) :
    Inv (s.get_memory size).2 ((s.get_memory size).1 :: live) := by
  obtain ⟨t, i, b, rest, _, ht, hti, him, hl, _, hg⟩ := get_memory_found h.max_le h.min_le hne
  rw [hg]
  have hb : b ∈ s.free_chunk_list_ (i - s.min_order_) := by rw [hl]; exact List.mem_cons_self _ _
  have h1 := inv_take h hb
  have ho : (s.remove_chunk b).order_ (b + CHUNK_SIZE - CHUNK_SIZE) = i := by
    simp only [Nat.add_sub_cancel, remove_chunk_order]
    rw [h.free_hdr _ _ hb]
    omega
  have := inv_split_loop (p := b + CHUNK_SIZE) (List.mem_cons_self _ _) i _ h1 ho
    (by simpa using ht) hti
  simp only [Nat.add_sub_cancel] at this
  exact this.1

end BuddyAllocator

/-! ## Buddy allocator: `free_chunk` keeps the invariant -/

namespace BuddyAllocator

theorem find_chunk_true {s : BuddyAllocator} {b : Nat} (h : s.find_chunk b = true) :
    b ≠ 0 ∧ s.min_order_ ≤ s.order_ b ∧ s.order_ b ≤ s.max_order_ ∧
      b ∈ s.free_chunk_list_ (s.order_ b - s.min_order_) := by
  unfold find_chunk at h
  split_ifs at h with h0 h1
  refine ⟨h0, by omega, by omega, ?_⟩
  simpa using h

theorem find_chunk_of_mem {s : BuddyAllocator} {b : Nat} (h0 : b ≠ 0)
    (h1 : s.min_order_ ≤ s.order_ b) (h2 : s.order_ b ≤ s.max_order_)
    (hm : b ∈ s.free_chunk_list_ (s.order_ b - s.min_order_)) : s.find_chunk b = true := by
  unfold find_chunk
  rw [if_neg h0, if_neg (by omega)]
  simpa using hm

/-- A merge round that does not break found the buddy linked under its header order,
which is the order of the chunk. -/
theorem merge_step_some {s s' : BuddyAllocator} {c k c' : Nat}
    (h : s.merge_step c k = some (s', c')) :
    s.find_chunk (s.buddy_of c k) = true ∧ s.order_ (s.buddy_of c k) = s.order_ c ∧
      c' = (if s.buddy_of c k < c then s.buddy_of c k else c) ∧
      s' = (s.remove_chunk (s.buddy_of c k)).set_order c' (k + 1) := by
  unfold merge_step at h
  simp only [] at h
  by_cases hc : s.find_chunk (s.buddy_of c k) = false ∨
      s.order_ (s.buddy_of c k) ≠ s.order_ c
  · rw [if_pos hc] at h
    exact absurd h (by simp)
  · rw [if_neg hc] at h
    have hc' : s.find_chunk (s.buddy_of c k) = true ∧
        s.order_ (s.buddy_of c k) = s.order_ c := by
      constructor
      · by_contra hf
        exact hc (Or.inl (by simpa using hf))
      · by_contra hf
        exact hc (Or.inr hf)
    simp only [Option.some.injEq, Prod.mk.injEq] at h
    refine ⟨hc'.1, hc'.2, h.2.symm, ?_⟩
    rw [← h.1, h.2]

/-- One merge round keeps the invariant: the merged block replaces the chunk among the
allocated blocks until the loop ends. -/
theorem inv_merge_step {s s' : BuddyAllocator} {live : List Nat} (h : Inv s live)
    {p k c' : Nat} (hp : p ∈ live) (hk : s.order_ (p - CHUNK_SIZE) = k)
    (hm : s.merge_step (p - CHUNK_SIZE) k = some (s', c')) :
    Inv s' ((c' + CHUNK_SIZE) :: live.erase p) ∧ s'.order_ c' = k + 1 ∧
      s.buddy_of (p - CHUNK_SIZE) k ∈ s.free_chunk_list_ (k - s.min_order_) ∧
      (p - CHUNK_SIZE - s.base_addr_) ^^^ 2 ^ k = s.buddy_of (p - CHUNK_SIZE) k - s.base_addr_ := by
  obtain ⟨hf, ho, hc', hs'⟩ := merge_step_some hm
  obtain ⟨hb0, hb1, hb2, hbm⟩ := find_chunk_true hf
  obtain ⟨_, hcb, _, _, hle, _⟩ := h.live_range hp
  rw [ho, hk] at hbm
  rw [hk] at ho hle
  have hsh : shl64 1 k = 2 ^ k := shl64_one (by have := h.max_le; omega)
  generalize hb : s.buddy_of (p - CHUNK_SIZE) k = b at *
  have hxor : (p - CHUNK_SIZE - s.base_addr_) ^^^ 2 ^ k = b - s.base_addr_ := by
    rw [← hb, buddy_of_of_le hcb, hsh]
    omega
  have h1 := inv_take h hbm
  have h2 := inv_fuse (p := p) (q := b + CHUNK_SIZE) (k := k) h1
    (List.mem_cons_of_mem _ hp) (List.mem_cons_self _ _)
    (by simpa using hk) (by simpa using ho) (by simpa using hxor) (by simpa using hc')
  rw [List.erase_cons_head] at h2
  rw [hs']
  exact ⟨h2, set_order_self _ _ _, hbm, hxor⟩

/-- The merge loop keeps the invariant; at its end either the order is `max_order_` or
the next round breaks. -/
theorem inv_merge_loop : ∀ (n : Nat) (s : BuddyAllocator) (p : Nat) (live : List Nat),
    Inv s live → p ∈ live → n + s.order_ (p - CHUNK_SIZE) = s.max_order_ →
    ∃ live' p', Inv (merge_loop n s (p - CHUNK_SIZE) (s.order_ (p - CHUNK_SIZE))).1 live' ∧
      p' ∈ live' ∧
      (merge_loop n s (p - CHUNK_SIZE) (s.order_ (p - CHUNK_SIZE))).2 = p' - CHUNK_SIZE ∧
      live'.erase p' = live.erase p ∧
      ((merge_loop n s (p - CHUNK_SIZE) (s.order_ (p - CHUNK_SIZE))).1.order_ (p' - CHUNK_SIZE) =
          (merge_loop n s (p - CHUNK_SIZE) (s.order_ (p - CHUNK_SIZE))).1.max_order_ ∨
        (merge_loop n s (p - CHUNK_SIZE) (s.order_ (p - CHUNK_SIZE))).1.merge_step
          (p' - CHUNK_SIZE)
          ((merge_loop n s (p - CHUNK_SIZE) (s.order_ (p - CHUNK_SIZE))).1.order_
            (p' - CHUNK_SIZE)) = none)
  | 0, s, p, live, h, hp, hn => by
    refine ⟨live, p, h, hp, rfl, rfl, Or.inl ?_⟩
    simp only [merge_loop]
    omega
  | n + 1, s, p, live, h, hp, hn => by
    rw [merge_loop, if_pos (by omega)]
    cases hm : s.merge_step (p - CHUNK_SIZE) (s.order_ (p - CHUNK_SIZE)) with
    | none => exact ⟨live, p, h, hp, rfl, rfl, Or.inr hm⟩
    | some r =>
      obtain ⟨s1, c1⟩ := r
      obtain ⟨h1, ho1, _⟩ := inv_merge_step h hp rfl hm
      have hmax : s1.max_order_ = s.max_order_ := by
        rw [(merge_step_some hm).2.2.2]
        simp
      have ih := inv_merge_loop n s1 (c1 + CHUNK_SIZE) _ h1 (List.mem_cons_self _ _)
        (by simp only [Nat.add_sub_cancel]; rw [ho1, hmax]; omega)
      simp only [Nat.add_sub_cancel, ho1] at ih
      obtain ⟨live', p', i1, i2, i3, i4, i5⟩ := ih
      refine ⟨live', p', i1, i2, i3, ?_, i5⟩
      rw [i4, List.erase_cons_head]

/-- When the merge loop has ended, no free chunk is the buddy of the chunk in hand. -/
theorem stop_no_buddy {s : BuddyAllocator} {live : List Nat} (h : Inv s live) {p : Nat}
    (hp : p ∈ live)
    (hstop : s.order_ (p - CHUNK_SIZE) = s.max_order_ ∨
      s.merge_step (p - CHUNK_SIZE) (s.order_ (p - CHUNK_SIZE)) = none) :
    ∀ x, x ∈ s.free_chunk_list_ (s.order_ (p - CHUNK_SIZE) - s.min_order_) →
      (x - s.base_addr_) ^^^ (p - CHUNK_SIZE - s.base_addr_) ≠ 2 ^ s.order_ (p - CHUNK_SIZE) := by
  intro x hx hxor
  obtain ⟨_, hbase, _, h1, h2, hblk⟩ := h.live_range hp
  obtain ⟨hx0, hxb, hxo, hx1, hx2, _, _⟩ := h.free_range hx
  have hxo' : s.order_ x = s.order_ (p - CHUNK_SIZE) := by omega
  rcases hstop with e | e
  · have g1 := (h.geom _ hblk).2.2
    have g2 := (h.geom x (Or.inl ⟨_, hx⟩)).2.2
    rw [hxo', e] at g2
    rw [e] at g1 hxor
    have hP : 0 < 2 ^ s.max_order_ := by positivity
    have e1 : x - s.base_addr_ = 0 := by omega
    have e2 : p - CHUNK_SIZE - s.base_addr_ = 0 := by omega
    rw [e1, e2] at hxor
    simp at hxor
    omega
  · have hsh : shl64 1 (s.order_ (p - CHUNK_SIZE)) = 2 ^ s.order_ (p - CHUNK_SIZE) :=
      shl64_one (by have := h.max_le; omega)
    have hb : s.buddy_of (p - CHUNK_SIZE) (s.order_ (p - CHUNK_SIZE)) = x := by
      rw [buddy_of_of_le hbase, hsh, ← xor_eq_left hxor]
      omega
    unfold merge_step at e
    simp only [hb] at e
    rw [if_neg] at e
    · exact absurd e (by simp)
    · rw [find_chunk_of_mem hx0 hx1 hx2 (by rw [hxo']; exact hx)]
      simp [hxo']

/-- `free_chunk` of an allocated pointer keeps the invariant, the pointer leaving the
allocated pointers. -/
theorem inv_free_chunk {s : BuddyAllocator} {live : List Nat} (h : Inv s live) {p : Nat}
    (hp : p ∈ live) : Inv (s.free_chunk p) (live.erase p) := by
  obtain ⟨_, _, hcp, _, h2, _⟩ := h.live_range hp
  have hp0 : p ≠ 0 := by
    have := (h.live_hdr p hp).1
    rw [chunk_size_eq] at this
    omega
  unfold free_chunk
  rw [if_neg hp0]
  simp only []
  rw [ptr_sub_of_le (h.live_hdr p hp).1]
  obtain ⟨live', p', i1, i2, i3, i4, i5⟩ :=
    inv_merge_loop (s.max_order_ - s.order_ (p - CHUNK_SIZE)) s p live h hp (by omega)
  rw [i3, ← i4]
  exact (inv_release i1 i2 (stop_no_buddy i1 i2 i5)).1

end BuddyAllocator

/-! ## Buddy allocator: the constructed state and the reachable states -/

namespace BuddyAllocator

theorem shl64_le (k : Nat) : shl64 1 k ≤ 2 ^ 63 := by
  rw [shl64_one_mod]
  exact Nat.pow_le_pow_right (by norm_num) (by omega)

theorem next_power_of_two_le (x : Nat) : next_power_of_two x ≤ 2 ^ 63 := by
  unfold next_power_of_two
  split
  · exact Nat.one_le_two_pow
  · exact shl64_le _

theorem order_loop_le {limit : Nat} (hl : limit ≤ 2 ^ 63) :
    ∀ (n k : Nat), k ≤ 63 → order_loop limit n k ≤ 63
  | 0, k, hk => hk
  | n + 1, k, hk => by
    unfold order_loop
    split
    · rename_i hlt
      apply order_loop_le hl n (k + 1)
      by_contra hc
      have : k = 63 := by omega
      rw [this, shl64_one (le_refl _)] at hlt
      omega
    · exact hk

theorem create_fields (base : Nat) (mem : Nat → Nat) (max_memory min_order max_order : Nat) :
    (create base mem max_memory min_order max_order).max_order_ ≤ 63 ∧
    (create base mem max_memory min_order max_order).min_order_ ≤
      (create base mem max_memory min_order max_order).max_order_ ∧
    (create base mem max_memory min_order max_order).base_addr_ = base ∧
    (create base mem max_memory min_order max_order).order_ =
      Function.update mem base (create base mem max_memory min_order max_order).max_order_ ∧
    (base ≠ 0 → (create base mem max_memory min_order max_order).free_chunk_list_ =
      Function.update (fun _ => [])
        ((create base mem max_memory min_order max_order).max_order_ -
          (create base mem max_memory min_order max_order).min_order_) [base]) := by
  have hmop := order_loop_le (next_power_of_two_le max_memory) 64 0 (by omega)
  simp only [create, add_chunk_max, add_chunk_min, add_chunk_base, add_chunk_order,
    set_order_max, set_order_min, set_order_base]
  refine ⟨?_, ?_, ?_, ?_, ?_⟩
  · split_ifs <;> omega
  · split_ifs <;> omega
  · trivial
  · rfl
  · intro hb
    rw [add_chunk_list _ hb]
    · simp only [set_order_self, set_order_min, set_order_list]
    · simp only [set_order_self, set_order_min]
      split_ifs <;> omega
    · simp only [set_order_self, set_order_max]
      exact le_refl _

/-- The constructed allocator satisfies the invariant with no block allocated. -/
theorem inv_create (base : Nat) (mem : Nat → Nat) (max_memory min_order max_order : Nat)
    (hb : base ≠ 0) : Inv (create base mem max_memory min_order max_order) [] := by
  obtain ⟨h1, h2, h3, h4, h5⟩ := create_fields base mem max_memory min_order max_order
  have h5 := h5 hb
  generalize create base mem max_memory min_order max_order = s at *
  have hmem : ∀ j c, c ∈ s.free_chunk_list_ j ↔
      (j = s.max_order_ - s.min_order_ ∧ c = base) := by
    intro j c
    rw [h5, mem_update_list]
    simp
  have hob : s.order_ base = s.max_order_ := by rw [h4]; simp
  have hhdr : ∀ j c, c ∈ s.free_chunk_list_ j → s.order_ c = j + s.min_order_ := by
    intro j c hc
    obtain ⟨e1, e2⟩ := (hmem j c).1 hc
    rw [e2, hob, e1]
    omega
  have hblk : ∀ c, s.Blk [] c → c = base := by
    rintro c (⟨j, hc⟩ | hc)
    · exact ((hmem j c).1 hc).2
    · simp at hc
  refine
    { max_le := h1
      min_le := h2
      base_ne := by rw [h3]; exact hb
      free_hdr := hhdr
      live_hdr := by simp
      geom := ?_
      disj := ?_
      free_nodup := ?_
      live_nodup := List.nodup_nil
      free_live := by simp
      total := ?_
      no_buddies := ?_ }
  · intro c hc
    rw [hblk c hc, h3, hob]
    simp
  · intro c c' hc hc' hne
    rw [hblk c hc, hblk c' hc'] at hne
    exact absurd rfl hne
  · intro j
    rw [h5]
    by_cases e : j = s.max_order_ - s.min_order_
    · subst e; simp
    · simp [Function.update_noteq e]
  · rw [free_bytes_eq s hhdr]
    have hz : ((List.range s.list_size).map (fun j => 0 * 2 ^ (j + s.min_order_))).sum = 0 := by
      simp
    have := sum_range_bump (fun j => 0 * 2 ^ (j + s.min_order_))
      (fun j => (s.free_chunk_list_ j).length * 2 ^ (j + s.min_order_))
      (s.max_order_ - s.min_order_) (2 ^ s.max_order_)
      (by
        intro i hi
        simp only [h5, Function.update_noteq hi, List.length_nil])
      (by
        simp only [h5, Function.update_same, List.length_singleton, one_mul, zero_mul,
          zero_add]
        congr 1
        omega)
      s.list_size (by unfold list_size; omega)
    rw [this, hz]
    simp [live_bytes]
  · intro j c c' hc hc'
    rw [((hmem j c).1 hc).2, ((hmem j c').1 hc').2, Nat.xor_self]
    exact (Nat.pos_pow_of_pos _ (by norm_num)).ne

/-- Every reachable state satisfies the invariant, and the allocator parameters do not
change. -/
theorem reachable_inv {s0 s : BuddyAllocator} {live : List Nat} (h0 : Inv s0 [])
    (hr : Reachable s0 s live) : Inv s live := by
  induction hr with
  | init => exact h0
  | alloc_ok size _ hne ih => exact inv_get_memory ih hne
  | alloc_null size _ hnull ih =>
    rw [get_memory_null_state _ _ hnull]
    exact ih
  | free p _ hp ih => exact inv_free_chunk ih hp

end BuddyAllocator

/-! ## Buddy conservation -/

namespace BuddyAllocator

theorem reachable_max_order {s0 s : BuddyAllocator} {live : List Nat} (h0 : Inv s0 [])
    (hr : Reachable s0 s live) : s.max_order_ = s0.max_order_ := by
  induction hr with
  | init => rfl
  | @alloc_ok s1 live1 size hr1 hne ih =>
    have hi := reachable_inv h0 hr1
    obtain ⟨t, i, b, rest, _, _, _, _, _, _, hg⟩ := get_memory_found hi.max_le hi.min_le hne
    have hs : ∀ (i : Nat) (u : BuddyAllocator),
        (split_loop t b i u).max_order_ = u.max_order_ := by
      intro i
      induction i with
      | zero => intro u; rfl
      | succ k ihk =>
        intro u
        by_cases e : t < k + 1
        · rw [split_loop_succ _ _ _ _ e, ihk]
          simp [halve]
        · rw [split_loop_stop _ _ _ _ (by omega)]
    rw [hg, ← ih]
    simp only [hs, remove_chunk_max]
  | alloc_null size _ hnull ih =>
    rw [get_memory_null_state _ _ hnull]
    exact ih
  | @free s1 live1 p hr1 hp ih =>
    have hm : ∀ (n : Nat) (u : BuddyAllocator) (c k : Nat),
        (merge_loop n u c k).1.max_order_ = u.max_order_ := by
      intro n
      induction n with
      | zero => intro u c k; rfl
      | succ n ihn =>
        intro u c k
        rw [merge_loop]
        split_ifs
        · cases hms : u.merge_step c k with
          | none => rfl
          | some r =>
            obtain ⟨u1, c1⟩ := r
            simp only []
            rw [ihn, (merge_step_some hms).2.2.2]
            simp
        · rfl
    rw [← ih]
    unfold free_chunk
    split_ifs
    · rfl
    · simp only [add_chunk_max, hm]

/-- C1: for a constructed allocator (`mmap` returned `base ≠ 0`) and every state
reached by `get_memory` and by `free_chunk` of allocated pointers, the sum of
`2 ^ order_` over the chunks of the free lists plus the sum of `2 ^ order_` over the
allocated blocks equals `2 ^ max_order_`, the size of the initial free block. -/
theorem buddy_conservation (base : Nat) (mem : Nat → Nat)
    (max_memory min_order max_order : Nat) (hb : base ≠ 0)
    (s : BuddyAllocator) (live : List Nat)
    (hr : Reachable (create base mem max_memory min_order max_order) s live) :
    s.free_bytes + s.live_bytes live =
        2 ^ (create base mem max_memory min_order max_order).max_order_ ∧
    (create base mem max_memory min_order max_order).free_bytes =
        2 ^ (create base mem max_memory min_order max_order).max_order_ := by
  have h0 := inv_create base mem max_memory min_order max_order hb
  constructor
  · rw [← reachable_max_order h0 hr]
    exact (reachable_inv h0 hr).total
  · have := h0.total
    simpa [live_bytes] using this

/-- C1 on the 1 MiB allocator after `get_memory(2000)`. -/
theorem buddy_conservation_witness :
    (1048576 ≠ 0 ∧
      Reachable (create 1048576 (fun _ => 0) (2 ^ 20) 10 20)
        ((create 1048576 (fun _ => 0) (2 ^ 20) 10 20).get_memory 2000).2
        [((create 1048576 (fun _ => 0) (2 ^ 20) 10 20).get_memory 2000).1]) ∧
    (((create 1048576 (fun _ => 0) (2 ^ 20) 10 20).get_memory 2000).2.free_bytes +
      ((create 1048576 (fun _ => 0) (2 ^ 20) 10 20).get_memory 2000).2.live_bytes
        [((create 1048576 (fun _ => 0) (2 ^ 20) 10 20).get_memory 2000).1] =
        2 ^ (create 1048576 (fun _ => 0) (2 ^ 20) 10 20).max_order_ ∧
     (create 1048576 (fun _ => 0) (2 ^ 20) 10 20).free_bytes =
        2 ^ (create 1048576 (fun _ => 0) (2 ^ 20) 10 20).max_order_) :=
  ⟨⟨by decide, Reachable.alloc_ok 2000 Reachable.init (by decide)⟩,
   buddy_conservation 1048576 (fun _ => 0) (2 ^ 20) 10 20 (by decide) _ _
     (Reachable.alloc_ok 2000 Reachable.init (by decide))⟩

end BuddyAllocator

/-! ## No false merge -/

namespace BuddyAllocator

/-- The trace follows the loop: when no round merged the loop returns its arguments,
otherwise it returns what the last traced round produced. -/
theorem merge_loop_eq_trace : ∀ (n : Nat) (s : BuddyAllocator) (c k : Nat),
    (merge_trace n s c k = [] ∧ merge_loop n s c k = (s, c)) ∨
    (∃ u a j, (merge_trace n s c k).getLast? = some (u, a, j) ∧
      u.merge_step a j = some (merge_loop n s c k))
  | 0, s, c, k => Or.inl ⟨rfl, rfl⟩
  | n + 1, s, c, k => by
    rw [merge_loop, merge_trace]
    by_cases hlt : k < s.max_order_
    · rw [if_pos hlt, if_pos hlt]
      cases hms : s.merge_step c k with
      | none => exact Or.inl ⟨rfl, rfl⟩
      | some r =>
        obtain ⟨s1, c1⟩ := r
        simp only []
        right
        rcases merge_loop_eq_trace n s1 c1 (k + 1) with ⟨e1, e2⟩ | ⟨u, a, j, e1, e2⟩
        · exact ⟨s, c, k, by rw [e1]; rfl, by rw [e2, hms]⟩
        · refine ⟨u, a, j, ?_, e2⟩
          cases ht : merge_trace n s1 c1 (k + 1) with
          | nil => rw [ht] at e1; simp at e1
          | cons e T => rw [ht] at e1; rw [List.getLast?_cons_cons]; exact e1
    · rw [if_neg hlt, if_neg hlt]
      exact Or.inl ⟨rfl, rfl⟩

/-- What holds of a merging round: state `u`, chunk `a`, order `k`. -/
theorem merge_trace_sound : ∀ (n : Nat) (s : BuddyAllocator) (p : Nat) (live : List Nat),
    Inv s live → p ∈ live →
    ∀ u a k, (u, a, k) ∈ merge_trace n s (p - CHUNK_SIZE) (s.order_ (p - CHUNK_SIZE)) →
      ∃ s1, u.merge_step a k = some (s1, min a (u.buddy_of a k)) ∧
        u.buddy_of a k ∈ u.free_chunk_list_ (k - u.min_order_) ∧
        u.min_order_ ≤ k ∧ k < u.max_order_ ∧
        u.order_ (u.buddy_of a k) = k ∧ u.order_ a = k ∧
        u.base_addr_ ≤ a ∧ u.base_addr_ ≤ u.buddy_of a k ∧
        (a - u.base_addr_) ^^^ (u.buddy_of a k - u.base_addr_) = 2 ^ k ∧
        s1.order_ (min a (u.buddy_of a k)) = k + 1
  | 0, s, p, live, _, _ => by
    intro u a k hm
    simp [merge_trace] at hm
  | n + 1, s, p, live, h, hp => by
    intro u a k hm
    rw [merge_trace] at hm
    by_cases hlt : s.order_ (p - CHUNK_SIZE) < s.max_order_
    · rw [if_pos hlt] at hm
      cases hms : s.merge_step (p - CHUNK_SIZE) (s.order_ (p - CHUNK_SIZE)) with
      | none =>
        rw [hms] at hm
        simp at hm
      | some r =>
        obtain ⟨s1, c1⟩ := r
        rw [hms] at hm
        simp only [List.mem_cons] at hm
        obtain ⟨h1, ho1, hbm, hxor⟩ := inv_merge_step h hp rfl hms
        have hc1 : c1 = min (p - CHUNK_SIZE)
            (s.buddy_of (p - CHUNK_SIZE) (s.order_ (p - CHUNK_SIZE))) := by
          rw [(merge_step_some hms).2.2.1]
          split_ifs with hlt2
          · exact (min_eq_right (le_of_lt hlt2)).symm
          · exact (min_eq_left (by omega)).symm
        rcases hm with e | hm
        · simp only [Prod.mk.injEq] at e
          obtain ⟨e1, e2, e3⟩ := e
          subst e1 e2 e3
          obtain ⟨_, hbase, _, hmin, _, _⟩ := h.live_range hp
          refine ⟨s1, by rw [hms, hc1], hbm, hmin, hlt, ?_, rfl, hbase,
            (h.free_range hbm).2.1, ?_, by rw [← hc1]; exact ho1⟩
          · exact (merge_step_some hms).2.1
          · rw [← hxor, ← Nat.xor_assoc, Nat.xor_self, Nat.zero_xor]
        · have ih := merge_trace_sound n s1 (c1 + CHUNK_SIZE) _ h1 (List.mem_cons_self _ _)
          simp only [Nat.add_sub_cancel, ho1] at ih
          exact ih u a k hm
    · rw [if_neg hlt] at hm
      simp at hm

/-- C3: in a state reached from a constructed allocator, every merging round of
`free_chunk` on an allocated pointer, with chunk `a` and order `k`, merges with the
address `b = buddy_of a k` only: `b` is linked in the order-`k` free list, its header
order is `k` (as is the chunk's), the offsets satisfy `(a - base) XOR (b - base) = 2 ^ k`,
and the merged chunk is at `min a b` with header order `k + 1`. -/
theorem no_false_merge (base : Nat) (mem : Nat → Nat)
    (max_memory min_order max_order : Nat) (hb : base ≠ 0)
    (s : BuddyAllocator) (live : List Nat)
    (hr : Reachable (create base mem max_memory min_order max_order) s live)
    (p : Nat) (hp : p ∈ live) (u : BuddyAllocator) (a k : Nat)
    (hm : (u, a, k) ∈ s.free_chunk_rounds p) :
    ∃ s1, u.merge_step a k = some (s1, min a (u.buddy_of a k)) ∧
      u.buddy_of a k ∈ u.free_chunk_list_ (k - u.min_order_) ∧
      u.min_order_ ≤ k ∧ k < u.max_order_ ∧
      u.order_ (u.buddy_of a k) = k ∧ u.order_ a = k ∧
      u.base_addr_ ≤ a ∧ u.base_addr_ ≤ u.buddy_of a k ∧
      (a - u.base_addr_) ^^^ (u.buddy_of a k - u.base_addr_) = 2 ^ k ∧
      s1.order_ (min a (u.buddy_of a k)) = k + 1 := by
  have hi := reachable_inv (inv_create base mem max_memory min_order max_order hb) hr
  unfold free_chunk_rounds at hm
  split_ifs at hm with h0
  · simp at hm
  · rw [ptr_sub_of_le (hi.live_hdr p hp).1] at hm
    exact merge_trace_sound _ s p live hi hp u a k hm

/-- C3 on a 64-byte allocator with orders 5 to 6: freeing the block handed out by
`get_memory(10)`, the first round merges the chunk at the base, of order 5, with the
chunk 32 bytes above it. -/
theorem no_false_merge_witness :
    (4096 ≠ 0 ∧
      Reachable (create 4096 (fun _ => 0) 64 5 6)
        ((create 4096 (fun _ => 0) 64 5 6).get_memory 10).2
        [((create 4096 (fun _ => 0) 64 5 6).get_memory 10).1] ∧
      4112 ∈ [((create 4096 (fun _ => 0) 64 5 6).get_memory 10).1] ∧
      (((create 4096 (fun _ => 0) 64 5 6).get_memory 10).2, 4096, 5) ∈
        ((create 4096 (fun _ => 0) 64 5 6).get_memory 10).2.free_chunk_rounds 4112) ∧
    ∃ s1, ((create 4096 (fun _ => 0) 64 5 6).get_memory 10).2.merge_step 4096 5 =
        some (s1, min 4096 (((create 4096 (fun _ => 0) 64 5 6).get_memory 10).2.buddy_of 4096 5)) ∧
      ((create 4096 (fun _ => 0) 64 5 6).get_memory 10).2.buddy_of 4096 5 ∈
        ((create 4096 (fun _ => 0) 64 5 6).get_memory 10).2.free_chunk_list_
          (5 - ((create 4096 (fun _ => 0) 64 5 6).get_memory 10).2.min_order_) ∧
      ((create 4096 (fun _ => 0) 64 5 6).get_memory 10).2.min_order_ ≤ 5 ∧
      5 < ((create 4096 (fun _ => 0) 64 5 6).get_memory 10).2.max_order_ ∧
      ((create 4096 (fun _ => 0) 64 5 6).get_memory 10).2.order_
        (((create 4096 (fun _ => 0) 64 5 6).get_memory 10).2.buddy_of 4096 5) = 5 ∧
      ((create 4096 (fun _ => 0) 64 5 6).get_memory 10).2.order_ 4096 = 5 ∧
      ((create 4096 (fun _ => 0) 64 5 6).get_memory 10).2.base_addr_ ≤ 4096 ∧
      ((create 4096 (fun _ => 0) 64 5 6).get_memory 10).2.base_addr_ ≤
        ((create 4096 (fun _ => 0) 64 5 6).get_memory 10).2.buddy_of 4096 5 ∧
      (4096 - ((create 4096 (fun _ => 0) 64 5 6).get_memory 10).2.base_addr_) ^^^
        (((create 4096 (fun _ => 0) 64 5 6).get_memory 10).2.buddy_of 4096 5 -
          ((create 4096 (fun _ => 0) 64 5 6).get_memory 10).2.base_addr_) = 2 ^ 5 ∧
      s1.order_ (min 4096 (((create 4096 (fun _ => 0) 64 5 6).get_memory 10).2.buddy_of 4096 5))
        = 5 + 1 :=
  ⟨⟨by decide, Reachable.alloc_ok 10 Reachable.init (by decide), by decide,
      List.mem_cons_self _ _⟩,
   no_false_merge 4096 (fun _ => 0) 64 5 6 (by decide) _ _
     (Reachable.alloc_ok 10 Reachable.init (by decide)) 4112 (by decide) _ 4096 5
     (List.mem_cons_self _ _)⟩

end BuddyAllocator

/-! ## Allocating then freeing restores the free lists -/

namespace BuddyAllocator

/-- One split round, field by field. -/
theorem halve_desc (s : BuddyAllocator) (c : Nat) {k : Nat} (hmin : s.min_order_ ≤ k)
    (hmax : k ≤ s.max_order_) (h63 : k ≤ 63) :
    (s.halve c k).base_addr_ = s.base_addr_ ∧ (s.halve c k).min_order_ = s.min_order_ ∧
    (s.halve c k).max_order_ = s.max_order_ ∧
    (s.halve c k).free_chunk_list_ = Function.update s.free_chunk_list_ (k - s.min_order_)
      ((c + 2 ^ k) :: s.free_chunk_list_ (k - s.min_order_)) ∧
    (s.halve c k).order_ c = k ∧ (s.halve c k).order_ (c + 2 ^ k) = k ∧
    (∀ x, x ≠ c → x ≠ c + 2 ^ k → (s.halve c k).order_ x = s.order_ x) := by
  have hsh : shl64 1 k = 2 ^ k := shl64_one h63
  have hP : 0 < 2 ^ k := by positivity
  have hb' : ((s.set_order (c + 2 ^ k) k).set_order c k).order_ (c + 2 ^ k) = k := by
    rw [set_order_other _ _ (by omega), set_order_self]
  refine ⟨by simp [halve], by simp [halve], by simp [halve], ?_, by simp [halve, hsh], ?_, ?_⟩
  · unfold halve
    rw [hsh, add_chunk_list _ (by omega) (by rw [hb']; simpa using hmin)
      (by rw [hb']; simpa using hmax), hb']
    simp
  · simp only [halve, hsh, add_chunk_order]
    exact hb'
  · intro x hx1 hx2
    simp only [halve, hsh, add_chunk_order]
    rw [set_order_other _ _ hx1, set_order_other _ _ hx2]

/-- The split loop, field by field: for each order `j` from `t` below `i` the upper half
`h + 2 ^ j` is pushed on the list of order `j` with header order `j`. -/
theorem split_loop_desc (t h : Nat) : ∀ (i : Nat) (s : BuddyAllocator),
    s.min_order_ ≤ t → i ≤ s.max_order_ → s.max_order_ ≤ 63 →
    (split_loop t h i s).base_addr_ = s.base_addr_ ∧
    (split_loop t h i s).min_order_ = s.min_order_ ∧
    (split_loop t h i s).max_order_ = s.max_order_ ∧
    (∀ idx, (split_loop t h i s).free_chunk_list_ idx =
      if t ≤ idx + s.min_order_ ∧ idx + s.min_order_ < i
      then (h + 2 ^ (idx + s.min_order_)) :: s.free_chunk_list_ idx
      else s.free_chunk_list_ idx) ∧
    (t < i → (split_loop t h i s).order_ h = t) ∧
    (∀ j, t ≤ j → j < i → (split_loop t h i s).order_ (h + 2 ^ j) = j) ∧
    (∀ x, x ≠ h → (∀ j, t ≤ j → j < i → x ≠ h + 2 ^ j) →
      (split_loop t h i s).order_ x = s.order_ x)
  | 0, s, _, _, _ => by
    rw [split_loop_stop _ _ _ _ (Nat.zero_le _)]
    refine ⟨rfl, rfl, rfl, ?_, by omega, by omega, fun _ _ _ => rfl⟩
    intro idx
    rw [if_neg (by omega)]
  | k + 1, s, hmin, hmax, h63 => by
    by_cases e : t < k + 1
    · rw [split_loop_succ _ _ _ _ e]
      obtain ⟨d1, d2, d3, d4, d5, d6, d7⟩ := halve_desc s h (k := k) (by omega) (by omega) (by omega)
      obtain ⟨r1, r2, r3, r4, r5, r6, r7⟩ :=
        split_loop_desc t h k (s.halve h k) (by rw [d2]; exact hmin) (by rw [d3]; omega)
          (by rw [d3]; exact h63)
      have hP : ∀ j, 0 < 2 ^ j := fun j => by positivity
      have hinj : ∀ j, j < k → h + 2 ^ k ≠ h + 2 ^ j := by
        intro j hj
        have := Nat.pow_lt_pow_right (a := 2) (by norm_num) hj
        omega
      refine ⟨by rw [r1, d1], by rw [r2, d2], by rw [r3, d3], ?_, ?_, ?_, ?_⟩
      · intro idx
        rw [r4 idx, d2, d4]
        by_cases e1 : idx = k - s.min_order_
        · subst e1
          have e2 : k - s.min_order_ + s.min_order_ = k := by omega
          rw [if_neg (by omega), if_pos (by omega), Function.update_same, e2]
        · rw [Function.update_noteq e1]
          by_cases e2 : t ≤ idx + s.min_order_ ∧ idx + s.min_order_ < k
          · rw [if_pos e2, if_pos (by omega)]
          · rw [if_neg e2, if_neg (by omega)]
      · intro _
        by_cases e1 : t < k
        · exact r5 e1
        · have : k = t := by omega
          subst this
          rw [split_loop_stop _ _ _ _ (le_refl _)]
          exact d5
      · intro j hj1 hj2
        by_cases e1 : j = k
        · subst e1
          rw [r7 _ (by have := hP j; omega) (fun j' _ hj' => hinj j' hj')]
          exact d6
        · exact r6 j hj1 (by omega)
      · intro x hx1 hx2
        rw [r7 x hx1 (fun j hj1 hj2 => hx2 j hj1 (by omega))]
        exact d7 x hx1 (hx2 k (by omega) (by omega))
    · rw [split_loop_stop _ _ _ _ (by omega)]
      refine ⟨rfl, rfl, rfl, ?_, by omega, by omega, fun _ _ _ => rfl⟩
      intro idx
      rw [if_neg (by omega)]

end BuddyAllocator

namespace BuddyAllocator

/-- The merge loop undoes the split loop: started at order `j` on the chunk at `h` with
the upper halves `h + 2 ^ j'` (`j ≤ j' < i`) at the heads of their lists, it merges up to
order `i`, pops those heads, and stops there when the buddy at order `i` is not a free
chunk of order `i`. -/
theorem merge_loop_up (L0 : Nat → List Nat) (h i : Nat) :
    ∀ (d : Nat) (s : BuddyAllocator) (j : Nat), j + d = i →
      s.min_order_ ≤ j → i ≤ s.max_order_ → s.max_order_ ≤ 63 →
      s.base_addr_ ≤ h → 2 ^ i ∣ h - s.base_addr_ → s.order_ h = j →
      (∀ idx, s.free_chunk_list_ idx =
        if j ≤ idx + s.min_order_ ∧ idx + s.min_order_ < i
        then (h + 2 ^ (idx + s.min_order_)) :: L0 idx else L0 idx) →
      (∀ j', j ≤ j' → j' < i → s.order_ (h + 2 ^ j') = j') →
      (i < s.max_order_ →
        ¬ (s.order_ (s.base_addr_ + ((h - s.base_addr_) ^^^ 2 ^ i)) = i ∧
          s.base_addr_ + ((h - s.base_addr_) ^^^ 2 ^ i) ∈ L0 (i - s.min_order_))) →
      ∃ r, merge_loop (s.max_order_ - j) s h j = (r, h) ∧ r.free_chunk_list_ = L0 ∧
        r.order_ h = i ∧ r.min_order_ = s.min_order_ ∧ r.max_order_ = s.max_order_ ∧
        r.base_addr_ = s.base_addr_
  | 0, s, j, hji, hmin, hmax, h63, hbase, hdvd, hoh, hl, _, hstop => by
    have e : j = i := by omega
    subst e
    have hlist : s.free_chunk_list_ = L0 := by
      funext idx
      rw [hl idx, if_neg (by omega)]
    cases hn : s.max_order_ - j with
    | zero => exact ⟨s, rfl, hlist, hoh, rfl, rfl, rfl⟩
    | succ n =>
      refine ⟨s, ?_, hlist, hoh, rfl, rfl, rfl⟩
      rw [merge_loop, if_pos (by omega)]
      have hms : s.merge_step h j = none := by
        unfold merge_step
        simp only []
        rw [if_pos]
        by_contra hc
        have hc1 : s.find_chunk (s.buddy_of h j) = true := by
          by_contra hf
          exact hc (Or.inl (by simpa using hf))
        have hc2 : s.order_ (s.buddy_of h j) = s.order_ h := by
          by_contra hf
          exact hc (Or.inr hf)
        obtain ⟨_, _, _, hm⟩ := find_chunk_true hc1
        rw [hc2, hoh, hlist] at hm
        have hsh : shl64 1 j = 2 ^ j := shl64_one (by omega)
        rw [buddy_of_of_le hbase, hsh] at hc2 hm
        exact hstop (by omega) ⟨by rw [hc2, hoh], hm⟩
      rw [hms]
  | d + 1, s, j, hji, hmin, hmax, h63, hbase, hdvd, hoh, hl, hob, hstop => by
    have hsh : shl64 1 j = 2 ^ j := shl64_one (by omega)
    have hP : 0 < 2 ^ j := by positivity
    have hd2 : 2 ^ (j + 1) ∣ h - s.base_addr_ :=
      Dvd.dvd.trans (pow_dvd_pow 2 (by omega)) hdvd
    have hb : s.buddy_of h j = h + 2 ^ j := by
      rw [buddy_of_of_le hbase, hsh, xor_buddy_low hd2]
      omega
    have hidx : j - s.min_order_ + s.min_order_ = j := by omega
    have hlj : s.free_chunk_list_ (j - s.min_order_) =
        (h + 2 ^ j) :: L0 (j - s.min_order_) := by
      rw [hl, if_pos (by omega), hidx]
    have hobj := hob j (le_refl _) (by omega)
    have hfind : s.find_chunk (h + 2 ^ j) = true :=
      find_chunk_of_mem (by omega) (by omega) (by omega)
        (by rw [hobj, hlj]; exact List.mem_cons_self _ _)
    have hms : s.merge_step h j =
        some ((s.remove_chunk (h + 2 ^ j)).set_order h (j + 1), h) := by
      unfold merge_step
      simp only [hb]
      rw [if_neg (by rw [hfind, hobj, hoh]; simp), if_neg (by omega)]
    have hfuel : s.max_order_ - j = (s.max_order_ - (j + 1)) + 1 := by omega
    rw [hfuel, merge_loop, if_pos (by omega), hms]
    simp only []
    have hrl : (s.remove_chunk (h + 2 ^ j)).free_chunk_list_ =
        Function.update s.free_chunk_list_ (j - s.min_order_) (L0 (j - s.min_order_)) := by
      rw [remove_chunk_list s (by omega) (by omega) (by omega), hobj, hlj,
        List.erase_cons_head]
    have ih := merge_loop_up L0 h i d ((s.remove_chunk (h + 2 ^ j)).set_order h (j + 1)) (j + 1)
      (by omega) (by simpa using (by omega : s.min_order_ ≤ j + 1)) (by simpa using hmax)
      (by simpa using h63) (by simpa using hbase) (by simpa using hdvd) (by simp)
      (by
        intro idx
        simp only [set_order_list, set_order_min, remove_chunk_min, hrl]
        by_cases e1 : idx = j - s.min_order_
        · subst e1
          rw [Function.update_same, if_neg (by omega)]
        · rw [Function.update_noteq e1, hl idx]
          by_cases e2 : j ≤ idx + s.min_order_ ∧ idx + s.min_order_ < i
          · rw [if_pos e2, if_pos (by omega)]
          · rw [if_neg e2, if_neg (by omega)])
      (by
        intro j' hj1 hj2
        have hP' : 0 < 2 ^ j' := by positivity
        rw [set_order_other _ _ (by omega)]
        simpa using hob j' (by omega) hj2)
      (by
        intro hlt
        simp only [set_order_base, remove_chunk_base, set_order_min, remove_chunk_min,
          set_order_max, remove_chunk_max] at hlt ⊢
        have hne : s.base_addr_ + ((h - s.base_addr_) ^^^ 2 ^ i) ≠ h := by
          intro e
          have e' : (h - s.base_addr_) ^^^ 2 ^ i = h - s.base_addr_ := by omega
          have := xor_eq_right e'
          rw [Nat.xor_self] at this
          have : 0 < 2 ^ i := by positivity
          omega
        rw [set_order_other _ _ hne]
        simpa using hstop hlt)
    simp only [set_order_max, remove_chunk_max, set_order_min, remove_chunk_min,
      set_order_base, remove_chunk_base] at ih
    exact ih

end BuddyAllocator

namespace BuddyAllocator

/-- In a state satisfying the invariant, a successful `get_memory` followed by
`free_chunk` of the returned pointer restores every free list; the chunk that was taken
is again the head of its list. -/
theorem alloc_free_restores {s : BuddyAllocator} {live : List Nat} (hI : Inv s live)
    {size : Nat} (hne : (s.get_memory size).1 ≠ 0) :
    ((s.get_memory size).2.free_chunk (s.get_memory size).1).free_chunk_list_ =
      s.free_chunk_list_ ∧
    ((s.get_memory size).2.free_chunk (s.get_memory size).1).min_order_ = s.min_order_ ∧
    ((s.get_memory size).2.free_chunk (s.get_memory size).1).max_order_ = s.max_order_ ∧
    ((s.get_memory size).2.free_chunk (s.get_memory size).1).base_addr_ = s.base_addr_ := by
  obtain ⟨t, i, h, rest, _, ht, hti, him, hl, _, hg⟩ :=
    get_memory_found hI.max_le hI.min_le hne
  have hmem : h ∈ s.free_chunk_list_ (i - s.min_order_) := by
    rw [hl]; exact List.mem_cons_self _ _
  obtain ⟨h0, hbase, hord, h1, h2, _, _⟩ := hI.free_range hmem
  have hidx : i - s.min_order_ + s.min_order_ = i := by omega
  rw [hidx] at hord
  have hgeo := hI.geom h (Or.inl ⟨_, hmem⟩)
  rw [hord] at hgeo
  rw [hg]
  simp only []
  -- after unlinking
  have hrl : (s.remove_chunk h).free_chunk_list_ =
      Function.update s.free_chunk_list_ (i - s.min_order_) rest := by
    rw [remove_chunk_list s h0 h1 h2, hord, hl, List.erase_cons_head]
  -- after splitting
  obtain ⟨r1, r2, r3, r4, r5, r6, r7⟩ := split_loop_desc t h i (s.remove_chunk h)
    (by simpa using ht) (by simpa using him) (by simpa using hI.max_le)
  have hoh : (split_loop t h i (s.remove_chunk h)).order_ h = t := by
    by_cases e : t < i
    · exact r5 e
    · rw [split_loop_stop _ _ _ _ (by omega)]
      simp only [remove_chunk_order]
      omega
  have hs2 : s.get_memory size = (h + CHUNK_SIZE, split_loop t h i (s.remove_chunk h)) := hg
  simp only [remove_chunk_base, remove_chunk_min, remove_chunk_max, remove_chunk_order]
    at r1 r2 r3 r4 r6 r7
  generalize split_loop t h i (s.remove_chunk h) = s2 at *
  -- the free lists to come back to, before the chunk is linked again
  have hstopB : i < s2.max_order_ →
      ¬ (s2.order_ (s2.base_addr_ + ((h - s2.base_addr_) ^^^ 2 ^ i)) = i ∧
        s2.base_addr_ + ((h - s2.base_addr_) ^^^ 2 ^ i) ∈
          (s.remove_chunk h).free_chunk_list_ (i - s2.min_order_)) := by
    intro _ hc
    rw [r1, r2, hrl, Function.update_same] at hc
    have hB : s.base_addr_ + ((h - s.base_addr_) ^^^ 2 ^ i) ∈
        s.free_chunk_list_ (i - s.min_order_) := by
      rw [hl]; exact List.mem_cons_of_mem _ hc.2
    have := hI.no_buddies _ _ _ hmem hB
    rw [hidx, Nat.add_sub_cancel_left, ← Nat.xor_assoc, Nat.xor_self, Nat.zero_xor] at this
    exact this rfl
  obtain ⟨r, m1, m2, m3, m4, m5, m6⟩ := merge_loop_up (s.remove_chunk h).free_chunk_list_ h i
    (i - t) s2 t (by omega) (by rw [r2]; exact ht) (by rw [r3]; exact him)
    (by rw [r3]; exact hI.max_le) (by rw [r1]; exact hbase) (by rw [r1]; exact hgeo.2.1) hoh
    (by intro idx; rw [r4 idx, r2]) r6 hstopB
  have hp0 : h + CHUNK_SIZE ≠ 0 := by rw [chunk_size_eq]; omega
  unfold free_chunk
  rw [if_neg hp0, ptr_sub_of_le (Nat.le_add_left _ _)]
  simp only [Nat.add_sub_cancel, hoh, m1, add_chunk_min, add_chunk_max, add_chunk_base]
  refine ⟨?_, by rw [m4, r2], by rw [m5, r3], by rw [m6, r1]⟩
  rw [add_chunk_list r h0 (by rw [m3, m4, r2]; omega) (by rw [m3, m5, r3]; exact him),
    m3, m4, r2, m2, hrl, Function.update_same]
  funext idx
  by_cases e : idx = i - s.min_order_
  · subst e
    rw [Function.update_same, hl]
  · rw [Function.update_noteq e, Function.update_noteq e]

end BuddyAllocator

/-! ## Split/merge inverse and LIFO reuse -/

namespace BuddyAllocator

theorem search_loop_ptr_congr {s s' : BuddyAllocator} (t : Nat)
    (hl : s.free_chunk_list_ = s'.free_chunk_list_) (hm : s.min_order_ = s'.min_order_) :
    ∀ (n i : Nat), (search_loop s t i n).1 = (search_loop s' t i n).1
  | 0, _ => rfl
  | n + 1, i => by
    unfold search_loop
    rw [← hl, ← hm]
    cases s.free_chunk_list_ (i - s.min_order_) with
    | nil => exact search_loop_ptr_congr t hl hm n (i + 1)
    | cons block rest => rfl

/-- The pointer `get_memory` returns depends on the free lists and the order range only. -/
theorem get_memory_ptr_congr {s s' : BuddyAllocator} (size : Nat)
    (hl : s.free_chunk_list_ = s'.free_chunk_list_) (hm : s.min_order_ = s'.min_order_)
    (hM : s.max_order_ = s'.max_order_) : (s.get_memory size).1 = (s'.get_memory size).1 := by
  unfold get_memory
  simp only []
  rw [← hm, ← hM]
  split_ifs
  · rfl
  · exact search_loop_ptr_congr _ hl hm _ _

/-- C2: on a freshly constructed allocator (`mmap` returned `base ≠ 0`; one free block of
order `max_order_` at the base), a successful `get_memory(size)` followed by `free_chunk`
of the returned pointer leaves the table with the chunk at the base in the slot of order
`max_order_`, every other slot empty, and header order `max_order_` at the base. This
holds for every successful call, in particular for target orders below `max_order_`. -/
theorem split_merge_inverse (base : Nat) (mem : Nat → Nat)
    (max_memory min_order max_order : Nat) (hb : base ≠ 0) (size : Nat)
    (hne : ((create base mem max_memory min_order max_order).get_memory size).1 ≠ 0) :
    (∀ idx,
      (((create base mem max_memory min_order max_order).get_memory size).2.free_chunk
        ((create base mem max_memory min_order max_order).get_memory size).1).free_chunk_list_ idx
      = if idx = (create base mem max_memory min_order max_order).max_order_ -
            (create base mem max_memory min_order max_order).min_order_
        then [base] else []) ∧
    (((create base mem max_memory min_order max_order).get_memory size).2.free_chunk
        ((create base mem max_memory min_order max_order).get_memory size).1).order_ base =
      (create base mem max_memory min_order max_order).max_order_ ∧
    (((create base mem max_memory min_order max_order).get_memory size).2.free_chunk
        ((create base mem max_memory min_order max_order).get_memory size).1).base_addr_ = base := by
  have h0 := inv_create base mem max_memory min_order max_order hb
  obtain ⟨_, hmm, c3, _, c5⟩ := create_fields base mem max_memory min_order max_order
  have c5 := c5 hb
  obtain ⟨e1, e2, e3, e4⟩ := alloc_free_restores h0 hne
  have h1 := inv_get_memory h0 hne
  have h2 := inv_free_chunk h1 (List.mem_cons_self _ _)
  generalize create base mem max_memory min_order max_order = s0 at *
  generalize (s0.get_memory size).2.free_chunk (s0.get_memory size).1 = f at *
  have hlist : ∀ idx, f.free_chunk_list_ idx =
      if idx = s0.max_order_ - s0.min_order_ then [base] else [] := by
    intro idx
    rw [e1, c5]
    by_cases e : idx = s0.max_order_ - s0.min_order_
    · rw [if_pos e, e, Function.update_same]
    · rw [if_neg e, Function.update_noteq e]
  have hmem : base ∈ f.free_chunk_list_ (s0.max_order_ - s0.min_order_) := by
    rw [hlist, if_pos rfl]
    exact List.mem_cons_self _ _
  refine ⟨hlist, ?_, ?_⟩
  · rw [h2.free_hdr _ _ hmem, e2]
    omega
  · rw [e4, c3]

/-- C5: in a state reached from a constructed allocator, when `get_memory(size)` returns
a non-null pointer `p`, `free_chunk(p)` followed by `get_memory(size)` returns `p` again. -/
theorem lifo_reuse (base : Nat) (mem : Nat → Nat)
    (max_memory min_order max_order : Nat) (hb : base ≠ 0)
    (s : BuddyAllocator) (live : List Nat)
    (hr : Reachable (create base mem max_memory min_order max_order) s live)
    (size : Nat) (hne : (s.get_memory size).1 ≠ 0) :
    (((s.get_memory size).2.free_chunk (s.get_memory size).1).get_memory size).1 =
      (s.get_memory size).1 := by
  have hi := reachable_inv (inv_create base mem max_memory min_order max_order hb) hr
  obtain ⟨e1, e2, e3, _⟩ := alloc_free_restores hi hne
  exact get_memory_ptr_congr size e1 e2 e3

/-- C2 on a 64-byte allocator with orders 5 to 6 at address 4096: `get_memory(10)` has
target order 5, below 6, and succeeds. -/
theorem split_merge_inverse_witness :
    (4096 ≠ 0 ∧ ((create 4096 (fun _ => 0) 64 5 6).get_memory 10).1 ≠ 0 ∧
      ilog2 64 (next_power_of_two (add64 10 CHUNK_SIZE)) <
        (create 4096 (fun _ => 0) 64 5 6).max_order_) ∧
    ((∀ idx,
      (((create 4096 (fun _ => 0) 64 5 6).get_memory 10).2.free_chunk
        ((create 4096 (fun _ => 0) 64 5 6).get_memory 10).1).free_chunk_list_ idx
      = if idx = (create 4096 (fun _ => 0) 64 5 6).max_order_ -
            (create 4096 (fun _ => 0) 64 5 6).min_order_
        then [4096] else []) ∧
    (((create 4096 (fun _ => 0) 64 5 6).get_memory 10).2.free_chunk
        ((create 4096 (fun _ => 0) 64 5 6).get_memory 10).1).order_ 4096 =
      (create 4096 (fun _ => 0) 64 5 6).max_order_ ∧
    (((create 4096 (fun _ => 0) 64 5 6).get_memory 10).2.free_chunk
        ((create 4096 (fun _ => 0) 64 5 6).get_memory 10).1).base_addr_ = 4096) :=
  ⟨⟨by decide, by decide, by decide⟩,
   split_merge_inverse 4096 (fun _ => 0) 64 5 6 (by decide) 10 (by decide)⟩

/-- C5 on the same allocator after a first `get_memory(10)`: the second block, at
`4144`, is handed out again after it is freed. -/
theorem lifo_reuse_witness :
    (4096 ≠ 0 ∧
      Reachable (create 4096 (fun _ => 0) 64 5 6)
        ((create 4096 (fun _ => 0) 64 5 6).get_memory 10).2
        [((create 4096 (fun _ => 0) 64 5 6).get_memory 10).1] ∧
      (((create 4096 (fun _ => 0) 64 5 6).get_memory 10).2.get_memory 10).1 ≠ 0) ∧
    (((((create 4096 (fun _ => 0) 64 5 6).get_memory 10).2.get_memory 10).2.free_chunk
        (((create 4096 (fun _ => 0) 64 5 6).get_memory 10).2.get_memory 10).1).get_memory 10).1 =
      (((create 4096 (fun _ => 0) 64 5 6).get_memory 10).2.get_memory 10).1 :=
  ⟨⟨by decide, Reachable.alloc_ok 10 Reachable.init (by decide), by decide⟩,
   lifo_reuse 4096 (fun _ => 0) 64 5 6 (by decide) _ _
     (Reachable.alloc_ok 10 Reachable.init (by decide)) 10 (by decide)⟩

end BuddyAllocator

/-! ## Hybrid allocator: routing of `free` -/

namespace HybridAllocator

/-- C12: `free(p)` with `p` in the arena range `[base, base + capacity)` leaves the whole
state (arena cursor, buddy free lists and headers) unchanged; for every other pointer the
state after `free(p)` is the state with `buddy_allocator_.free_chunk(p)` applied to the
buddy allocator and the arena unchanged. -/
theorem free_routes (s : HybridAllocator) (p : Nat) :
    ((s.linear_allocator_.base_address_ ≤ p ∧
        p < s.linear_allocator_.base_address_ + s.linear_allocator_.max_size_) →
      s.free p = s) ∧
    (¬ (s.linear_allocator_.base_address_ ≤ p ∧
        p < s.linear_allocator_.base_address_ + s.linear_allocator_.max_size_) →
      (s.free p).buddy_allocator_ = s.buddy_allocator_.free_chunk p ∧
      (s.free p).linear_allocator_ = s.linear_allocator_ ∧
      (s.free p).threshold_ = s.threshold_) := by
  constructor
  · intro h
    unfold free
    rw [if_pos h]
  · intro h
    unfold free
    rw [if_neg h]
    exact ⟨rfl, rfl, rfl⟩

/-- C12 on the hybrid allocator of `main` after `get_memory(2048)`: the arena base is in
the arena range, the buddy pointer is not. -/
theorem free_routes_witness :
    ((65536 ≤ 65536 ∧ 65536 < 65536 + 1048576) ∧
      ¬ (65536 ≤ 4194320 ∧ 4194320 < 65536 + 1048576)) ∧
    (((create 65536 4194304 (fun _ => 0) 1048576 4194304 10 22).get_memory 2048).2.free 65536 =
        ((create 65536 4194304 (fun _ => 0) 1048576 4194304 10 22).get_memory 2048).2 ∧
      ((((create 65536 4194304 (fun _ => 0) 1048576 4194304 10 22).get_memory 2048).2.free
          4194320).buddy_allocator_ =
        ((create 65536 4194304 (fun _ => 0) 1048576 4194304 10 22).get_memory
          2048).2.buddy_allocator_.free_chunk 4194320 ∧
      (((create 65536 4194304 (fun _ => 0) 1048576 4194304 10 22).get_memory 2048).2.free
          4194320).linear_allocator_ =
        ((create 65536 4194304 (fun _ => 0) 1048576 4194304 10 22).get_memory
          2048).2.linear_allocator_ ∧
      (((create 65536 4194304 (fun _ => 0) 1048576 4194304 10 22).get_memory 2048).2.free
          4194320).threshold_ =
        ((create 65536 4194304 (fun _ => 0) 1048576 4194304 10 22).get_memory
          2048).2.threshold_)) :=
  ⟨by decide,
   (free_routes _ 65536).1 (by decide),
   (free_routes ((create 65536 4194304 (fun _ => 0) 1048576 4194304 10 22).get_memory 2048).2
     4194320).2 (by decide)⟩

end HybridAllocator

/-! ## The non-splitting allocator of `buddy_allocator.cpp` -/

namespace Allocator

/-- The rounding loop, when it ends, ends at the first `r ≥ i` whose power of two is not
below `size`, and within the rounds allowed. -/
theorem pow_loop_some (size : Nat) : ∀ (n i r : Nat), pow_loop size n i = some r →
    i ≤ r ∧ r < i + n ∧ ¬ shl64 1 r < size ∧ ∀ j, i ≤ j → j < r → shl64 1 j < size
  | 0, _, _, h => by simp [pow_loop] at h
  | n + 1, i, r, h => by
    unfold pow_loop at h
    split_ifs at h with hlt
    · obtain ⟨h1, h2, h3, h4⟩ := pow_loop_some size n (i + 1) r h
      refine ⟨by omega, by omega, h3, ?_⟩
      intro j hj1 hj2
      rcases Nat.eq_or_lt_of_le hj1 with e | e
      · rw [← e]; exact hlt
      · exact h4 j e hj2
    · have e : i = r := by simpa using h
      subst e
      exact ⟨le_refl _, by omega, hlt, fun j hj1 hj2 => absurd hj2 (by omega)⟩

/-- More rounds do not change the result of a rounding loop that has ended. -/
theorem pow_loop_fuel (size : Nat) : ∀ (n i r : Nat), pow_loop size n i = some r →
    ∀ m, n ≤ m → pow_loop size m i = some r
  | 0, _, _, h, _, _ => by simp [pow_loop] at h
  | n + 1, i, r, h, m, hm => by
    obtain ⟨m1, rfl⟩ : ∃ m1, m = m1 + 1 := ⟨m - 1, by omega⟩
    unfold pow_loop at h ⊢
    split_ifs at h ⊢ with hlt
    · exact pow_loop_fuel size n (i + 1) r h m1 (by omega)
    · exact h

/-- For `size ≤ 2 ^ 63` the rounding loop ends within 64 tests of its condition. -/
theorem pow_loop_total {size : Nat} (hs : size ≤ 2 ^ 63) : ∀ (n i : Nat), i ≤ 63 →
    64 ≤ i + n → ∃ r, r ≤ 63 ∧ pow_loop size n i = some r
  | 0, i, hi, hn => by omega
  | n + 1, i, hi, hn => by
    unfold pow_loop
    split_ifs with hlt
    · have h63 : i ≠ 63 := by
        intro e
        rw [e, shl64_one (le_refl _)] at hlt
        omega
      exact pow_loop_total hs n (i + 1) (by omega) (by omega)
    · exact ⟨i, hi, rfl⟩

/-- For `size > 2 ^ 63` the condition of the rounding loop holds at every round: the loop
does not end, whatever the number of rounds allowed. -/
theorem pow_loop_diverges {size : Nat} (hs : 2 ^ 63 < size) : ∀ (n i : Nat),
    pow_loop size n i = none
  | 0, _ => rfl
  | n + 1, i => by
    unfold pow_loop
    have := BuddyAllocator.shl64_le i
    rw [if_pos (by omega)]
    exact pow_loop_diverges hs n (i + 1)

/-- The rounding returns exactly for the sizes up to `2 ^ 63`; its result is then a power
of two `2 ^ L` with `L ≤ 63`, not below the size. -/
theorem next_power_of_two_some (size : Nat) :
    ((∃ r, next_power_of_two size = some r) ↔ size ≤ 2 ^ 63) ∧
    (∀ r, next_power_of_two size = some r → ∃ L, L ≤ 63 ∧ r = 2 ^ L ∧ size ≤ r) := by
  unfold next_power_of_two
  by_cases h0 : size = 0
  · rw [if_pos h0]
    refine ⟨⟨fun _ => by omega, fun _ => ⟨1, rfl⟩⟩, ?_⟩
    intro r hr
    have e : 1 = r := by simpa using hr
    exact ⟨0, by omega, by rw [← e]; rfl, by omega⟩
  · rw [if_neg h0]
    by_cases hs : size ≤ 2 ^ 63
    · obtain ⟨i, hi, e⟩ := pow_loop_total hs 64 0 (by omega) (by omega)
      rw [e]
      refine ⟨⟨fun _ => hs, fun _ => ⟨_, rfl⟩⟩, ?_⟩
      intro r hr
      have e1 : shl64 1 i = r := by simpa using hr
      obtain ⟨_, _, h3, _⟩ := pow_loop_some size 64 0 i e
      rw [shl64_one hi] at e1 h3
      exact ⟨i, hi, e1.symm, by omega⟩
    · rw [pow_loop_diverges (by omega) 64 0]
      refine ⟨⟨fun h => ?_, fun h => absurd h hs⟩, ?_⟩
      · obtain ⟨r, hr⟩ := h
        exact absurd hr (by simp)
      · intro r hr
        exact absurd hr (by simp)

theorem fresh_fields (base blk : Nat) (mem : Nat → Nat) (max_memory min_order max_order : Nat)
    (hb : blk ≠ 0) (hm : min_order ≤ max_order) {s : Allocator}
    (hc : create base blk mem max_memory min_order max_order = some s) :
    s.min_order_ = min_order ∧ s.max_order_ = max_order ∧
    s.free_chunk_list_ = Function.update (fun _ => []) (max_order - min_order) [blk] := by
  unfold create at hc
  split at hc
  · exact absurd hc (by simp)
  · rename_i mm _
    have e := Option.some.inj hc
    rw [← e]
    unfold add_chunk
    simp only [Function.update_same]
    rw [if_neg hb, if_neg (by omega)]
    exact ⟨rfl, rfl, rfl⟩

/-- The search fails when the only non-empty list is that of an order different from the
target. -/
theorem search_loop_skip (s : Allocator) (t m : Nat) (hl : s.min_order_ < m) (htm : t ≠ m)
    (he : ∀ idx, idx ≠ m - s.min_order_ → s.free_chunk_list_ idx = []) :
    ∀ (n i : Nat), i + n = m + 1 → search_loop s t i n = (0, s)
  | 0, _, _ => rfl
  | n + 1, i, hin => by
    unfold search_loop
    split
    · exact search_loop_skip s t m hl htm he n (i + 1) (by omega)
    · rename_i result rest heq
      have hi : i = m := by
        by_contra hne
        have := he (i - s.min_order_) (by omega)
        rw [this] at heq
        exact absurd heq (by simp)
      rw [if_neg (by omega)]
      have hn : n = 0 := by omega
      subst hn
      rfl

theorem ilog2_le : ∀ (n y : Nat), ilog2 n y ≤ n
  | 0, _ => le_refl _
  | n + 1, y => by
    unfold ilog2
    split
    · omega
    · have := ilog2_le n (y / 2)
      omega

/-- C18: on a freshly constructed `Allocator` with `min_order < max_order`, for every
size whose rounded size `r` is below `2 ^ max_order` the call `get_memory(size)` returns
`NULL` and leaves the state (every free list) unchanged; a call that succeeds has target
order `max_order`. The rounded size exists (the rounding loop ends, and the constructor
and `get_memory` return) exactly for the sizes up to `2 ^ 63`. With `(2 ^ 20, 1, 20)`,
`get_memory(5)` returns `NULL`. -/
theorem get_memory_never_splits :
    (∀ (base blk : Nat) (mem : Nat → Nat) (max_memory min_order max_order : Nat)
      (s : Allocator) (size r : Nat),
      blk ≠ 0 → min_order < max_order →
      create base blk mem max_memory min_order max_order = some s →
      next_power_of_two size = some r →
      s.max_order_ = max_order ∧
      (r < 2 ^ max_order → s.get_memory size = some (0, s)) ∧
      (∃ p s1, s.get_memory size = some (p, s1) ∧ (p ≠ 0 → ilog2 64 r = max_order))) ∧
    (∀ (size : Nat), (∃ r, next_power_of_two size = some r) ↔ size ≤ 2 ^ 63) ∧
    (∀ (base blk : Nat) (mem : Nat → Nat) (max_memory min_order max_order : Nat),
      (∃ s, create base blk mem max_memory min_order max_order = some s) ↔
        max_memory ≤ 2 ^ 63) ∧
    (∃ s, create 1048576 4096 (fun _ => 0) (2 ^ 20) 1 20 = some s ∧
      s.get_memory 5 = some (0, s)) := by
  have main : ∀ (base blk : Nat) (mem : Nat → Nat) (max_memory min_order max_order : Nat)
      (s : Allocator) (size r : Nat),
      blk ≠ 0 → min_order < max_order →
      create base blk mem max_memory min_order max_order = some s →
      next_power_of_two size = some r →
      s.max_order_ = max_order ∧
      (r < 2 ^ max_order → s.get_memory size = some (0, s)) ∧
      (∃ p s1, s.get_memory size = some (p, s1) ∧ (p ≠ 0 → ilog2 64 r = max_order)) := by
    intro base blk mem max_memory min_order max_order s size r hb hlt hc hr
    obtain ⟨c1, c2, c3⟩ :=
      fresh_fields base blk mem max_memory min_order max_order hb (by omega) hc
    obtain ⟨L, hL, eL, _⟩ := (next_power_of_two_some size).2 r hr
    have hlog : ilog2 64 r = L := by rw [eL]; exact ilog2_pow (by omega)
    have key : ilog2 64 r ≠ max_order → s.get_memory size = some (0, s) := by
      intro hne
      unfold get_memory
      rw [hr]
      simp only []
      split_ifs
      · rfl
      · congr 1
        by_cases hle : ilog2 64 r ≤ max_order + 1
        · apply search_loop_skip s _ max_order (by omega) hne
          · intro idx hidx
            rw [c3, Function.update_noteq (by rw [c1] at hidx; exact hidx)]
          · rw [c2]
            omega
        · have hz : s.max_order_ + 1 - ilog2 64 r = 0 := by
            rw [c2]; omega
          rw [hz]
          rfl
    refine ⟨c2, ?_, ?_⟩
    · intro hsmall
      apply key
      rw [hlog]
      rw [eL] at hsmall
      have := (Nat.pow_lt_pow_iff_right (a := 2) (by norm_num)).1 hsmall
      omega
    · by_cases hne : ilog2 64 r = max_order
      · have hret : ∃ q, s.get_memory size = some q := by
          unfold get_memory
          rw [hr]
          simp only []
          split_ifs
          · exact ⟨_, rfl⟩
          · exact ⟨_, rfl⟩
        obtain ⟨q, hq⟩ := hret
        exact ⟨q.1, q.2, hq, fun _ => hne⟩
      · exact ⟨0, s, key hne, fun h => absurd rfl h⟩
  refine ⟨main, fun size => (next_power_of_two_some size).1, ?_, ?_⟩
  · intro base blk mem max_memory min_order max_order
    have h1 := (next_power_of_two_some max_memory).1
    unfold create
    constructor
    · intro hs
      apply h1.1
      obtain ⟨s, hs⟩ := hs
      split at hs
      · exact absurd hs (by simp)
      · rename_i mm e
        exact ⟨mm, e⟩
    · intro hle
      obtain ⟨mm, e⟩ := h1.2 hle
      rw [e]
      exact ⟨_, rfl⟩
  · have hc : ∃ s, create 1048576 4096 (fun _ => 0) (2 ^ 20) 1 20 = some s :=
      ⟨_, rfl⟩
    obtain ⟨s, hs⟩ := hc
    exact ⟨s, hs, (main 1048576 4096 (fun _ => 0) (2 ^ 20) 1 20 s 5 8 (by decide) (by decide)
      hs (by decide)).2.1 (by decide)⟩

/-- C18 on the allocator of `main`, `(2 ^ 20, 1, 20)`, with `get_memory(5)`: the
constructor returns, the rounded size is `8`, below `2 ^ 20`, and the call returns `NULL`
with the state unchanged. -/
theorem get_memory_never_splits_witness :
    (4096 ≠ 0 ∧ 1 < 20 ∧
      create 1048576 4096 (fun _ => 0) (2 ^ 20) 1 20 =
        some (add_chunk
          { base_addr_ := 1048576
            max_memory_ := 1048576
            min_order_ := 1
            max_order_ := 20
            free_chunk_list_ := fun _ => []
            order_ := Function.update (fun _ => 0) 4096 20 } 4096) ∧
      next_power_of_two 5 = some 8 ∧ 8 < 2 ^ 20) ∧
    get_memory (add_chunk
        { base_addr_ := 1048576
          max_memory_ := 1048576
          min_order_ := 1
          max_order_ := 20
          free_chunk_list_ := fun _ => []
          order_ := Function.update (fun _ => 0) 4096 20 } 4096) 5 =
      some (0, add_chunk
        { base_addr_ := 1048576
          max_memory_ := 1048576
          min_order_ := 1
          max_order_ := 20
          free_chunk_list_ := fun _ => []
          order_ := Function.update (fun _ => 0) 4096 20 } 4096) :=
  ⟨⟨by decide, by decide, rfl, by decide, by decide⟩,
   ((get_memory_never_splits.1 1048576 4096 (fun _ => 0) (2 ^ 20) 1 20
     (add_chunk
        { base_addr_ := 1048576
          max_memory_ := 1048576
          min_order_ := 1
          max_order_ := 20
          free_chunk_list_ := fun _ => []
          order_ := Function.update (fun _ => 0) 4096 20 } 4096) 5 8 (by decide)
     (by decide) (by rfl) (by decide)).2.1 (by decide))⟩

end Allocator

/-! ## Buddy allocator: the order range after construction -/

namespace BuddyAllocator

theorem order_loop_pow {L : Nat} (hL : L ≤ 63) :
    ∀ (n k : Nat), k ≤ L → L - k ≤ n → order_loop (2 ^ L) n k = L
  | 0, k, hk, hn => by
    unfold order_loop
    omega
  | n + 1, k, hk, hn => by
    unfold order_loop
    rw [shl64_one (by omega)]
    by_cases e : k < L
    · rw [if_pos (Nat.pow_lt_pow_right (by norm_num) e)]
      exact order_loop_pow hL n (k + 1) (by omega) (by omega)
    · have : k = L := by omega
      rw [this, if_neg (lt_irrefl _)]

/-- The rounded size is a power of two of 64 bits, whatever the argument. -/
theorem next_power_of_two_pow (x : Nat) :
    ∃ L, L ≤ 63 ∧ next_power_of_two x = 2 ^ L := by
  unfold next_power_of_two
  split
  · exact ⟨0, by omega, rfl⟩
  · exact ⟨_, by omega, shl64_one_mod _⟩

/-- The order range of the constructed allocator: `max_order_` is the smaller of the
caller's `max_order` and the exponent `L` of the rounded region size. -/
theorem create_orders (base : Nat) (mem : Nat → Nat) (max_memory min_order max_order : Nat) :
    ∃ L, L ≤ 63 ∧
      (create base mem max_memory min_order max_order).max_memory_ = 2 ^ L ∧
      (create base mem max_memory min_order max_order).max_memory_ =
        next_power_of_two max_memory ∧
      (create base mem max_memory min_order max_order).max_order_ = min max_order L := by
  obtain ⟨L, hL, e⟩ := next_power_of_two_pow max_memory
  refine ⟨L, hL, ?_, ?_, ?_⟩
  · simp only [create, add_chunk_memory]
    exact e
  · simp only [create, add_chunk_memory]
    rfl
  · simp only [create, add_chunk_max, set_order_max]
    rw [e, order_loop_pow hL 64 0 (by omega) (by omega)]
    split_ifs with hc
    · exact (min_eq_right (by omega)).symm
    · exact (min_eq_left (by omega)).symm

end BuddyAllocator

/-! ## Blocks never overlap -/

namespace BuddyAllocator

/-- C19: in a state reached from a constructed allocator, every block (free chunk or
allocated block, header at `c`, size `2 ^ order_ c`) starts in the region at a multiple
of its size and lies inside the first `2 ^ max_order_` bytes; two blocks at different
addresses are disjoint; no address occurs twice in a free list, in two free lists, in
the free lists and among the allocated blocks, or twice among the allocated pointers;
hence the blocks of two different allocated pointers are disjoint. -/
theorem blocks_disjoint (base : Nat) (mem : Nat → Nat)
    (max_memory min_order max_order : Nat) (hb : base ≠ 0)
    (s : BuddyAllocator) (live : List Nat)
    (hr : Reachable (create base mem max_memory min_order max_order) s live) :
    (∀ c, s.Blk live c → s.base_addr_ ≤ c ∧ 2 ^ s.order_ c ∣ (c - s.base_addr_) ∧
      (c - s.base_addr_) + 2 ^ s.order_ c ≤ 2 ^ s.max_order_) ∧
    (∀ c c', s.Blk live c → s.Blk live c' → c ≠ c' →
      c + 2 ^ s.order_ c ≤ c' ∨ c' + 2 ^ s.order_ c' ≤ c) ∧
    (∀ j, (s.free_chunk_list_ j).Nodup) ∧
    (∀ i j c, c ∈ s.free_chunk_list_ i → c ∈ s.free_chunk_list_ j → i = j) ∧
    (∀ j c, c ∈ s.free_chunk_list_ j → c + CHUNK_SIZE ∉ live) ∧
    live.Nodup ∧
    (∀ p q, p ∈ live → q ∈ live → p ≠ q →
      (p - CHUNK_SIZE) + 2 ^ s.order_ (p - CHUNK_SIZE) ≤ q - CHUNK_SIZE ∨
      (q - CHUNK_SIZE) + 2 ^ s.order_ (q - CHUNK_SIZE) ≤ p - CHUNK_SIZE) := by
  have hi := reachable_inv (inv_create base mem max_memory min_order max_order hb) hr
  refine ⟨hi.geom, hi.disj, hi.free_nodup, fun i j c h1 h2 => hi.free_unique h1 h2,
    hi.free_live, hi.live_nodup, ?_⟩
  intro p q hp hq hne
  obtain ⟨_, _, e1, _, _, b1⟩ := hi.live_range hp
  obtain ⟨_, _, e2, _, _, b2⟩ := hi.live_range hq
  exact hi.disj _ _ b1 b2 (by omega)

/-- C19 on a 64-byte allocator with orders 5 to 6 after two calls `get_memory(10)`. -/
theorem blocks_disjoint_witness :
    (4096 ≠ 0 ∧
      Reachable (create 4096 (fun _ => 0) 64 5 6)
        (((create 4096 (fun _ => 0) 64 5 6).get_memory 10).2.get_memory 10).2
        [(((create 4096 (fun _ => 0) 64 5 6).get_memory 10).2.get_memory 10).1,
          ((create 4096 (fun _ => 0) 64 5 6).get_memory 10).1]) ∧
    ((4144 - CHUNK_SIZE) +
        2 ^ (((create 4096 (fun _ => 0) 64 5 6).get_memory 10).2.get_memory 10).2.order_
          (4144 - CHUNK_SIZE) ≤ 4112 - CHUNK_SIZE ∨
      (4112 - CHUNK_SIZE) +
        2 ^ (((create 4096 (fun _ => 0) 64 5 6).get_memory 10).2.get_memory 10).2.order_
          (4112 - CHUNK_SIZE) ≤ 4144 - CHUNK_SIZE) :=
  ⟨⟨by decide,
     Reachable.alloc_ok 10 (Reachable.alloc_ok 10 Reachable.init (by decide)) (by decide)⟩,
   (blocks_disjoint 4096 (fun _ => 0) 64 5 6 (by decide) _ _
     (Reachable.alloc_ok 10 (Reachable.alloc_ok 10 Reachable.init (by decide))
       (by decide))).2.2.2.2.2.2 4144 4112 (by decide) (by decide) (by decide)⟩

/-! ## Size of the returned block -/

/-- C20 (failing run): a 64-byte allocator with orders 4 to 6; `get_memory(2 ^ 64 - 1)`:
`size + sizeof(Chunk)` wraps to 15, the rounded size is 16, and the call returns a
pointer to a block of order 4, whose 16 bytes are the header alone. -/
theorem get_memory_wraps :
    2 ^ 64 - 1 < WORD ∧
    (create 4096 (fun _ => 0) 64 4 6).min_order_ = 4 ∧
    add64 (2 ^ 64 - 1) CHUNK_SIZE = 15 ∧
    ((create 4096 (fun _ => 0) 64 4 6).get_memory (2 ^ 64 - 1)).1 = 4096 + CHUNK_SIZE ∧
    ((create 4096 (fun _ => 0) 64 4 6).get_memory (2 ^ 64 - 1)).2.order_ 4096 = 4 ∧
    ¬ (2 ^ 64 - 1 + CHUNK_SIZE ≤ 2 ^ 4) := by
  decide

end BuddyAllocator

/-! ## Buddy allocator: parameters never change -/

namespace BuddyAllocator

/-- Two states with the same parameters `base_addr_`, `max_memory_`, `min_order_`,
`max_order_`. -/
theorem split_loop_params (t c : Nat) : ∀ (i : Nat) (s : BuddyAllocator),
    (split_loop t c i s).base_addr_ = s.base_addr_ ∧
    (split_loop t c i s).max_memory_ = s.max_memory_ ∧
    (split_loop t c i s).min_order_ = s.min_order_ ∧
    (split_loop t c i s).max_order_ = s.max_order_
  | 0, s => ⟨rfl, rfl, rfl, rfl⟩
  | k + 1, s => by
    by_cases e : t < k + 1
    · rw [split_loop_succ _ _ _ _ e]
      obtain ⟨h1, h2, h3, h4⟩ := split_loop_params t c k (s.halve c k)
      rw [h1, h2, h3, h4]
      simp [halve, set_order]
    · rw [split_loop_stop _ _ _ _ (by omega)]
      exact ⟨rfl, rfl, rfl, rfl⟩

theorem search_loop_params (s : BuddyAllocator) (t : Nat) : ∀ (n i : Nat),
    (search_loop s t i n).2.base_addr_ = s.base_addr_ ∧
    (search_loop s t i n).2.max_memory_ = s.max_memory_ ∧
    (search_loop s t i n).2.min_order_ = s.min_order_ ∧
    (search_loop s t i n).2.max_order_ = s.max_order_
  | 0, _ => ⟨rfl, rfl, rfl, rfl⟩
  | n + 1, i => by
    unfold search_loop
    split
    · exact search_loop_params s t n (i + 1)
    · rename_i block rest heq
      simp only []
      obtain ⟨h1, h2, h3, h4⟩ := split_loop_params t block i (s.remove_chunk block)
      rw [h1, h2, h3, h4]
      simp

theorem get_memory_params (s : BuddyAllocator) (size : Nat) :
    (s.get_memory size).2.base_addr_ = s.base_addr_ ∧
    (s.get_memory size).2.max_memory_ = s.max_memory_ ∧
    (s.get_memory size).2.min_order_ = s.min_order_ ∧
    (s.get_memory size).2.max_order_ = s.max_order_ := by
  unfold get_memory
  simp only []
  split_ifs
  · exact ⟨rfl, rfl, rfl, rfl⟩
  · exact search_loop_params s _ _ _

theorem merge_loop_params : ∀ (n : Nat) (s : BuddyAllocator) (c k : Nat),
    (merge_loop n s c k).1.base_addr_ = s.base_addr_ ∧
    (merge_loop n s c k).1.max_memory_ = s.max_memory_ ∧
    (merge_loop n s c k).1.min_order_ = s.min_order_ ∧
    (merge_loop n s c k).1.max_order_ = s.max_order_
  | 0, s, c, k => ⟨rfl, rfl, rfl, rfl⟩
  | n + 1, s, c, k => by
    rw [merge_loop]
    split_ifs
    · cases hms : s.merge_step c k with
      | none => exact ⟨rfl, rfl, rfl, rfl⟩
      | some r =>
        obtain ⟨s1, c1⟩ := r
        simp only []
        obtain ⟨h1, h2, h3, h4⟩ := merge_loop_params n s1 c1 (k + 1)
        rw [h1, h2, h3, h4, (merge_step_some hms).2.2.2]
        simp [set_order]
    · exact ⟨rfl, rfl, rfl, rfl⟩

theorem free_chunk_params (s : BuddyAllocator) (p : Nat) :
    (s.free_chunk p).base_addr_ = s.base_addr_ ∧
    (s.free_chunk p).max_memory_ = s.max_memory_ ∧
    (s.free_chunk p).min_order_ = s.min_order_ ∧
    (s.free_chunk p).max_order_ = s.max_order_ := by
  unfold free_chunk
  split_ifs
  · exact ⟨rfl, rfl, rfl, rfl⟩
  · simp only [add_chunk_base, add_chunk_memory, add_chunk_min, add_chunk_max]
    exact merge_loop_params _ _ _ _

theorem reachable_params {s0 s : BuddyAllocator} {live : List Nat}
    (hr : Reachable s0 s live) :
    s.base_addr_ = s0.base_addr_ ∧ s.max_memory_ = s0.max_memory_ ∧
    s.min_order_ = s0.min_order_ ∧ s.max_order_ = s0.max_order_ := by
  induction hr with
  | init => exact ⟨rfl, rfl, rfl, rfl⟩
  | alloc_ok size _ _ ih =>
    obtain ⟨h1, h2, h3, h4⟩ := get_memory_params _ size
    rw [h1, h2, h3, h4]
    exact ih
  | alloc_null size _ _ ih =>
    obtain ⟨h1, h2, h3, h4⟩ := get_memory_params _ size
    rw [h1, h2, h3, h4]
    exact ih
  | free p _ _ ih =>
    obtain ⟨h1, h2, h3, h4⟩ := free_chunk_params _ p
    rw [h1, h2, h3, h4]
    exact ih

/-! ## Buddy allocator: what a successful `get_memory` does -/

/-- Up to `2 ^ 63` the rounded size is a power of two, `2 ^ ilog2`, not below its
argument. -/
theorem next_power_of_two_exp {x : Nat} (hx : x ≤ 2 ^ 63) :
    next_power_of_two x = 2 ^ ilog2 64 (next_power_of_two x) ∧ x ≤ next_power_of_two x := by
  rcases Nat.lt_or_ge x 2 with h2 | h2
  · have : next_power_of_two x = 1 := by
      unfold next_power_of_two
      rw [if_pos (by omega)]
    rw [this]
    exact ⟨by decide, by omega⟩
  · obtain ⟨e, hle⟩ := next_power_of_two_eq h2 hx
    have hs := ilog2_spec 64 (x - 1) (by omega) (by omega)
    rw [e, ilog2_pow (by omega)]
    exact ⟨rfl, by omega⟩

/-- In a state satisfying the invariant, a successful `get_memory(size)` with target
order `t` takes the head `h` of the first non-empty list of an order `i ≥ t`, returns
`h + sizeof(Chunk)`, leaves header order `t` at `h`, and pushes `h + 2 ^ j` with header
order `j` on the list of every order `j` from `t` below `i`; nothing else changes. -/
theorem get_memory_ok {s : BuddyAllocator} {live : List Nat} (hI : Inv s live) {size : Nat}
    (hne : (s.get_memory size).1 ≠ 0) :
    ∃ i h rest, s.min_order_ ≤ target_order size ∧ target_order size ≤ i ∧
      i ≤ s.max_order_ ∧ s.free_chunk_list_ (i - s.min_order_) = h :: rest ∧
      (∀ j, target_order size ≤ j → j < i → s.free_chunk_list_ (j - s.min_order_) = []) ∧
      (s.get_memory size).1 = h + CHUNK_SIZE ∧
      (s.get_memory size).2.order_ h = target_order size ∧
      (∀ idx, (s.get_memory size).2.free_chunk_list_ idx =
        if idx = i - s.min_order_ then rest
        else if target_order size ≤ idx + s.min_order_ ∧ idx + s.min_order_ < i
          then (h + 2 ^ (idx + s.min_order_)) :: s.free_chunk_list_ idx
          else s.free_chunk_list_ idx) ∧
      (∀ j, target_order size ≤ j → j < i → (s.get_memory size).2.order_ (h + 2 ^ j) = j) ∧
      (∀ x, x ≠ h → (∀ j, target_order size ≤ j → j < i → x ≠ h + 2 ^ j) →
        (s.get_memory size).2.order_ x = s.order_ x) ∧
      s.order_ h = i := by
  obtain ⟨t, i, h, rest, ht, hmin, hti, him, hl, hempty, hg⟩ :=
    get_memory_found hI.max_le hI.min_le hne
  have htt : t = target_order size := ht
  subst htt
  have hmem : h ∈ s.free_chunk_list_ (i - s.min_order_) := by
    rw [hl]; exact List.mem_cons_self _ _
  obtain ⟨h0, hbase, hord, h1, h2, _, _⟩ := hI.free_range hmem
  have hidx : i - s.min_order_ + s.min_order_ = i := by omega
  rw [hidx] at hord
  have hrl : (s.remove_chunk h).free_chunk_list_ =
      Function.update s.free_chunk_list_ (i - s.min_order_) rest := by
    rw [remove_chunk_list s h0 h1 h2, hord, hl, List.erase_cons_head]
  obtain ⟨r1, r2, r3, r4, r5, r6, r7⟩ := split_loop_desc (target_order size) h i
    (s.remove_chunk h) (by simpa using hmin) (by simpa using him) (by simpa using hI.max_le)
  have hoh : (split_loop (target_order size) h i (s.remove_chunk h)).order_ h =
      target_order size := by
    by_cases e : target_order size < i
    · exact r5 e
    · rw [split_loop_stop _ _ _ _ (by omega)]
      simp only [remove_chunk_order]
      omega
  simp only [remove_chunk_min, remove_chunk_order] at r4 r6 r7
  refine ⟨i, h, rest, hmin, hti, him, hl, hempty, ?_, ?_, ?_, ?_, ?_, hord⟩
  · rw [hg]
  · rw [hg]; exact hoh
  · intro idx
    rw [hg]
    simp only []
    rw [r4 idx, hrl]
    by_cases e : idx = i - s.min_order_
    · rw [if_pos e, if_neg (by omega), e, Function.update_same]
    · rw [if_neg e, Function.update_noteq e]
  · rw [hg]; exact r6
  · rw [hg]; exact r7

end BuddyAllocator

/-! ## Selection and result of a successful allocation -/

namespace BuddyAllocator

theorem search_loop_ne (s : BuddyAllocator) (t j : Nat)
    (hj : s.free_chunk_list_ (j - s.min_order_) ≠ []) :
    ∀ (n i : Nat), i ≤ j → j < i + n → (search_loop s t i n).1 ≠ 0
  | 0, i, h1, h2 => by omega
  | n + 1, i, h1, h2 => by
    unfold search_loop
    split
    · rename_i heq
      have : j ≠ i := by
        intro e
        rw [e] at hj
        exact hj heq
      exact search_loop_ne s t j hj n (i + 1) (by omega) (by omega)
    · simp [CHUNK_SIZE]

theorem get_memory_ne_of_nonempty {s : BuddyAllocator} {size j : Nat}
    (hrange : ¬ (next_power_of_two (add64 size CHUNK_SIZE) > shl64 1 s.max_order_ ∨
      next_power_of_two (add64 size CHUNK_SIZE) < shl64 1 s.min_order_))
    (h1 : target_order size ≤ j) (h2 : j ≤ s.max_order_)
    (hj : s.free_chunk_list_ (j - s.min_order_) ≠ []) : (s.get_memory size).1 ≠ 0 := by
  unfold get_memory
  simp only []
  rw [if_neg hrange]
  exact search_loop_ne s _ j hj _ _ h1 (by unfold target_order at h1; omega)

/-- The content of C16 in a state satisfying the invariant. -/
theorem get_memory_selection_inv {s : BuddyAllocator} {live : List Nat} (hI : Inv s live)
    (size : Nat)
    (hrange : ¬ (next_power_of_two (add64 size CHUNK_SIZE) > shl64 1 s.max_order_ ∨
      next_power_of_two (add64 size CHUNK_SIZE) < shl64 1 s.min_order_)) :
    ((s.get_memory size).1 = 0 ↔
      ∀ j, target_order size ≤ j → j ≤ s.max_order_ →
        s.free_chunk_list_ (j - s.min_order_) = []) ∧
    (∀ i h rest, target_order size ≤ i → i ≤ s.max_order_ →
      s.free_chunk_list_ (i - s.min_order_) = h :: rest →
      (∀ j, target_order size ≤ j → j < i → s.free_chunk_list_ (j - s.min_order_) = []) →
      (s.get_memory size).1 = h + CHUNK_SIZE ∧
      (s.get_memory size).2.order_ h = target_order size ∧
      (∀ idx, (s.get_memory size).2.free_chunk_list_ idx =
        if idx = i - s.min_order_ then rest
        else if target_order size ≤ idx + s.min_order_ ∧ idx + s.min_order_ < i
          then (h + 2 ^ (idx + s.min_order_)) :: s.free_chunk_list_ idx
          else s.free_chunk_list_ idx) ∧
      (∀ j, target_order size ≤ j → j < i →
        (s.get_memory size).2.order_ (h + 2 ^ j) = j)) := by
  constructor
  · constructor
    · intro h0 j h1 h2
      by_contra hne
      exact get_memory_ne_of_nonempty hrange h1 h2 hne h0
    · intro hall
      by_contra hne
      obtain ⟨i, h, rest, _, hti, him, hl, _⟩ := get_memory_ok hI hne
      rw [hall i hti him] at hl
      exact absurd hl (by simp)
  · intro i h rest hti him hl hempty
    have hne : (s.get_memory size).1 ≠ 0 :=
      get_memory_ne_of_nonempty hrange hti him (by rw [hl]; simp)
    obtain ⟨i', h', rest', _, hti', him', hl', hempty', g1, g2, g3, g4, _⟩ :=
      get_memory_ok hI hne
    have hii : i' = i := by
      rcases Nat.lt_trichotomy i' i with hlt | heq | hgt
      · rw [hempty i' hti' hlt] at hl'
        exact absurd hl' (by simp)
      · exact heq
      · rw [hempty' i hti hgt] at hl
        exact absurd hl (by simp)
    subst hii
    rw [hl] at hl'
    simp only [List.cons.injEq] at hl'
    obtain ⟨e1, e2⟩ := hl'
    subst e1 e2
    exact ⟨g1, g2, g3, g4⟩

/-- C16: in a state reached from a constructed allocator, for a size whose rounded size
passes the range check, with `t` the target order: `get_memory` returns `NULL` exactly
when the lists of all orders from `t` to `max_order_` are empty; otherwise, with `i` the
smallest such order with a non-empty list and `h` its head, the call returns
`h + sizeof(Chunk)`, list `i` loses its head, the header at `h` holds `t`, every list of
an order `j` from `t` below `i` gets `h + 2 ^ j` (header order `j`) pushed at its head,
and all other lists are unchanged. -/
theorem get_memory_selection (base : Nat) (mem : Nat → Nat)
    (max_memory min_order max_order : Nat) (hb : base ≠ 0)
    (s : BuddyAllocator) (live : List Nat)
    (hr : Reachable (create base mem max_memory min_order max_order) s live)
    (size : Nat)
    (hrange : ¬ (next_power_of_two (add64 size CHUNK_SIZE) > shl64 1 s.max_order_ ∨
      next_power_of_two (add64 size CHUNK_SIZE) < shl64 1 s.min_order_)) :
    ((s.get_memory size).1 = 0 ↔
      ∀ j, target_order size ≤ j → j ≤ s.max_order_ →
        s.free_chunk_list_ (j - s.min_order_) = []) ∧
    (∀ i h rest, target_order size ≤ i → i ≤ s.max_order_ →
      s.free_chunk_list_ (i - s.min_order_) = h :: rest →
      (∀ j, target_order size ≤ j → j < i → s.free_chunk_list_ (j - s.min_order_) = []) →
      (s.get_memory size).1 = h + CHUNK_SIZE ∧
      (s.get_memory size).2.order_ h = target_order size ∧
      (∀ idx, (s.get_memory size).2.free_chunk_list_ idx =
        if idx = i - s.min_order_ then rest
        else if target_order size ≤ idx + s.min_order_ ∧ idx + s.min_order_ < i
          then (h + 2 ^ (idx + s.min_order_)) :: s.free_chunk_list_ idx
          else s.free_chunk_list_ idx) ∧
      (∀ j, target_order size ≤ j → j < i →
        (s.get_memory size).2.order_ (h + 2 ^ j) = j)) :=
  get_memory_selection_inv
    (reachable_inv (inv_create base mem max_memory min_order max_order hb) hr) size hrange

/-- C16 on a fresh 64-byte allocator with orders 5 to 6 and `get_memory(10)`: target
order 5, the first non-empty list is that of order 6 with head `4096`. -/
theorem get_memory_selection_witness :
    (4096 ≠ 0 ∧
      Reachable (create 4096 (fun _ => 0) 64 5 6) (create 4096 (fun _ => 0) 64 5 6) [] ∧
      ¬ (next_power_of_two (add64 10 CHUNK_SIZE) >
          shl64 1 (create 4096 (fun _ => 0) 64 5 6).max_order_ ∨
        next_power_of_two (add64 10 CHUNK_SIZE) <
          shl64 1 (create 4096 (fun _ => 0) 64 5 6).min_order_) ∧
      target_order 10 ≤ 6 ∧ 6 ≤ (create 4096 (fun _ => 0) 64 5 6).max_order_ ∧
      (create 4096 (fun _ => 0) 64 5 6).free_chunk_list_
        (6 - (create 4096 (fun _ => 0) 64 5 6).min_order_) = 4096 :: [] ∧
      (∀ j, target_order 10 ≤ j → j < 6 →
        (create 4096 (fun _ => 0) 64 5 6).free_chunk_list_
          (j - (create 4096 (fun _ => 0) 64 5 6).min_order_) = [])) ∧
    (((create 4096 (fun _ => 0) 64 5 6).get_memory 10).1 = 4096 + CHUNK_SIZE ∧
      ((create 4096 (fun _ => 0) 64 5 6).get_memory 10).2.order_ 4096 = target_order 10 ∧
      (∀ idx, ((create 4096 (fun _ => 0) 64 5 6).get_memory 10).2.free_chunk_list_ idx =
        if idx = 6 - (create 4096 (fun _ => 0) 64 5 6).min_order_ then []
        else if target_order 10 ≤ idx + (create 4096 (fun _ => 0) 64 5 6).min_order_ ∧
            idx + (create 4096 (fun _ => 0) 64 5 6).min_order_ < 6
          then (4096 + 2 ^ (idx + (create 4096 (fun _ => 0) 64 5 6).min_order_)) ::
            (create 4096 (fun _ => 0) 64 5 6).free_chunk_list_ idx
          else (create 4096 (fun _ => 0) 64 5 6).free_chunk_list_ idx) ∧
      (∀ j, target_order 10 ≤ j → j < 6 →
        ((create 4096 (fun _ => 0) 64 5 6).get_memory 10).2.order_ (4096 + 2 ^ j) = j)) := by
  have hempty : ∀ j, target_order 10 ≤ j → j < 6 →
      (create 4096 (fun _ => 0) 64 5 6).free_chunk_list_
        (j - (create 4096 (fun _ => 0) 64 5 6).min_order_) = [] := by
    intro j h1 h2
    have ht : target_order 10 = 5 := by decide
    have hj : j = 5 := by omega
    subst hj
    decide
  exact ⟨⟨by decide, Reachable.init, by decide, by decide, by decide, by decide, hempty⟩,
    (get_memory_selection 4096 (fun _ => 0) 64 5 6 (by decide) _ _ Reachable.init 10
      (by decide)).2 6 4096 [] (by decide) (by decide) (by decide) hempty⟩

end BuddyAllocator

/-! ## The split computes the XOR buddy -/

namespace BuddyAllocator

/-- What holds of a split round: state `u`, chunk `c`, order `k` before the round. -/
theorem split_trace_sound {live : List Nat} {p t : Nat} (hp : p ∈ live) :
    ∀ (i : Nat) (s : BuddyAllocator), Inv s live → s.order_ (p - CHUNK_SIZE) = i →
      s.min_order_ ≤ t →
      ∀ u c k, (u, c, k) ∈ split_trace t (p - CHUNK_SIZE) i s →
        t < k ∧ u.order_ c = k ∧ u.base_addr_ ≤ c ∧ 2 ^ k ∣ c - u.base_addr_ ∧
        c + shl64 1 (k - 1) = c + 2 ^ (k - 1) ∧
        c + shl64 1 (k - 1) = u.buddy_of c (k - 1) ∧
        c + shl64 1 (k - 1) - u.base_addr_ = (c - u.base_addr_) ^^^ 2 ^ (k - 1) ∧
        (u.halve c (k - 1)).order_ c = k - 1 ∧
        (u.halve c (k - 1)).order_ (c + shl64 1 (k - 1)) = k - 1 ∧
        (u.halve c (k - 1)).free_chunk_list_ =
          Function.update u.free_chunk_list_ (k - 1 - u.min_order_)
            ((c + shl64 1 (k - 1)) :: u.free_chunk_list_ (k - 1 - u.min_order_))
  | 0, s, _, _, _ => by
    intro u c k hm
    simp [split_trace] at hm
  | k' + 1, s, hI, ho, hmin => by
    intro u c k hm
    rw [split_trace] at hm
    by_cases e : t < k' + 1
    · rw [if_pos e] at hm
      rcases List.mem_cons.1 hm with heq | hm
      · simp only [Prod.mk.injEq] at heq
        obtain ⟨e1, e2, e3⟩ := heq
        subst e1 e2 e3
        obtain ⟨_, hbase, _, _, hle, hblk⟩ := hI.live_range hp
        rw [ho] at hle
        have hg := hI.geom _ hblk
        rw [ho] at hg
        have h63 := hI.max_le
        have hsh : shl64 1 k' = 2 ^ k' := shl64_one (by omega)
        obtain ⟨_, _, _, d4, d5, d6, _⟩ :=
          halve_desc u (p - CHUNK_SIZE) (k := k') (by omega) (by omega) (by omega)
        have hx := xor_buddy_low hg.2.1
        simp only [Nat.add_sub_cancel]
        refine ⟨e, ho, hbase, hg.2.1, by rw [hsh], ?_, ?_, d5, by rw [hsh]; exact d6,
          by rw [hsh]; exact d4⟩
        · rw [buddy_of_of_le hbase, hsh, hx]
          omega
        · rw [hsh, hx]
          omega
      · obtain ⟨h', ho', _⟩ := inv_halve hI hp ho (by omega)
        exact split_trace_sound hp k' _ h' ho' (by simpa [halve] using hmin) u c k hm
    · rw [if_neg e] at hm
      simp at hm

theorem search_rounds_sound {s : BuddyAllocator} {live : List Nat} (hI : Inv s live)
    {t : Nat} (hmin : s.min_order_ ≤ t) :
    ∀ (n i : Nat), t ≤ i →
      ∀ u c k, (u, c, k) ∈ search_rounds s t i n →
        t < k ∧ u.order_ c = k ∧ u.base_addr_ ≤ c ∧ 2 ^ k ∣ c - u.base_addr_ ∧
        c + shl64 1 (k - 1) = c + 2 ^ (k - 1) ∧
        c + shl64 1 (k - 1) = u.buddy_of c (k - 1) ∧
        c + shl64 1 (k - 1) - u.base_addr_ = (c - u.base_addr_) ^^^ 2 ^ (k - 1) ∧
        (u.halve c (k - 1)).order_ c = k - 1 ∧
        (u.halve c (k - 1)).order_ (c + shl64 1 (k - 1)) = k - 1 ∧
        (u.halve c (k - 1)).free_chunk_list_ =
          Function.update u.free_chunk_list_ (k - 1 - u.min_order_)
            ((c + shl64 1 (k - 1)) :: u.free_chunk_list_ (k - 1 - u.min_order_))
  | 0, i, _ => by
    intro u c k hm
    simp [search_rounds] at hm
  | n + 1, i, hti => by
    intro u c k hm
    unfold search_rounds at hm
    split at hm
    · exact search_rounds_sound hI hmin n (i + 1) (by omega) u c k hm
    · rename_i block rest heq
      have hb : block ∈ s.free_chunk_list_ (i - s.min_order_) := by
        rw [heq]; exact List.mem_cons_self _ _
      have h1 := inv_take hI hb
      have ho : (s.remove_chunk block).order_ (block + CHUNK_SIZE - CHUNK_SIZE) = i := by
        simp only [Nat.add_sub_cancel, remove_chunk_order]
        rw [hI.free_hdr _ _ hb]
        omega
      have := split_trace_sound (p := block + CHUNK_SIZE) (t := t) (List.mem_cons_self _ _)
        i _ h1 ho (by simpa using hmin) u c k
      simp only [Nat.add_sub_cancel] at this
      exact this hm

/-- C17: in a state reached from a constructed allocator, every split round of
`get_memory`, on a chunk at `c` of order `k` (state `u` at the start of the round): the
offset of `c` is a multiple of `2 ^ k`; the upper half, placed at `c + 2 ^ (k - 1)`, is
the XOR buddy `base + ((c - base) XOR 2 ^ (k - 1))`; after the round both halves have
header order `k - 1` and the upper half is at the head of the list of order `k - 1`. -/
theorem split_is_xor_buddy (base : Nat) (mem : Nat → Nat)
    (max_memory min_order max_order : Nat) (hb : base ≠ 0)
    (s : BuddyAllocator) (live : List Nat)
    (hr : Reachable (create base mem max_memory min_order max_order) s live)
    (size : Nat) (u : BuddyAllocator) (c k : Nat)
    (hm : (u, c, k) ∈ s.get_memory_rounds size) :
    target_order size < k ∧ u.order_ c = k ∧ u.base_addr_ ≤ c ∧
    2 ^ k ∣ c - u.base_addr_ ∧
    c + shl64 1 (k - 1) = c + 2 ^ (k - 1) ∧
    c + shl64 1 (k - 1) = u.buddy_of c (k - 1) ∧
    c + shl64 1 (k - 1) - u.base_addr_ = (c - u.base_addr_) ^^^ 2 ^ (k - 1) ∧
    (u.halve c (k - 1)).order_ c = k - 1 ∧
    (u.halve c (k - 1)).order_ (c + shl64 1 (k - 1)) = k - 1 ∧
    (u.halve c (k - 1)).free_chunk_list_ =
      Function.update u.free_chunk_list_ (k - 1 - u.min_order_)
        ((c + shl64 1 (k - 1)) :: u.free_chunk_list_ (k - 1 - u.min_order_)) := by
  have hI := reachable_inv (inv_create base mem max_memory min_order max_order hb) hr
  unfold get_memory_rounds at hm
  simp only [] at hm
  split_ifs at hm with hrange
  · simp at hm
  · obtain ⟨ht1, _⟩ := target_order_range hI.max_le hI.min_le hrange
    exact search_rounds_sound hI ht1 _ _ (le_refl _) u c k hm

/-- C17 on a fresh 64-byte allocator with orders 5 to 6 and `get_memory(10)`: the one
split round halves the chunk of order 6 at `4096`. -/
theorem split_is_xor_buddy_witness :
    (4096 ≠ 0 ∧
      Reachable (create 4096 (fun _ => 0) 64 5 6) (create 4096 (fun _ => 0) 64 5 6) [] ∧
      ((create 4096 (fun _ => 0) 64 5 6).remove_chunk 4096, 4096, 6) ∈
        (create 4096 (fun _ => 0) 64 5 6).get_memory_rounds 10) ∧
    (target_order 10 < 6 ∧
      ((create 4096 (fun _ => 0) 64 5 6).remove_chunk 4096).order_ 4096 = 6 ∧
      ((create 4096 (fun _ => 0) 64 5 6).remove_chunk 4096).base_addr_ ≤ 4096 ∧
      2 ^ 6 ∣ 4096 - ((create 4096 (fun _ => 0) 64 5 6).remove_chunk 4096).base_addr_ ∧
      4096 + shl64 1 (6 - 1) = 4096 + 2 ^ (6 - 1) ∧
      4096 + shl64 1 (6 - 1) =
        ((create 4096 (fun _ => 0) 64 5 6).remove_chunk 4096).buddy_of 4096 (6 - 1) ∧
      4096 + shl64 1 (6 - 1) - ((create 4096 (fun _ => 0) 64 5 6).remove_chunk 4096).base_addr_ =
        (4096 - ((create 4096 (fun _ => 0) 64 5 6).remove_chunk 4096).base_addr_) ^^^
          2 ^ (6 - 1) ∧
      (((create 4096 (fun _ => 0) 64 5 6).remove_chunk 4096).halve 4096 (6 - 1)).order_ 4096 =
        6 - 1 ∧
      (((create 4096 (fun _ => 0) 64 5 6).remove_chunk 4096).halve 4096 (6 - 1)).order_
        (4096 + shl64 1 (6 - 1)) = 6 - 1 ∧
      (((create 4096 (fun _ => 0) 64 5 6).remove_chunk 4096).halve 4096
          (6 - 1)).free_chunk_list_ =
        Function.update ((create 4096 (fun _ => 0) 64 5 6).remove_chunk 4096).free_chunk_list_
          (6 - 1 - ((create 4096 (fun _ => 0) 64 5 6).remove_chunk 4096).min_order_)
          ((4096 + shl64 1 (6 - 1)) ::
            ((create 4096 (fun _ => 0) 64 5 6).remove_chunk 4096).free_chunk_list_
              (6 - 1 - ((create 4096 (fun _ => 0) 64 5 6).remove_chunk 4096).min_order_))) :=
  ⟨⟨by decide, Reachable.init, List.mem_cons_self _ _⟩,
   split_is_xor_buddy 4096 (fun _ => 0) 64 5 6 (by decide) _ _ Reachable.init 10 _ 4096 6
     (List.mem_cons_self _ _)⟩

end BuddyAllocator

/-! ## Header orders of the free and of the allocated blocks -/

namespace BuddyAllocator

/-- `get_memory` leaves the headers of the blocks already allocated unchanged. -/
theorem get_memory_frame {s : BuddyAllocator} {live : List Nat} (hI : Inv s live)
    {size : Nat} (hne : (s.get_memory size).1 ≠ 0) {q : Nat} (hq : q ∈ live) :
    (s.get_memory size).2.order_ (q - CHUNK_SIZE) = s.order_ (q - CHUNK_SIZE) := by
  obtain ⟨i, h, rest, _, _, _, hl, _, _, _, _, _, g5, hord⟩ := get_memory_ok hI hne
  have hmem : h ∈ s.free_chunk_list_ (i - s.min_order_) := by
    rw [hl]; exact List.mem_cons_self _ _
  obtain ⟨_, _, e, _, _, hblk⟩ := hI.live_range hq
  have hne1 : q - CHUNK_SIZE ≠ h := by
    intro e1
    rw [← e1] at hmem
    exact hI.free_live _ _ hmem (by rw [e]; exact hq)
  apply g5 _ hne1
  intro j _ hj e2
  have hd := hI.disj _ _ hblk (Or.inl ⟨_, hmem⟩) hne1
  rw [hord] at hd
  have h1 : 2 ^ j < 2 ^ i := Nat.pow_lt_pow_right (by norm_num) hj
  have h2 : 0 < 2 ^ s.order_ (q - CHUNK_SIZE) := by positivity
  have h3 : 0 < 2 ^ j := by positivity
  omega

/-- The merge loop leaves the headers of the other allocated blocks unchanged. -/
theorem merge_loop_frame : ∀ (n : Nat) (s : BuddyAllocator) (p : Nat) (live : List Nat),
    Inv s live → p ∈ live → ∀ q, q ∈ live.erase p →
    (merge_loop n s (p - CHUNK_SIZE) (s.order_ (p - CHUNK_SIZE))).1.order_ (q - CHUNK_SIZE) =
      s.order_ (q - CHUNK_SIZE)
  | 0, s, p, live, _, _ => fun q _ => rfl
  | n + 1, s, p, live, h, hp => by
    intro q hq
    rw [merge_loop]
    split_ifs
    · cases hm : s.merge_step (p - CHUNK_SIZE) (s.order_ (p - CHUNK_SIZE)) with
      | none => rfl
      | some r =>
        obtain ⟨s1, c1⟩ := r
        simp only []
        obtain ⟨h1, ho1, _⟩ := inv_merge_step h hp rfl hm
        have ih := merge_loop_frame n s1 (c1 + CHUNK_SIZE) _ h1 (List.mem_cons_self _ _) q
          (by rw [List.erase_cons_head]; exact hq)
        simp only [Nat.add_sub_cancel, ho1] at ih
        rw [ih, (merge_step_some hm).2.2.2]
        have hq16 := (h.live_hdr q (List.mem_of_mem_erase hq)).1
        have hne : q ≠ c1 + CHUNK_SIZE := by
          intro e
          have := (List.nodup_cons.1 h1.live_nodup).1
          rw [← e] at this
          exact this hq
        rw [set_order_other _ _ (by omega)]
        simp
    · rfl

/-- `free_chunk` of an allocated pointer leaves the headers of the other allocated
blocks unchanged. -/
theorem free_chunk_frame {s : BuddyAllocator} {live : List Nat} (hI : Inv s live) {p : Nat}
    (hp : p ∈ live) {q : Nat} (hq : q ∈ live.erase p) :
    (s.free_chunk p).order_ (q - CHUNK_SIZE) = s.order_ (q - CHUNK_SIZE) := by
  have hp0 : p ≠ 0 := by
    have := (hI.live_hdr p hp).1
    rw [chunk_size_eq] at this
    omega
  unfold free_chunk
  rw [if_neg hp0, ptr_sub_of_le (hI.live_hdr p hp).1]
  simp only [add_chunk_order]
  have hle := (hI.live_range hp).2.2.2.2.1
  exact merge_loop_frame _ s p live hI hp q hq

theorem map_fst_erase : ∀ (l : List (Nat × Nat)) (p k : Nat), (l.map Prod.fst).Nodup →
    (p, k) ∈ l → (l.erase (p, k)).map Prod.fst = (l.map Prod.fst).erase p
  | [], _, _, _, h => by simp at h
  | e :: l, p, k, hnd, h => by
    by_cases he : e = (p, k)
    · subst he
      simp
    · have hmem : (p, k) ∈ l := by
        rcases List.mem_cons.1 h with h1 | h1
        · exact absurd h1.symm he
        · exact h1
      simp only [List.map_cons, List.nodup_cons] at hnd
      have hne : e.1 ≠ p := by
        intro e1
        apply hnd.1
        rw [e1]
        exact List.mem_map_of_mem Prod.fst hmem
      rw [List.erase_cons_tail (by simpa using he), List.map_cons, List.map_cons,
        List.erase_cons_tail (by simpa using hne), map_fst_erase l p k hnd.2 hmem]

/-- The states of `Handed` satisfy the invariant for the pointers recorded, and the
header before each of them holds the order recorded with it. -/
theorem handed_inv {s0 s : BuddyAllocator} {out : List (Nat × Nat)} (h0 : Inv s0 [])
    (hr : Handed s0 s out) :
    Inv s (out.map Prod.fst) ∧ ∀ p k, (p, k) ∈ out → s.order_ (p - CHUNK_SIZE) = k := by
  induction hr with
  | init => exact ⟨h0, by simp⟩
  | @alloc_ok s1 out1 size _ hne ih =>
    obtain ⟨hI, hh⟩ := ih
    refine ⟨inv_get_memory hI hne, ?_⟩
    intro p k hm
    rcases List.mem_cons.1 hm with e | hm
    · simp only [Prod.mk.injEq] at e
      obtain ⟨_, h, _, _, _, _, _, _, g1, g2, _⟩ := get_memory_ok hI hne
      rw [e.1, e.2, g1, Nat.add_sub_cancel]
      exact g2
    · rw [get_memory_frame hI hne (List.mem_map_of_mem Prod.fst hm)]
      exact hh p k hm
  | alloc_null size _ hnull ih =>
    rw [get_memory_null_state _ _ hnull]
    exact ih
  | @free s1 out1 p k _ hm ih =>
    obtain ⟨hI, hh⟩ := ih
    have hp : p ∈ out1.map Prod.fst := List.mem_map_of_mem Prod.fst hm
    have hmap := map_fst_erase out1 p k hI.live_nodup hm
    refine ⟨by rw [hmap]; exact inv_free_chunk hI hp, ?_⟩
    intro q j hq
    have hq' : q ∈ (out1.map Prod.fst).erase p := by
      rw [← hmap]
      exact List.mem_map_of_mem Prod.fst hq
    rw [free_chunk_frame hI hp hq']
    exact hh q j (List.mem_of_mem_erase hq)

/-- The states of `Handed` are those of `Reachable`. -/
theorem handed_reachable {s0 s : BuddyAllocator} {out : List (Nat × Nat)} (h0 : Inv s0 [])
    (hr : Handed s0 s out) : Reachable s0 s (out.map Prod.fst) := by
  induction hr with
  | init => exact Reachable.init
  | alloc_ok size _ hne ih => exact Reachable.alloc_ok size ih hne
  | alloc_null size _ hnull ih => exact Reachable.alloc_null size ih hnull
  | @free s1 out1 p k hr1 hm ih =>
    rw [map_fst_erase out1 p k (handed_inv h0 hr1).1.live_nodup hm]
    exact Reachable.free p ih (List.mem_map_of_mem Prod.fst hm)

theorem reachable_handed {s0 s : BuddyAllocator} {live : List Nat} (h0 : Inv s0 [])
    (hr : Reachable s0 s live) : ∃ out, Handed s0 s out ∧ out.map Prod.fst = live := by
  induction hr with
  | init => exact ⟨[], Handed.init, rfl⟩
  | alloc_ok size _ hne ih =>
    obtain ⟨out, ho, e⟩ := ih
    exact ⟨_, Handed.alloc_ok size ho hne, by rw [List.map_cons, e]⟩
  | alloc_null size _ hnull ih =>
    obtain ⟨out, ho, e⟩ := ih
    exact ⟨out, Handed.alloc_null size ho hnull, e⟩
  | @free s1 live1 p _ hp ih =>
    obtain ⟨out, ho, e⟩ := ih
    rw [← e] at hp
    obtain ⟨⟨p', k⟩, hm, e1⟩ := List.mem_map.1 hp
    simp only at e1
    subst e1
    refine ⟨_, Handed.free p' k ho hm, ?_⟩
    rw [map_fst_erase out p' k (handed_inv h0 ho).1.live_nodup hm, e]

/-- C15: in a state reached from a constructed allocator, every chunk linked in
`free_chunk_list_[j]` has header order `j + min_order_`, and the header before every
allocated pointer holds the target order of the request that returned it. -/
theorem header_slot_invariant (base : Nat) (mem : Nat → Nat)
    (max_memory min_order max_order : Nat) (hb : base ≠ 0)
    (s : BuddyAllocator) (out : List (Nat × Nat))
    (hr : Handed (create base mem max_memory min_order max_order) s out) :
    (∀ j c, c ∈ s.free_chunk_list_ j → s.order_ c = j + s.min_order_) ∧
    (∀ p k, (p, k) ∈ out → s.order_ (p - CHUNK_SIZE) = k) := by
  obtain ⟨hI, hh⟩ := handed_inv (inv_create base mem max_memory min_order max_order hb) hr
  exact ⟨hI.free_hdr, hh⟩

/-- C15 on a 64-byte allocator with orders 4 to 6 after `get_memory(10)` (order 5) and
`get_memory(0)` (order 4). -/
theorem header_slot_invariant_witness :
    (4096 ≠ 0 ∧
      Handed (create 4096 (fun _ => 0) 64 4 6)
        (((create 4096 (fun _ => 0) 64 4 6).get_memory 10).2.get_memory 0).2
        [((((create 4096 (fun _ => 0) 64 4 6).get_memory 10).2.get_memory 0).1, target_order 0),
          (((create 4096 (fun _ => 0) 64 4 6).get_memory 10).1, target_order 10)]) ∧
    ((((create 4096 (fun _ => 0) 64 4 6).get_memory 10).2.get_memory 0).2.order_
        (4112 - CHUNK_SIZE) = 5 ∧
      (((create 4096 (fun _ => 0) 64 4 6).get_memory 10).2.get_memory 0).2.order_
        (4144 - CHUNK_SIZE) = 4) :=
  ⟨⟨by decide, Handed.alloc_ok 0 (Handed.alloc_ok 10 Handed.init (by decide)) (by decide)⟩,
   (header_slot_invariant 4096 (fun _ => 0) 64 4 6 (by decide) _ _
      (Handed.alloc_ok 0 (Handed.alloc_ok 10 Handed.init (by decide)) (by decide))).2
        4112 5 (by decide),
   (header_slot_invariant 4096 (fun _ => 0) 64 4 6 (by decide) _ _
      (Handed.alloc_ok 0 (Handed.alloc_ok 10 Handed.init (by decide)) (by decide))).2
        4144 4 (by decide)⟩

end BuddyAllocator

/-! ## Hybrid allocator: routing of `get_memory` -/

namespace LinearAllocator

/-- With a 16-aligned region whose capacity is a multiple of 16 and a cursor inside it,
`get_memory` either fails and changes nothing, or returns an address `p` with
`[p, p + size)` inside the region and moves the cursor to `p + size`. -/
theorem arena_get_memory_in_region (a : LinearAllocator) (size : Nat)
    (hal : a.base_address_ % MAX_ALIGN = 0) (hcap : a.max_size_ % MAX_ALIGN = 0)
    (hfit : a.base_address_ + a.max_size_ + MAX_ALIGN ≤ WORD)
    (hlo : a.base_address_ ≤ a.curr_address_)
    (hhi : a.curr_address_ ≤ a.base_address_ + a.max_size_) :
    ((a.get_memory size).1 = 0 ∧ (a.get_memory size).2 = a) ∨
    ((a.get_memory size).1 ≠ 0 ∧ 1 ≤ size ∧ a.base_address_ ≤ (a.get_memory size).1 ∧
      (a.get_memory size).1 + size ≤ a.base_address_ + a.max_size_ ∧
      (a.get_memory size).2.curr_address_ = (a.get_memory size).1 + size ∧
      (a.get_memory size).2.base_address_ = a.base_address_ ∧
      (a.get_memory size).2.max_size_ = a.max_size_) := by
  have hW : WORD = 18446744073709551616 := by norm_num [WORD]
  have hM : MAX_ALIGN = 16 := rfl
  rw [hM] at hal hcap hfit
  rw [hW] at hfit
  have hge := align_up_ge (p := a.curr_address_) (by rw [hW]; omega)
  generalize hA : align_up a.curr_address_ MAX_ALIGN = aligned at hge
  have hused : sub64 aligned a.base_address_ = aligned - a.base_address_ := by
    unfold sub64; rw [hW]; omega
  have hrem : sub64 a.max_size_ (aligned - a.base_address_) =
      a.max_size_ - (aligned - a.base_address_) := by
    unfold sub64; rw [hW]; omega
  unfold get_memory
  simp only [hA, hused, hrem]
  by_cases h0 : a.base_address_ = 0 ∨ size = 0
  · rw [if_pos h0]
    exact Or.inl ⟨rfl, rfl⟩
  · rw [if_neg h0]
    by_cases hgt : size > a.max_size_ - (aligned - a.base_address_)
    · rw [if_pos hgt]
      exact Or.inl ⟨rfl, rfl⟩
    · rw [if_neg hgt]
      right
      have hadd : add64 aligned size = aligned + size := by
        unfold add64; rw [hW]; omega
      simp only [hadd]
      exact ⟨by omega, by omega, by omega, by omega, trivial, trivial, trivial⟩

/-- With a 16-aligned region whose capacity is a multiple of 16 and a cursor inside it,
`get_memory` returns `NULL` exactly when the region was not mapped, the size is zero, or
the size exceeds the capacity left above the aligned cursor. -/
theorem arena_get_memory_null_iff (a : LinearAllocator) (size : Nat)
    (hal : a.base_address_ % MAX_ALIGN = 0) (hcap : a.max_size_ % MAX_ALIGN = 0)
    (hfit : a.base_address_ + a.max_size_ + MAX_ALIGN ≤ WORD)
    (hlo : a.base_address_ ≤ a.curr_address_)
    (hhi : a.curr_address_ ≤ a.base_address_ + a.max_size_) :
    (a.get_memory size).1 = 0 ↔
      (a.base_address_ = 0 ∨ size = 0 ∨
        a.max_size_ - (align_up a.curr_address_ MAX_ALIGN - a.base_address_) < size) := by
  have hW : WORD = 18446744073709551616 := by norm_num [WORD]
  have hM : MAX_ALIGN = 16 := rfl
  rw [hM] at hal hcap hfit
  rw [hW] at hfit
  have hge := align_up_ge (p := a.curr_address_) (by rw [hW]; omega)
  generalize hA : align_up a.curr_address_ MAX_ALIGN = aligned at hge
  have hused : sub64 aligned a.base_address_ = aligned - a.base_address_ := by
    unfold sub64; rw [hW]; omega
  have hrem : sub64 a.max_size_ (aligned - a.base_address_) =
      a.max_size_ - (aligned - a.base_address_) := by
    unfold sub64; rw [hW]; omega
  unfold get_memory
  simp only [hA, hused, hrem]
  by_cases h0 : a.base_address_ = 0 ∨ size = 0
  · rw [if_pos h0]
    constructor
    · intro _
      rcases h0 with h | h
      · exact Or.inl h
      · exact Or.inr (Or.inl h)
    · intro _
      rfl
  · rw [if_neg h0]
    by_cases hgt : size > a.max_size_ - (aligned - a.base_address_)
    · rw [if_pos hgt]
      exact ⟨fun _ => Or.inr (Or.inr hgt), fun _ => rfl⟩
    · rw [if_neg hgt]
      constructor
      · intro e
        exfalso
        apply h0
        left
        have e1 : aligned = 0 := e
        omega
      · intro h
        rcases h with h | h | h
        · exact absurd (Or.inl h) h0
        · exact absurd (Or.inr h) h0
        · exact absurd h hgt

end LinearAllocator

namespace BuddyAllocator

theorem get_memory_range {s : BuddyAllocator} {size : Nat} (hne : (s.get_memory size).1 ≠ 0) :
    ¬ (next_power_of_two (add64 size CHUNK_SIZE) > shl64 1 s.max_order_ ∨
      next_power_of_two (add64 size CHUNK_SIZE) < shl64 1 s.min_order_) := by
  intro hc
  apply hne
  unfold get_memory
  simp only []
  rw [if_pos hc]

/-- When `size + sizeof(Chunk)` is at most `2 ^ 63`, so that the sum does not wrap and the
rounding shifts by less than 64, the target order is large enough:
`size + sizeof(Chunk) ≤ 2 ^ target_order`. -/
theorem target_order_fits {size : Nat} (hsz : size + CHUNK_SIZE ≤ 2 ^ 63) :
    size + CHUNK_SIZE ≤ 2 ^ target_order size := by
  have hx : add64 size CHUNK_SIZE = size + CHUNK_SIZE := by
    unfold add64 WORD
    exact Nat.mod_eq_of_lt (by omega)
  obtain ⟨e1, e2⟩ := next_power_of_two_exp (x := add64 size CHUNK_SIZE) (by rw [hx]; exact hsz)
  unfold target_order
  rw [← e1, ← hx]
  exact e2

/-- In a state satisfying the invariant, when `size + sizeof(Chunk)` is at most `2 ^ 63`,
the bytes `[p, p + size)` of a successful `get_memory(size)` lie inside the first
`2 ^ max_order_` bytes of the region. -/
theorem get_memory_in_region {s : BuddyAllocator} {live : List Nat} (hI : Inv s live)
    {size : Nat} (hsz : size + CHUNK_SIZE ≤ 2 ^ 63) (hne : (s.get_memory size).1 ≠ 0) :
    s.base_addr_ ≤ (s.get_memory size).1 ∧
    (s.get_memory size).1 + size ≤ s.base_addr_ + 2 ^ s.max_order_ := by
  obtain ⟨i, h, rest, _, hti, _, hl, _, g1, _, _, _, _, hord⟩ := get_memory_ok hI hne
  have hmem : h ∈ s.free_chunk_list_ (i - s.min_order_) := by
    rw [hl]; exact List.mem_cons_self _ _
  have hg := hI.geom h (Or.inl ⟨_, hmem⟩)
  rw [hord] at hg
  have hfit := target_order_fits hsz
  have hpow : 2 ^ target_order size ≤ 2 ^ i := Nat.pow_le_pow_right (by norm_num) hti
  rw [g1]
  constructor
  · omega
  · omega

end BuddyAllocator

namespace HybridAllocator

/-- In a reachable hybrid state the buddy allocator is in a reachable state of its own,
the arena keeps its region and its cursor stays inside it, and the threshold is the one
set at construction. -/
theorem reachable_parts {o s : HybridAllocator} {live : List Nat}
    (hal : o.linear_allocator_.base_address_ % MAX_ALIGN = 0)
    (hcap : o.linear_allocator_.max_size_ % MAX_ALIGN = 0)
    (hfit : o.linear_allocator_.base_address_ + o.linear_allocator_.max_size_ + MAX_ALIGN
      ≤ WORD)
    (hlo : o.linear_allocator_.base_address_ ≤ o.linear_allocator_.curr_address_)
    (hhi : o.linear_allocator_.curr_address_ ≤
      o.linear_allocator_.base_address_ + o.linear_allocator_.max_size_)
    (hr : Reachable o s live) :
    BuddyAllocator.Reachable o.buddy_allocator_ s.buddy_allocator_ live ∧
    s.threshold_ = o.threshold_ ∧
    s.linear_allocator_.base_address_ = o.linear_allocator_.base_address_ ∧
    s.linear_allocator_.max_size_ = o.linear_allocator_.max_size_ ∧
    s.linear_allocator_.base_address_ ≤ s.linear_allocator_.curr_address_ ∧
    s.linear_allocator_.curr_address_ ≤
      s.linear_allocator_.base_address_ + s.linear_allocator_.max_size_ := by
  induction hr with
  | init => exact ⟨BuddyAllocator.Reachable.init, rfl, rfl, rfl, hlo, hhi⟩
  | @alloc s1 live1 size _ ih =>
    obtain ⟨i1, i2, i3, i4, i5, i6⟩ := ih
    unfold get_memory
    by_cases hsz : size ≤ s1.threshold_
    · simp only [if_pos hsz]
      rw [if_neg (by omega)]
      refine ⟨i1, i2, ?_⟩
      rcases LinearAllocator.arena_get_memory_in_region s1.linear_allocator_ size
        (by rw [i3]; exact hal) (by rw [i4]; exact hcap) (by rw [i3, i4]; exact hfit) i5 i6
        with ⟨_, e⟩ | ⟨_, g1, g2, g3, g4, g5, g6⟩
      · rw [e]
        exact ⟨i3, i4, i5, i6⟩
      · rw [g5, g6, g4]
        exact ⟨i3, i4, by omega, by omega⟩
    · simp only [if_neg hsz]
      refine ⟨?_, i2, i3, i4, i5, i6⟩
      by_cases hp : (s1.buddy_allocator_.get_memory size).1 = 0
      · rw [if_neg (by simp [hp])]
        exact BuddyAllocator.Reachable.alloc_null size i1 hp
      · rw [if_pos ⟨by omega, hp⟩]
        exact BuddyAllocator.Reachable.alloc_ok size i1 hp
  | @free s1 live1 p _ hp ih =>
    obtain ⟨i1, i2, i3, i4, i5, i6⟩ := ih
    unfold free
    by_cases hin : p ≥ s1.linear_allocator_.base_address_ ∧
        p < s1.linear_allocator_.base_address_ + s1.linear_allocator_.max_size_
    · simp only [if_pos hin]
      exact ⟨i1, i2, i3, i4, i5, i6⟩
    · simp only [if_neg hin]
      refine ⟨?_, i2, i3, i4, i5, i6⟩
      rcases hp with hp | hp
      · exact absurd hp hin
      · exact BuddyAllocator.Reachable.free p i1 hp
  | reset _ ih =>
    obtain ⟨i1, i2, i3, i4, i5, i6⟩ := ih
    refine ⟨i1, i2, i3, i4, ?_, ?_⟩
    · exact le_refl _
    · simp only [LinearAllocator.reset]
      exact Nat.le_add_right _ _

/-- C11 (as stated, refuted): on `HybridAllocator(1 MiB, 4 MiB, 10, 22)` the request
`get_memory(0)`, of a size not above the threshold, returns `NULL`, which is not an
address of the arena region. -/
theorem get_memory_zero_null :
    0 ≤ (create 65536 4194304 (fun _ => 0) 1048576 4194304 10 22).threshold_ ∧
    ((create 65536 4194304 (fun _ => 0) 1048576 4194304 10 22).get_memory 0).1 = 0 ∧
    ¬ ((create 65536 4194304 (fun _ => 0) 1048576 4194304 10 22).linear_allocator_.base_address_
        ≤ ((create 65536 4194304 (fun _ => 0) 1048576 4194304 10 22).get_memory 0).1) := by
  decide

/-- C11 (amended): for a hybrid allocator constructed over a 16-aligned arena whose
capacity is a multiple of 16 (the buddy region mapped, `bbase ≠ 0`), in every reachable
state: the threshold is 1024; a request of `size ≤ threshold_` returns `NULL` exactly when
the arena was not mapped, `size` is zero, or `size` exceeds the capacity left above the
aligned cursor, and otherwise an address `p` with `[p, p + size)` inside the arena region;
a request of `size > threshold_` with `size + sizeof(Chunk) ≤ 2 ^ 63` returns `NULL` or
an address `p` with `[p, p + size)` inside the buddy region. -/
theorem hybrid_routing (lbase bbase : Nat) (mem : Nat → Nat)
    (lmax bmem bmin bmax : Nat)
    (hal : lbase % MAX_ALIGN = 0) (hcap : lmax % MAX_ALIGN = 0)
    (hfit : lbase + lmax + MAX_ALIGN ≤ WORD) (hb : bbase ≠ 0)
    (s : HybridAllocator) (live : List Nat)
    (hr : Reachable (create lbase bbase mem lmax bmem bmin bmax) s live) (size : Nat) :
    s.threshold_ = 1024 ∧
    (size ≤ s.threshold_ →
      ((s.get_memory size).1 = 0 ↔
        (s.linear_allocator_.base_address_ = 0 ∨ size = 0 ∨
          s.linear_allocator_.max_size_ -
            (align_up s.linear_allocator_.curr_address_ MAX_ALIGN -
              s.linear_allocator_.base_address_) < size)) ∧
      ((s.get_memory size).1 = 0 ∨
        (s.linear_allocator_.base_address_ ≤ (s.get_memory size).1 ∧
          (s.get_memory size).1 < s.linear_allocator_.base_address_ +
            s.linear_allocator_.max_size_ ∧
          (s.get_memory size).1 + size ≤ s.linear_allocator_.base_address_ +
            s.linear_allocator_.max_size_))) ∧
    (s.threshold_ < size → size + CHUNK_SIZE ≤ 2 ^ 63 →
      (s.get_memory size).1 = 0 ∨
      (s.buddy_allocator_.base_addr_ ≤ (s.get_memory size).1 ∧
        (s.get_memory size).1 < s.buddy_allocator_.base_addr_ +
          s.buddy_allocator_.max_memory_ ∧
        (s.get_memory size).1 + size ≤ s.buddy_allocator_.base_addr_ +
          s.buddy_allocator_.max_memory_)) := by
  obtain ⟨i1, i2, i3, i4, i5, i6⟩ :=
    reachable_parts (o := create lbase bbase mem lmax bmem bmin bmax)
      hal hcap hfit (le_refl _) (Nat.le_add_right _ _) hr
  have hth : s.threshold_ = 1024 := i2
  refine ⟨hth, ?_, ?_⟩
  · intro hsz
    unfold get_memory
    simp only [if_pos hsz]
    have hal1 : s.linear_allocator_.base_address_ % MAX_ALIGN = 0 := by rw [i3]; exact hal
    have hcap1 : s.linear_allocator_.max_size_ % MAX_ALIGN = 0 := by rw [i4]; exact hcap
    have hfit1 : s.linear_allocator_.base_address_ + s.linear_allocator_.max_size_ +
        MAX_ALIGN ≤ WORD := by rw [i3, i4]; exact hfit
    refine ⟨LinearAllocator.arena_get_memory_null_iff s.linear_allocator_ size hal1 hcap1
      hfit1 i5 i6, ?_⟩
    rcases LinearAllocator.arena_get_memory_in_region s.linear_allocator_ size hal1 hcap1 hfit1
      i5 i6 with ⟨e, _⟩ | ⟨_, g1, g2, g3, _⟩
    · exact Or.inl e
    · exact Or.inr ⟨g2, by omega, g3⟩
  · intro hsz hw
    unfold get_memory
    simp only [if_neg (by omega : ¬ size ≤ s.threshold_)]
    by_cases hp : (s.buddy_allocator_.get_memory size).1 = 0
    · exact Or.inl hp
    · right
      have hI := BuddyAllocator.reachable_inv
        (BuddyAllocator.inv_create bbase mem bmem bmin bmax hb) i1
      obtain ⟨p1, p2, _, p4⟩ := BuddyAllocator.reachable_params i1
      obtain ⟨L, _, c1, _, c3⟩ := BuddyAllocator.create_orders bbase mem bmem bmin bmax
      have hpow : 2 ^ s.buddy_allocator_.max_order_ ≤ s.buddy_allocator_.max_memory_ := by
        rw [p2, p4]
        show 2 ^ (BuddyAllocator.create bbase mem bmem bmin bmax).max_order_ ≤
          (BuddyAllocator.create bbase mem bmem bmin bmax).max_memory_
        rw [c1, c3]
        exact Nat.pow_le_pow_right (by norm_num) (min_le_right _ _)
      obtain ⟨r1, r2⟩ := BuddyAllocator.get_memory_in_region hI hw hp
      exact ⟨r1, by omega, by omega⟩

/-- C11 (amended) on `HybridAllocator(1 MiB, 4 MiB, 10, 22)` with the arena at `65536`
and the buddy region at `4194304`: `get_memory(512)` returns the arena base, and after it
`get_memory(2048)` returns the pointer `4194320` of the buddy region. -/
theorem hybrid_routing_witness :
    (65536 % MAX_ALIGN = 0 ∧ 1048576 % MAX_ALIGN = 0 ∧ 65536 + 1048576 + MAX_ALIGN ≤ WORD ∧
      4194304 ≠ 0 ∧
      Reachable (create 65536 4194304 (fun _ => 0) 1048576 4194304 10 22)
        ((create 65536 4194304 (fun _ => 0) 1048576 4194304 10 22).get_memory 512).2 [] ∧
      ((create 65536 4194304 (fun _ => 0) 1048576 4194304 10 22).get_memory 512).1 = 65536 ∧
      (((create 65536 4194304 (fun _ => 0) 1048576 4194304 10 22).get_memory 512).2.get_memory
        2048).1 = 4194320 ∧
      ((create 65536 4194304 (fun _ => 0) 1048576 4194304 10 22).get_memory 512).2.threshold_
        < 2048 ∧
      2048 + CHUNK_SIZE ≤ 2 ^ 63) ∧
    ((((create 65536 4194304 (fun _ => 0) 1048576 4194304 10 22).get_memory 512).2.get_memory
        2048).1 = 0 ∨
      (((create 65536 4194304 (fun _ => 0) 1048576 4194304 10 22).get_memory
          512).2.buddy_allocator_.base_addr_ ≤
        (((create 65536 4194304 (fun _ => 0) 1048576 4194304 10 22).get_memory
          512).2.get_memory 2048).1 ∧
       (((create 65536 4194304 (fun _ => 0) 1048576 4194304 10 22).get_memory
          512).2.get_memory 2048).1 <
        ((create 65536 4194304 (fun _ => 0) 1048576 4194304 10 22).get_memory
          512).2.buddy_allocator_.base_addr_ +
        ((create 65536 4194304 (fun _ => 0) 1048576 4194304 10 22).get_memory
          512).2.buddy_allocator_.max_memory_ ∧
       (((create 65536 4194304 (fun _ => 0) 1048576 4194304 10 22).get_memory
          512).2.get_memory 2048).1 + 2048 ≤
        ((create 65536 4194304 (fun _ => 0) 1048576 4194304 10 22).get_memory
          512).2.buddy_allocator_.base_addr_ +
        ((create 65536 4194304 (fun _ => 0) 1048576 4194304 10 22).get_memory
          512).2.buddy_allocator_.max_memory_)) :=
  ⟨⟨by decide, by decide, by decide, by decide,
      Reachable.alloc 512 Reachable.init, by decide, by decide, by decide, by decide⟩,
   (hybrid_routing 65536 4194304 (fun _ => 0) 1048576 4194304 10 22 (by decide) (by decide)
     (by decide) (by decide) _ []
     (Reachable.alloc 512 Reachable.init) 2048).2.2 (by decide) (by decide)⟩

end HybridAllocator

/-! ## Hybrid allocator: the run of `main` -/

namespace BuddyAllocator

/-- On a freshly constructed allocator a successful `get_memory` followed by
`free_chunk` of the returned pointer leaves the chunk at the base, with header order
`max_order_`, alone in the table. -/
theorem fresh_alloc_free (base : Nat) (mem : Nat → Nat)
    (max_memory min_order max_order : Nat) (hb : base ≠ 0) (size : Nat)
    (hne : ((create base mem max_memory min_order max_order).get_memory size).1 ≠ 0) :
    (((create base mem max_memory min_order max_order).get_memory size).2.free_chunk
        ((create base mem max_memory min_order max_order).get_memory size).1).free_chunk_list_
      = Function.update (fun _ => [])
          ((create base mem max_memory min_order max_order).max_order_ -
            (create base mem max_memory min_order max_order).min_order_) [base] ∧
    (((create base mem max_memory min_order max_order).get_memory size).2.free_chunk
        ((create base mem max_memory min_order max_order).get_memory size).1).order_ base =
      (create base mem max_memory min_order max_order).max_order_ := by
  have h0 := inv_create base mem max_memory min_order max_order hb
  obtain ⟨_, hmm, c3, _, c5⟩ := create_fields base mem max_memory min_order max_order
  have c5 := c5 hb
  obtain ⟨e1, e2, e3, e4⟩ := alloc_free_restores h0 hne
  have h1 := inv_get_memory h0 hne
  have h2 := inv_free_chunk h1 (List.mem_cons_self _ _)
  generalize create base mem max_memory min_order max_order = s0 at *
  generalize (s0.get_memory size).2.free_chunk (s0.get_memory size).1 = f at *
  have hmem : base ∈ f.free_chunk_list_ (s0.max_order_ - s0.min_order_) := by
    rw [e1, c5, Function.update_same]
    exact List.mem_cons_self _ _
  refine ⟨by rw [e1, c5], ?_⟩
  rw [h2.free_hdr _ _ hmem, e2]
  omega

end BuddyAllocator

namespace LinearAllocator

/-- On a fresh arena with a 16-aligned base, a request that fits returns the base. -/
theorem get_memory_fresh (max_size base size : Nat) (hb : base ≠ 0)
    (hal : base % MAX_ALIGN = 0) (hfit : base + max_size + MAX_ALIGN ≤ WORD)
    (h1 : 1 ≤ size) (h2 : size ≤ max_size) :
    ((create max_size base).get_memory size).1 = base ∧
    ((create max_size base).get_memory size).2.base_address_ = base ∧
    ((create max_size base).get_memory size).2.max_size_ = max_size := by
  have hW : WORD = 18446744073709551616 := by norm_num [WORD]
  have hM : MAX_ALIGN = 16 := rfl
  rw [hM, hW] at hfit
  rw [hM] at hal
  have hbase : align_up base MAX_ALIGN = base := align_up_aligned hal (by rw [hW]; omega)
  have hused : sub64 base base = 0 := by unfold sub64; rw [hW]; omega
  have hcap : sub64 max_size 0 = max_size := by unfold sub64; rw [hW]; omega
  unfold get_memory
  simp only [create, hbase, hused, hcap]
  rw [if_neg (by omega), if_neg (by omega)]
  exact ⟨rfl, rfl, rfl⟩

end LinearAllocator

namespace HybridAllocator

/-- The run of `main` on `HybridAllocator(1 MiB, 4 MiB, 10, 22)`, for an arena at a
16-aligned address `lbase` and a buddy region at `bbase` whose first pointer is outside
the arena range. -/
theorem run_main (lbase bbase : Nat) (mem : Nat → Nat)
    (hl : lbase ≠ 0) (hal : lbase % MAX_ALIGN = 0) (hfit : lbase + 1048576 + MAX_ALIGN ≤ WORD)
    (hb : bbase ≠ 0)
    (hdis : ¬ (lbase ≤ bbase + CHUNK_SIZE ∧ bbase + CHUNK_SIZE < lbase + 1048576)) :
    ((create lbase bbase mem 1048576 4194304 10 22).get_memory 512).1 = lbase ∧
    (((create lbase bbase mem 1048576 4194304 10 22).get_memory 512).2.get_memory 2048).1 =
      bbase + CHUNK_SIZE ∧
    (((create lbase bbase mem 1048576 4194304 10 22).get_memory 512).2.get_memory
      2048).2.buddy_allocator_.order_ bbase = 12 ∧
    (((create lbase bbase mem 1048576 4194304 10 22).get_memory 512).2.get_memory 2048).2.free
        ((create lbase bbase mem 1048576 4194304 10 22).get_memory 512).1 =
      (((create lbase bbase mem 1048576 4194304 10 22).get_memory 512).2.get_memory 2048).2 ∧
    (((((create lbase bbase mem 1048576 4194304 10 22).get_memory 512).2.get_memory 2048).2.free
        ((create lbase bbase mem 1048576 4194304 10 22).get_memory 512).1).free
        (((create lbase bbase mem 1048576 4194304 10 22).get_memory 512).2.get_memory
          2048).1).buddy_allocator_.free_chunk_list_ =
      Function.update (fun _ => []) (22 - 10) [bbase] ∧
    (((((create lbase bbase mem 1048576 4194304 10 22).get_memory 512).2.get_memory 2048).2.free
        ((create lbase bbase mem 1048576 4194304 10 22).get_memory 512).1).free
        (((create lbase bbase mem 1048576 4194304 10 22).get_memory 512).2.get_memory
          2048).1).buddy_allocator_.order_ bbase = 22 ∧
    (((create lbase bbase mem 1048576 4194304 10 22).get_memory 512).2.get_memory
      2048).2.buddy_allocator_.base_addr_ = bbase := by
  have hmin : (BuddyAllocator.create bbase mem 4194304 10 22).min_order_ = 10 := by
    simp only [BuddyAllocator.create, BuddyAllocator.add_chunk_min,
      BuddyAllocator.set_order_min]
    decide
  have hmax : (BuddyAllocator.create bbase mem 4194304 10 22).max_order_ = 22 := by
    simp only [BuddyAllocator.create, BuddyAllocator.add_chunk_max,
      BuddyAllocator.set_order_max]
    decide
  have hlist := (BuddyAllocator.create_fields bbase mem 4194304 10 22).2.2.2.2 hb
  rw [hmin, hmax] at hlist
  have hI := BuddyAllocator.inv_create bbase mem 4194304 10 22 hb
  have ht : BuddyAllocator.target_order 2048 = 12 := by decide
  have hne : ((BuddyAllocator.create bbase mem 4194304 10 22).get_memory 2048).1 ≠ 0 := by
    apply BuddyAllocator.get_memory_ne_of_nonempty (j := 22)
    · rw [hmin, hmax]; decide
    · rw [ht]; decide
    · rw [hmax]
    · rw [hmin, hlist]; simp
  obtain ⟨i, h, rest, _, _, _, gl, _, g1, g2, _⟩ := BuddyAllocator.get_memory_ok hI hne
  have hh : h = bbase := by
    rw [hlist, hmin] at gl
    by_cases e : i - 10 = 22 - 10
    · rw [e, Function.update_same] at gl
      simp only [List.cons.injEq] at gl
      exact gl.1.symm
    · rw [Function.update_noteq e] at gl
      exact absurd gl (by simp)
  rw [hh] at g1 g2
  rw [ht] at g2
  obtain ⟨f1, f2, f3⟩ := LinearAllocator.get_memory_fresh 1048576 lbase 512 hl hal hfit
    (by decide) (by decide)
  obtain ⟨a1, a2⟩ := BuddyAllocator.fresh_alloc_free bbase mem 4194304 10 22 hb 2048 hne
  rw [hmin, hmax] at a1
  rw [hmax] at a2
  have e1 : (create lbase bbase mem 1048576 4194304 10 22).get_memory 512 =
      (lbase, { threshold_ := 1024
                linear_allocator_ := ((LinearAllocator.create 1048576 lbase).get_memory 512).2
                buddy_allocator_ := BuddyAllocator.create bbase mem 4194304 10 22 }) := by
    unfold get_memory
    simp only [create]
    rw [if_pos (by decide), f1]
  have e2 : ((create lbase bbase mem 1048576 4194304 10 22).get_memory 512).2.get_memory 2048 =
      (bbase + CHUNK_SIZE,
        { threshold_ := 1024
          linear_allocator_ := ((LinearAllocator.create 1048576 lbase).get_memory 512).2
          buddy_allocator_ :=
            ((BuddyAllocator.create bbase mem 4194304 10 22).get_memory 2048).2 }) := by
    rw [e1]
    unfold get_memory
    simp only []
    rw [if_neg (by decide), g1]
  have e3 : (((create lbase bbase mem 1048576 4194304 10 22).get_memory 512).2.get_memory
      2048).2.free lbase =
      (((create lbase bbase mem 1048576 4194304 10 22).get_memory 512).2.get_memory 2048).2 := by
    rw [e2]
    unfold free
    simp only [f2, f3]
    rw [if_pos ⟨le_refl _, by omega⟩]
  rw [e1] at e2 e3 ⊢
  simp only [] at e2 e3 ⊢
  rw [e3, e2]
  simp only []
  refine ⟨trivial, trivial, g2, trivial, ?_, ?_, ?_⟩
  · unfold free
    simp only [f2, f3]
    rw [if_neg hdis]
    simp only []
    rw [← g1]
    exact a1
  · unfold free
    simp only [f2, f3]
    rw [if_neg hdis]
    simp only []
    rw [← g1]
    exact a2
  · rw [(BuddyAllocator.get_memory_params _ _).1]
    exact (BuddyAllocator.create_fields bbase mem 4194304 10 22).2.2.1

/-- C13 (as stated, refuted): on `HybridAllocator(1 MiB, 4 MiB, 10, 22)` (arena at
`65536`, buddy region at `4194304`), after `get_memory(512)`, `get_memory(2048) = l`,
`free(s)` and `free(l)`, the block of `l`, handed out at order 12, is not in the free
list of order 12. -/
theorem free_large_not_at_order_12 :
    (((create 65536 4194304 (fun _ => 0) 1048576 4194304 10 22).get_memory 512).2.get_memory
      2048).2.buddy_allocator_.order_ ((((create 65536 4194304 (fun _ => 0) 1048576 4194304 10
      22).get_memory 512).2.get_memory 2048).1 - CHUNK_SIZE) = 12 ∧
    (((create 65536 4194304 (fun _ => 0) 1048576 4194304 10 22).get_memory 512).2.get_memory
      2048).1 - CHUNK_SIZE ∉ (((((create 65536 4194304 (fun _ => 0) 1048576 4194304 10
      22).get_memory 512).2.get_memory 2048).2.free ((create 65536 4194304 (fun _ => 0) 1048576
      4194304 10 22).get_memory 512).1).free (((create 65536 4194304 (fun _ => 0) 1048576
      4194304 10 22).get_memory 512).2.get_memory 2048).1).buddy_allocator_.free_chunk_list_ (12
      - 10) := by
  obtain ⟨_, e2, e3, _, e5, _⟩ := run_main 65536 4194304 (fun _ => 0) (by decide) (by decide)
    (by decide) (by decide) (by decide)
  rw [e5, e2]
  simp only [Nat.add_sub_cancel]
  exact ⟨e3, by simp⟩

/-- C13 (amended): on `HybridAllocator(1 MiB, 4 MiB, 10, 22)`, for an arena at a
16-aligned address `lbase` and a buddy region at `bbase` whose first pointer lies
outside the arena range: `get_memory(512) = s` is the arena base, `get_memory(2048) = l`
is handed out at order 12 with its header at the buddy base, `free(s)` changes nothing,
and `free(l)` coalesces the block with its free buddies up to order 22: afterwards the
chunk whose header precedes `l` is alone in the free list of order 22 with header order
22, and every other free list, that of order 12 included, is empty. -/
theorem hybrid_end_to_end (lbase bbase : Nat) (mem : Nat → Nat)
    (hl : lbase ≠ 0) (hal : lbase % MAX_ALIGN = 0) (hfit : lbase + 1048576 + MAX_ALIGN ≤ WORD)
    (hb : bbase ≠ 0)
    (hdis : ¬ (lbase ≤ bbase + CHUNK_SIZE ∧ bbase + CHUNK_SIZE < lbase + 1048576)) :
    ((create lbase bbase mem 1048576 4194304 10 22).get_memory 512).1 = lbase ∧
    (((create lbase bbase mem 1048576 4194304 10 22).get_memory 512).2.get_memory 2048).1 -
      CHUNK_SIZE = (((create lbase bbase mem 1048576 4194304 10 22).get_memory 512).2.get_memory
      2048).2.buddy_allocator_.base_addr_ ∧
    (((create lbase bbase mem 1048576 4194304 10 22).get_memory 512).2.get_memory
      2048).2.buddy_allocator_.order_ ((((create lbase bbase mem 1048576 4194304 10
      22).get_memory 512).2.get_memory 2048).1 - CHUNK_SIZE) = 12 ∧
    (((create lbase bbase mem 1048576 4194304 10 22).get_memory 512).2.get_memory 2048).2.free
      ((create lbase bbase mem 1048576 4194304 10 22).get_memory 512).1 = (((create lbase bbase
      mem 1048576 4194304 10 22).get_memory 512).2.get_memory 2048).2 ∧
    (((((create lbase bbase mem 1048576 4194304 10 22).get_memory 512).2.get_memory 2048).2.free
      ((create lbase bbase mem 1048576 4194304 10 22).get_memory 512).1).free (((create lbase
      bbase mem 1048576 4194304 10 22).get_memory 512).2.get_memory
      2048).1).buddy_allocator_.free_chunk_list_ (22 - 10) = [(((create lbase bbase mem 1048576
      4194304 10 22).get_memory 512).2.get_memory 2048).1 - CHUNK_SIZE] ∧
    (∀ idx, idx ≠ 22 - 10 → (((((create lbase bbase mem 1048576 4194304 10 22).get_memory
      512).2.get_memory 2048).2.free ((create lbase bbase mem 1048576 4194304 10 22).get_memory
      512).1).free (((create lbase bbase mem 1048576 4194304 10 22).get_memory 512).2.get_memory
      2048).1).buddy_allocator_.free_chunk_list_ idx = []) ∧
    (((((create lbase bbase mem 1048576 4194304 10 22).get_memory 512).2.get_memory 2048).2.free
      ((create lbase bbase mem 1048576 4194304 10 22).get_memory 512).1).free (((create lbase
      bbase mem 1048576 4194304 10 22).get_memory 512).2.get_memory
      2048).1).buddy_allocator_.order_ ((((create lbase bbase mem 1048576 4194304 10
      22).get_memory 512).2.get_memory 2048).1 - CHUNK_SIZE) = 22 := by
  obtain ⟨e1, e2, e3, e4, e5, e6, e7⟩ := run_main lbase bbase mem hl hal hfit hb hdis
  rw [e5, e7, e2]
  simp only [Nat.add_sub_cancel]
  rw [e2] at e6
  refine ⟨e1, trivial, e3, e4, by simp, ?_, e6⟩
  intro idx hidx
  rw [Function.update_noteq hidx]

/-- C13 (amended) with the arena at `65536` and the buddy region at `4194304`. -/
theorem hybrid_end_to_end_witness :
    (65536 ≠ 0 ∧ 65536 % MAX_ALIGN = 0 ∧ 65536 + 1048576 + MAX_ALIGN ≤ WORD ∧ 4194304 ≠ 0 ∧
      ¬ (65536 ≤ 4194304 + CHUNK_SIZE ∧ 4194304 + CHUNK_SIZE < 65536 + 1048576)) ∧
    (((create 65536 4194304 (fun _ => 0) 1048576 4194304 10 22).get_memory 512).1 = 65536 ∧
    (((create 65536 4194304 (fun _ => 0) 1048576 4194304 10 22).get_memory 512).2.get_memory
      2048).1 - CHUNK_SIZE = (((create 65536 4194304 (fun _ => 0) 1048576 4194304 10
      22).get_memory 512).2.get_memory 2048).2.buddy_allocator_.base_addr_ ∧
    (((create 65536 4194304 (fun _ => 0) 1048576 4194304 10 22).get_memory 512).2.get_memory
      2048).2.buddy_allocator_.order_ ((((create 65536 4194304 (fun _ => 0) 1048576 4194304 10
      22).get_memory 512).2.get_memory 2048).1 - CHUNK_SIZE) = 12 ∧
    (((create 65536 4194304 (fun _ => 0) 1048576 4194304 10 22).get_memory 512).2.get_memory
      2048).2.free ((create 65536 4194304 (fun _ => 0) 1048576 4194304 10 22).get_memory 512).1
      = (((create 65536 4194304 (fun _ => 0) 1048576 4194304 10 22).get_memory 512).2.get_memory
      2048).2 ∧
    (((((create 65536 4194304 (fun _ => 0) 1048576 4194304 10 22).get_memory 512).2.get_memory
      2048).2.free ((create 65536 4194304 (fun _ => 0) 1048576 4194304 10 22).get_memory
      512).1).free (((create 65536 4194304 (fun _ => 0) 1048576 4194304 10 22).get_memory
      512).2.get_memory 2048).1).buddy_allocator_.free_chunk_list_ (22 - 10) = [(((create 65536
      4194304 (fun _ => 0) 1048576 4194304 10 22).get_memory 512).2.get_memory 2048).1 -
      CHUNK_SIZE] ∧
    (∀ idx, idx ≠ 22 - 10 → (((((create 65536 4194304 (fun _ => 0) 1048576 4194304 10
      22).get_memory 512).2.get_memory 2048).2.free ((create 65536 4194304 (fun _ => 0) 1048576
      4194304 10 22).get_memory 512).1).free (((create 65536 4194304 (fun _ => 0) 1048576
      4194304 10 22).get_memory 512).2.get_memory 2048).1).buddy_allocator_.free_chunk_list_ idx
      = []) ∧
    (((((create 65536 4194304 (fun _ => 0) 1048576 4194304 10 22).get_memory 512).2.get_memory
      2048).2.free ((create 65536 4194304 (fun _ => 0) 1048576 4194304 10 22).get_memory
      512).1).free (((create 65536 4194304 (fun _ => 0) 1048576 4194304 10 22).get_memory
      512).2.get_memory 2048).1).buddy_allocator_.order_ ((((create 65536 4194304 (fun _ => 0)
      1048576 4194304 10 22).get_memory 512).2.get_memory 2048).1 - CHUNK_SIZE) = 22) :=
  ⟨by decide,
   hybrid_end_to_end 65536 4194304 (fun _ => 0) (by decide) (by decide) (by decide)
     (by decide) (by decide)⟩

end HybridAllocator

/-! ## Coalescing is maximal -/

namespace BuddyAllocator

/-- C21: in a state reached from a constructed allocator, two chunks of the free lists
with the same header order `k` never have offsets that XOR to `2 ^ k`; stated by slot:
two chunks of one list `j`, of order `j + min_order_`, are never buddies. This holds for
every order, those below `max_order_` in particular. -/
theorem no_free_buddies (base : Nat) (mem : Nat → Nat)
    (max_memory min_order max_order : Nat) (hb : base ≠ 0)
    (s : BuddyAllocator) (live : List Nat)
    (hr : Reachable (create base mem max_memory min_order max_order) s live) :
    (∀ i j c c', c ∈ s.free_chunk_list_ i → c' ∈ s.free_chunk_list_ j →
      s.order_ c = s.order_ c' →
      (c - s.base_addr_) ^^^ (c' - s.base_addr_) ≠ 2 ^ s.order_ c) ∧
    (∀ j c c', c ∈ s.free_chunk_list_ j → c' ∈ s.free_chunk_list_ j →
      (c - s.base_addr_) ^^^ (c' - s.base_addr_) ≠ 2 ^ (j + s.min_order_)) := by
  have hI := reachable_inv (inv_create base mem max_memory min_order max_order hb) hr
  refine ⟨?_, hI.no_buddies⟩
  intro i j c c' hc hc' ho
  have h1 := hI.free_hdr i c hc
  have h2 := hI.free_hdr j c' hc'
  have hij : i = j := by omega
  subst hij
  rw [h1]
  exact hI.no_buddies i c c' hc hc'

/-- C21 on a 64-byte allocator with orders 4 to 6 after three calls `get_memory(0)`
(blocks of order 4 at offsets 0, 16 and 32) and `free_chunk` of the second pointer: the
free chunks at offsets 16 and 48, both of order 4, are not buddies. -/
theorem no_free_buddies_witness :
    (4096 ≠ 0 ∧
      Reachable (create 4096 (fun _ => 0) 64 4 6) (((((create 4096 (fun _ => 0) 64 4
        6).get_memory 0).2.get_memory 0).2.get_memory 0).2.free_chunk 4128) ([((((create 4096
        (fun _ => 0) 64 4 6).get_memory 0).2.get_memory 0).2.get_memory 0).1, (((create 4096
        (fun _ => 0) 64 4 6).get_memory 0).2.get_memory 0).1, ((create 4096 (fun _ => 0) 64 4
        6).get_memory 0).1].erase 4128) ∧
      4112 ∈ (((((create 4096 (fun _ => 0) 64 4 6).get_memory 0).2.get_memory 0).2.get_memory
        0).2.free_chunk 4128).free_chunk_list_ 0 ∧
      4144 ∈ (((((create 4096 (fun _ => 0) 64 4 6).get_memory 0).2.get_memory 0).2.get_memory
        0).2.free_chunk 4128).free_chunk_list_ 0 ∧
      (((((create 4096 (fun _ => 0) 64 4 6).get_memory 0).2.get_memory 0).2.get_memory
        0).2.free_chunk 4128).order_ 4112 = (((((create 4096 (fun _ => 0) 64 4 6).get_memory
        0).2.get_memory 0).2.get_memory 0).2.free_chunk 4128).order_ 4144) ∧
    (4112 - (((((create 4096 (fun _ => 0) 64 4 6).get_memory 0).2.get_memory 0).2.get_memory
      0).2.free_chunk 4128).base_addr_) ^^^ (4144 - (((((create 4096 (fun _ => 0) 64 4
      6).get_memory 0).2.get_memory 0).2.get_memory 0).2.free_chunk 4128).base_addr_) ≠ 2 ^
      (((((create 4096 (fun _ => 0) 64 4 6).get_memory 0).2.get_memory 0).2.get_memory
      0).2.free_chunk 4128).order_ 4112 :=
  ⟨⟨by decide,
    (Reachable.free 4128 (Reachable.alloc_ok 0 (Reachable.alloc_ok 0 (Reachable.alloc_ok 0
      Reachable.init (by decide)) (by decide)) (by decide)) (by decide)),
    by decide, by decide, by decide⟩,
   (no_free_buddies 4096 (fun _ => 0) 64 4 6 (by decide) _ _
      (Reachable.free 4128 (Reachable.alloc_ok 0 (Reachable.alloc_ok 0 (Reachable.alloc_ok 0
        Reachable.init (by decide)) (by decide)) (by decide)) (by decide))).1
     0 0 4112 4144 (by decide) (by decide) (by decide)⟩

end BuddyAllocator

/-! ## Buddy allocator: `free_chunk` of a pointer that was not handed out -/

namespace BuddyAllocator

end BuddyAllocator

end W1
